import Mathlib

/-!
# Directed graphs with unweighted and positive-weighted shortest paths

A shallow embedding of `code4a/digraph.cpp` (class `Digraph`): the constructors,
`insertEdge`, `removeEdge`, `uwsssp` (breadth-first search), `pwsssp` (Dijkstra with a
linear scan), `find_smallest_undone_distance_vertex`, `printPath` and `printPathHelper`.

Conventions of the embedding.
* A C++ `int` is an `Int`; the two additions on distances (`dist[v] + 1`, `dist[v] + w`)
  are wrapped to 32 bits by `wrap32`.
* A `std::vector` is a `List`; `a[i]` is `rd a i` (or `row`, `rdDone`), `a[i] = x` is `wr a i x`.
* A failed `assert` is the result `Except.error Fault.assertion`.
* The three unbounded loops (`while (!Q.empty())`, `while (true)`, the recursion of
  `printPathHelper`) take a fuel argument that bounds the number of body executions;
  running out of it is the result `Except.error Fault.fuel`.
* `std::cout` output is modelled by the values written, without the layout strings.
-/

namespace TND004

/-! ## Machine integers and vectors -/

/-- The value of `std::numeric_limits<int>::max()`. -/
def INT_MAX : Int := 2147483647

/-- Reduction of an integer to the 32-bit two's complement range. -/
def wrap32 (x : Int) : Int := (x + 2147483648) % 4294967296 - 2147483648

/-- Read `a[i]` of a `std::vector<int>`; an index outside the vector reads 0. -/
def rd (a : List Int) (i : Int) : Int := a.getD i.toNat 0

/-- Read `done[i]` of the `std::vector<bool>`; an index outside the vector reads false. -/
def rdDone (a : List Bool) (i : Int) : Bool := a.getD i.toNat false

/-- Write `a[i] = x`; an index outside the vector leaves it as it is. -/
def wr {α : Type} (a : List α) (i : Int) (x : α) : List α := a.set i.toNat x

/-- Why a call did not return normally. -/
inductive Fault where
  | assertion
  | fuel
deriving DecidableEq, Repr

/-! ## Data model -/

/-- An edge `(from, to, weight)`, with the three `int` members `digraph.cpp` reads and
writes; the fields `from` and `to` are spelled `from_` and `to_`. -/
structure Edge where
  from_ : Int
  to_ : Int
  weight : Int
deriving DecidableEq, Repr

/-- Modelled from the spec: `Edge::links_same_nodes` is declared in `digraph.h`, which is
not among the sources. "Two edges are the same link iff they share (from, to), regardless
of weight." -/
def Edge.links_same_nodes (e ed : Edge) : Bool :=
  decide (e.from_ = ed.from_) && decide (e.to_ = ed.to_)

/-- The data members of `Digraph`, as `digraph.cpp` uses them: the adjacency lists `table`
(slot 0 unused), the vertex count `size`, the edge count `n_edges` (counted without a
bound) and the run state `dist`, `path`, `done` that the two runs overwrite. -/
structure Digraph where
  table : List (List Edge)
  size : Int
  n_edges : Int
  dist : List Int
  path : List Int
  done : List Bool
deriving DecidableEq, Repr

/-- The adjacency list `table[v]`. -/
def row (table : List (List Edge)) (v : Int) : List Edge := table.getD v.toNat []

/-- The position `std::find_if` stops at, `none` standing for `end`. -/
def find_if (p : Edge → Bool) : List Edge → Option Nat
  | [] => none
  | x :: xs => if p x then some 0 else (find_if p xs).map (· + 1)

/-! ## Constructors and mutation -/

/-- The constructor `Digraph(int n)`: every vector gets `n + 1` slots (`dist` and `path`
filled with 0, `done` with false), and `n >= 1` is asserted. For `n = INT_MAX` the count
`n + 1` is not an `int` (wrapped to 32 bits it is negative, a size no vector can have), so
the construction fails as well. -/
def Digraph.create (n : Int) : Except Fault Digraph :=
  if n + 1 ≤ INT_MAX ∧ 1 ≤ n then
    .ok { table := List.replicate (n + 1).toNat [], size := n, n_edges := 0,
          dist := List.replicate (n + 1).toNat 0, path := List.replicate (n + 1).toNat 0,
          done := List.replicate (n + 1).toNat false }
  else .error .assertion

/-- The member function `insertEdge`. -/
def insertEdge (g : Digraph) (e : Edge) : Except Fault Digraph :=
  if ¬ (1 ≤ e.from_ ∧ e.from_ ≤ g.size) then .error .assertion
  else if ¬ (1 ≤ e.to_ ∧ e.to_ ≤ g.size) then .error .assertion
  else
    match find_if (fun ed => e.links_same_nodes ed) (row g.table e.from_) with
    | none =>
      .ok { g with table := wr g.table e.from_ (row g.table e.from_ ++ [e]),
                   n_edges := g.n_edges + 1 }
    | some i =>
      .ok { g with table := wr g.table e.from_
                     ((row g.table e.from_).modify (fun ed => { ed with weight := e.weight }) i) }

/-- The body of `removeEdge`, as the state of the graph when the call stops together with
the assertion that stopped it, if one did. -/
def removeEdgeRun (g : Digraph) (e : Edge) : Digraph × Option Fault :=
  if ¬ (1 ≤ e.from_ ∧ e.from_ ≤ g.size) then (g, some .assertion)
  else if ¬ (1 ≤ e.to_ ∧ e.to_ ≤ g.size) then (g, some .assertion)
  else
    match find_if (fun ed => e.links_same_nodes ed) (row g.table e.from_) with
    | none => (g, some .assertion)
    | some i =>
      ({ g with table := wr g.table e.from_ ((row g.table e.from_).eraseIdx i),
                n_edges := g.n_edges - 1 }, none)

/-- The member function `removeEdge`: the graph it leaves, or the failed assertion. -/
def removeEdge (g : Digraph) (e : Edge) : Except Fault Digraph :=
  match removeEdgeRun g e with
  | (g1, none) => .ok g1
  | (_, some f) => .error f

/-- The loop of the constructor `Digraph(V, n)`: insert the edges in their order. -/
def insertEdges : List Edge → Digraph → Except Fault Digraph
  | [], g => .ok g
  | e :: rest, g =>
    match insertEdge g e with
    | .ok g1 => insertEdges rest g1
    | .error f => .error f

/-- The constructor `Digraph(const std::vector<Edge>& V, int n)`. -/
def Digraph.createFrom (V : List Edge) (n : Int) : Except Fault Digraph :=
  match Digraph.create n with
  | .ok g => insertEdges V g
  | .error f => .error f

/-! ## Shortest paths -/

/-- The run state the two algorithms work on. -/
structure Run where
  dist : List Int
  path : List Int
  done : List Bool
deriving DecidableEq, Repr

/-- The inner loop of `uwsssp`: the edges of `table[v]` still to visit, the run state and
the queue. -/
def uwssspScan (v : Int) : List Edge → Run → List Int → Run × List Int
  | [], r, Q => (r, Q)
  | edge :: rest, r, Q =>
    let u := edge.to_
    if rd r.dist u = INT_MAX then
      uwssspScan v rest
        { r with dist := wr r.dist u (wrap32 (rd r.dist v + 1)), path := wr r.path u v }
        (Q ++ [u])
    else uwssspScan v rest r Q

/-- The loop `while (!Q.empty())` of `uwsssp`; the fuel bounds the number of dequeued
vertices. -/
def uwssspLoop (table : List (List Edge)) : Nat → Run → List Int → Except Fault Run
  | _, r, [] => .ok r
  | 0, _, _ :: _ => .error .fuel
  | fuel + 1, r, v :: Q =>
    uwssspLoop table fuel (uwssspScan v (row table v) r Q).1 (uwssspScan v (row table v) r Q).2

/-- The member function `uwsssp`. -/
def uwsssp (fuel : Nat) (g : Digraph) (s : Int) : Except Fault Digraph :=
  if ¬ (1 ≤ s ∧ s ≤ g.size) then .error .assertion
  else
    match uwssspLoop g.table fuel
        { dist := wr (List.replicate g.dist.length INT_MAX) s 0,
          path := List.replicate g.path.length 0,
          done := g.done } [s] with
    | .ok r => .ok { g with dist := r.dist, path := r.path }
    | .error f => .error f

/-- The loop of `find_smallest_undone_distance_vertex` over the indices still to visit,
with the current `min_distance` and `vertex_index`. -/
def scanMin (r : Run) : List Int → Int → Int → Int
  | [], _, vertex_index => vertex_index
  | i :: rest, min_distance, vertex_index =>
    if (!rdDone r.done i) && decide (rd r.dist i < min_distance) then
      scanMin r rest (rd r.dist i) i
    else scanMin r rest min_distance vertex_index

/-- The indices `1, ..., size` the scan visits (its counter stays an `int` as long as
`size < INT_MAX`, which holds in every well-formed graph). -/
def vertexIds (size : Int) : List Int :=
  (List.range size.toNat).map (fun (k : Nat) => (k : Int) + 1)

/-- The member function `find_smallest_undone_distance_vertex`. -/
def find_smallest_undone_distance_vertex (size : Int) (r : Run) : Int :=
  scanMin r (vertexIds size) INT_MAX 0

/-- The inner loop of `pwsssp`: relax the edges of `table[v]` still to visit. -/
def pwssspScan (v : Int) : List Edge → Run → Run
  | [], r => r
  | edge :: rest, r =>
    let u := edge.to_
    let w := edge.weight
    if (!rdDone r.done u) && decide (rd r.dist u > wrap32 (rd r.dist v + w)) then
      pwssspScan v rest
        { r with dist := wr r.dist u (wrap32 (rd r.dist v + w)), path := wr r.path u v }
    else pwssspScan v rest r

/-- The loop `while (true)` of `pwsssp`; the fuel bounds the number of times its body
runs. -/
def pwssspLoop (table : List (List Edge)) (size : Int) : Nat → Int → Run → Except Fault Run
  | 0, _, _ => .error .fuel
  | fuel + 1, v, r =>
    let r1 := pwssspScan v (row table v) r
    let v1 := find_smallest_undone_distance_vertex size r1
    if v1 = 0 then .ok r1
    else pwssspLoop table size fuel v1 { r1 with done := wr r1.done v1 true }

/-- The member function `pwsssp`. -/
def pwsssp (fuel : Nat) (g : Digraph) (s : Int) : Except Fault Digraph :=
  if ¬ (1 ≤ s ∧ s ≤ g.size) then .error .assertion
  else
    match pwssspLoop g.table g.size fuel s
        { dist := wr (List.replicate g.dist.length INT_MAX) s 0,
          path := List.replicate g.path.length 0,
          done := wr (List.replicate g.done.length false) s true } with
    | .ok r => .ok { g with dist := r.dist, path := r.path, done := r.done }
    | .error f => .error f

/-! ## Path output -/

/-- The member function `printPathHelper`: the vertices written to `std::cout`, in the
order they are written; the fuel bounds the recursion depth. -/
def printPathHelper (path : List Int) : Nat → Int → Except Fault (List Int)
  | 0, _ => .error .fuel
  | fuel + 1, t =>
    if rd path t = 0 then .ok [t]
    else
      match printPathHelper path fuel (rd path t) with
      | .ok out => .ok (out ++ [t])
      | .error f => .error f

/-- What `printPath` writes: the "No path to vertex t" line, or the "Shortest path ="
line with its vertices and the total in brackets. -/
inductive PathOutput where
  | noPath (t : Int)
  | shortest (vertices : List Int) (total : Int)
deriving DecidableEq, Repr

/-- The member function `printPath`. -/
def printPath (fuel : Nat) (g : Digraph) (t : Int) : Except Fault PathOutput :=
  if ¬ (1 ≤ t ∧ t ≤ g.size) then .error .assertion
  else if rd g.dist t = INT_MAX then .ok (.noPath t)
  else
    match printPathHelper g.path fuel t with
    | .ok out => .ok (.shortest out (rd g.dist t))
    | .error f => .error f

/-! ## Specification vocabulary -/

/-- The edge list `p` is a directed path from `a` to `b`: each edge is stored in the
adjacency list of the vertex reached so far. -/
def IsPath (table : List (List Edge)) : Int → List Edge → Int → Prop
  | a, [], b => a = b
  | a, e :: es, b => e ∈ row table a ∧ IsPath table e.to_ es b

/-- The sum of the edge weights of a path. -/
def pathWeight (p : List Edge) : Int := (p.map (fun e => e.weight)).sum

/-- The sum of the weights of all stored edges. -/
def totalWeight (table : List (List Edge)) : Int :=
  (table.map pathWeight).sum

/-- All stored weights are non-negative. -/
def NonNeg (table : List (List Edge)) : Prop := ∀ l ∈ table, ∀ e ∈ l, 0 ≤ e.weight

/-- No two entries of an adjacency list have the same target. -/
def NoParallel (l : List Edge) : Prop := l.Pairwise (fun a b => a.to_ ≠ b.to_)

/-- Well-formed graphs: between 1 and `INT_MAX - 1` vertices, all vectors of `size + 1`
slots, the edge count equal to the number of stored edges, and every edge stored in slot
`k` leads from `k` to a vertex in `1..size`, at most one per target. Slot 0 is empty.
Every graph the constructors, `insertEdge` and `removeEdge` produce has these properties
(`Built.wellFormed`), and the two shortest-path runs keep them. -/
def WellFormed (g : Digraph) : Prop :=
  1 ≤ g.size ∧ g.size < INT_MAX ∧
  g.table.length = (g.size + 1).toNat ∧
  g.dist.length = (g.size + 1).toNat ∧
  g.path.length = (g.size + 1).toNat ∧
  g.done.length = (g.size + 1).toNat ∧
  g.n_edges = ((g.table.map List.length).sum : Nat) ∧
  g.table.head? = some [] ∧
  (∀ k ∈ List.range g.table.length, ∀ e ∈ g.table.getD k [],
      e.from_ = (k : Int) ∧ 1 ≤ e.to_ ∧ e.to_ ≤ g.size) ∧
  (∀ l ∈ g.table, NoParallel l)

instance (l : List Edge) : Decidable (NoParallel l) := by
  unfold NoParallel; infer_instance

instance (g : Digraph) : Decidable (WellFormed g) := by
  unfold WellFormed; infer_instance

instance (table : List (List Edge)) : Decidable (NonNeg table) := by
  unfold NonNeg; infer_instance

instance (table : List (List Edge)) (p : List Edge) :
    ∀ a b, Decidable (IsPath table a p b) := by
  induction p with
  | nil => intro a b; unfold IsPath; infer_instance
  | cons e es ih => intro a b; unfold IsPath; exact instDecidableAnd

/-- The graphs the constructors, `insertEdge` and `removeEdge` can produce. -/
inductive Built : Digraph → Prop where
  | create (n : Int) (g : Digraph) : Digraph.create n = .ok g → Built g
  | createFrom (V : List Edge) (n : Int) (g : Digraph) :
      Digraph.createFrom V n = .ok g → Built g
  | insert (g : Digraph) (e : Edge) (g1 : Digraph) :
      Built g → insertEdge g e = .ok g1 → Built g1
  | remove (g : Digraph) (e : Edge) (g1 : Digraph) :
      Built g → removeEdge g e = .ok g1 → Built g1

/-- The sum of the costs of the edges of a path, for a cost per edge. -/
def pathCost (cost : Edge → Int) (p : List Edge) : Int := (p.map cost).sum

/-- The edge list `c` is the predecessor chain of `v`, last edge first: its head is an edge
into `v` stored in the adjacency list of `path[v]`, its tail is the chain of `path[v]`, and
the chain ends when `s` is reached. -/
def IsChain (table : List (List Edge)) (path : List Int) (s : Int) : List Edge → Int → Prop
  | [], v => v = s
  | e :: es, v => e.to_ = v ∧ e ∈ row table (rd path v) ∧ IsChain table path s es (rd path v)

/-- Every stored edge leaves a vertex in `1..n` and enters a vertex in `1..n`. -/
def TableOK (table : List (List Edge)) (n : Int) : Prop :=
  ∀ v e, e ∈ row table v → 1 ≤ v ∧ v ≤ n ∧ 1 ≤ e.to_ ∧ e.to_ ≤ n

/-- The shape both algorithms leave behind, for the list `L` of the vertices they reached:
the source has distance 0 and no predecessor, every reached vertex has a finite distance and
a predecessor chain over pairwise different vertices of `L`, of cost equal to its distance
when `exact` holds, and every other vertex keeps the initial values. -/
structure TreeShape (table : List (List Edge)) (n s : Int) (cost : Edge → Int) (exact : Prop)
    (dist path : List Int) (L : List Int) : Prop where
  src_mem : s ∈ L
  src_dist : rd dist s = 0
  src_path : rd path s = 0
  range : ∀ x ∈ L, 1 ≤ x ∧ x ≤ n
  chain : ∀ x ∈ L, ∃ c, IsChain table path s c x ∧ (c.map (fun e => e.to_)).Nodup ∧
    (∀ e ∈ c, e.to_ ∈ L) ∧ (exact → pathCost cost c = rd dist x)
  finite : ∀ x ∈ L, rd dist x ≠ INT_MAX
  fresh : ∀ x, x ∉ L → 1 ≤ x → x ≤ n → rd dist x = INT_MAX ∧ rd path x = 0

/-- A shape with exact chain costs in which no edge leaves `L` or shortens a distance. -/
structure TreeFinal (table : List (List Edge)) (n s : Int) (cost : Edge → Int)
    (dist path : List Int) (L : List Int) : Prop where
  shape : TreeShape table n s cost True dist path L
  closed : ∀ x ∈ L, ∀ e ∈ row table x, e.to_ ∈ L ∧ rd dist e.to_ ≤ rd dist x + cost e

/-- The weights of stored edges with pairwise different targets always sum to an `int`
that is at most `B`. -/
def Bounded (table : List (List Edge)) (B : Int) : Prop :=
  ∀ c : List Edge, (∀ e ∈ c, ∃ l ∈ table, e ∈ l) → (c.map (fun e => e.to_)).Nodup →
    -2147483648 ≤ pathWeight c ∧ pathWeight c ≤ B

/-- The invariant of the loop of `uwsssp` when `v` has been taken from the queue: `L` lists
the vertices visited so far in the order of their visit, `P` those whose edges have all
been seen. -/
structure BfsInv (table : List (List Edge)) (n s : Int) (r : Run) (L P : List Int) (v : Int) :
    Prop where
  len_dist : r.dist.length = (n + 1).toNat
  len_path : r.path.length = (n + 1).toNat
  nodup : L.Nodup
  cur_mem : v ∈ L
  sub : ∀ x ∈ P, x ∈ L
  shape : TreeShape table n s (fun _ => 1) True r.dist r.path L
  closed : ∀ x ∈ P, ∀ e ∈ row table x, e.to_ ∈ L ∧ rd r.dist e.to_ ≤ rd r.dist x + 1
  sorted : L.Pairwise (fun a b => rd r.dist a ≤ rd r.dist b)
  span : ∀ x ∈ L, rd r.dist x ≤ rd r.dist v + 1

/-- The invariant of the loop of `pwsssp` when `v` has been marked done: `L` lists the done
vertices in the order they were marked, `P` those whose edges have all been relaxed. The
last field is what non-negative weights without overflow add: the done vertices are the
nearest ones, and no relaxed edge shortens a distance. -/
structure DijInv (table : List (List Edge)) (n s : Int) (r : Run) (L P : List Int) (v : Int) :
    Prop where
  len_dist : r.dist.length = (n + 1).toNat
  len_path : r.path.length = (n + 1).toNat
  len_done : r.done.length = (n + 1).toNat
  nodup : L.Nodup
  range : ∀ x ∈ L, 1 ≤ x ∧ x ≤ n
  cur_mem : v ∈ L
  sub : ∀ x ∈ P, x ∈ L
  done_iff : ∀ x, rdDone r.done x = true ↔ x ∈ L
  src_mem : s ∈ L
  src_dist : rd r.dist s = 0
  src_path : rd r.path s = 0
  le_max : ∀ x, rd r.dist x ≤ INT_MAX
  finite : ∀ x ∈ L, rd r.dist x ≠ INT_MAX
  chain : ∀ x, 1 ≤ x → x ≤ n → rd r.dist x ≠ INT_MAX →
    ∃ c, IsChain table r.path s c x ∧ (c.map (fun e => e.to_)).Nodup ∧
      (∀ e ∈ c, e.to_ ∈ L ∨ e.to_ = x) ∧ (Bounded table INT_MAX → pathWeight c = rd r.dist x)
  fresh : ∀ x, 1 ≤ x → x ≤ n → rd r.dist x = INT_MAX → rd r.path x = 0
  greedy : NonNeg table → Bounded table INT_MAX →
    (∀ x ∈ L, rd r.dist x ≤ rd r.dist v) ∧
    (∀ x, 1 ≤ x → x ≤ n → x ∉ L → rd r.dist v ≤ rd r.dist x) ∧
    (∀ x ∈ P, ∀ e ∈ row table x, rd r.dist e.to_ ≤ rd r.dist x + e.weight)

/-- What holds of the distances `pwsssp` writes whatever the weights: every vertex of `1..n`
with a finite distance has a predecessor chain through done vertices, and its distance is
the weight of that chain reduced to 32 bits. -/
def DijWrap (table : List (List Edge)) (n s : Int) (r : Run) (L : List Int) : Prop :=
  ∀ x, 1 ≤ x → x ≤ n → rd r.dist x ≠ INT_MAX →
    ∃ c, IsChain table r.path s c x ∧ (∀ e ∈ c, e.to_ ∈ L ∨ e.to_ = x) ∧
      rd r.dist x = wrap32 (pathWeight c)

/-! ## Traces of the two runs

The functions below follow the loops of `uwsssp` and `pwsssp` step by step and record what
the loops do: the vertices their bodies run for, the sums they evaluate, and the subscripts
they apply to `table`, `dist`, `path` and `done`. -/

/-- The vertices the loop of `uwsssp` takes from the queue, in this order, one per run of
the loop body. -/
def uwssspLoopOrder (table : List (List Edge)) : Nat → Run → List Int → List Int
  | _, _, [] => []
  | 0, _, _ :: _ => []
  | fuel + 1, r, v :: Q =>
    v :: uwssspLoopOrder table fuel (uwssspScan v (row table v) r Q).1
      (uwssspScan v (row table v) r Q).2

/-- The vertices `uwsssp` takes from the queue, in this order. -/
def uwssspOrder (fuel : Nat) (g : Digraph) (s : Int) : List Int :=
  if ¬ (1 ≤ s ∧ s ≤ g.size) then []
  else
    uwssspLoopOrder g.table fuel
      { dist := wr (List.replicate g.dist.length INT_MAX) s 0,
        path := List.replicate g.path.length 0,
        done := g.done } [s]

/-- The vertices the body of the loop of `pwsssp` runs for: the current vertex first, then
each vertex the loop marks done. -/
def pwssspLoopOrder (table : List (List Edge)) (size : Int) : Nat → Int → Run → List Int
  | 0, _, _ => []
  | fuel + 1, v, r =>
    let r1 := pwssspScan v (row table v) r
    let v1 := find_smallest_undone_distance_vertex size r1
    if v1 = 0 then [v]
    else v :: pwssspLoopOrder table size fuel v1 { r1 with done := wr r1.done v1 true }

/-- The vertices the body of the loop of `pwsssp` runs for: the source first, then each
vertex the loop marks done. -/
def pwssspOrder (fuel : Nat) (g : Digraph) (s : Int) : List Int :=
  if ¬ (1 ≤ s ∧ s ≤ g.size) then []
  else
    pwssspLoopOrder g.table g.size fuel s
      { dist := wr (List.replicate g.dist.length INT_MAX) s 0,
        path := List.replicate g.path.length 0,
        done := wr (List.replicate g.done.length false) s true }

/-- The exact values of the sums `dist[v] + 1` the inner loop of `uwsssp` evaluates: one
for each edge whose target has not been visited. -/
def uwssspScanSums (v : Int) : List Edge → Run → List Int
  | [], _ => []
  | edge :: rest, r =>
    let u := edge.to_
    if rd r.dist u = INT_MAX then
      (rd r.dist v + 1) :: uwssspScanSums v rest
        { r with dist := wr r.dist u (wrap32 (rd r.dist v + 1)), path := wr r.path u v }
    else uwssspScanSums v rest r

/-- The exact values of the sums `dist[v] + 1` the loop of `uwsssp` evaluates. -/
def uwssspLoopSums (table : List (List Edge)) : Nat → Run → List Int → List Int
  | _, _, [] => []
  | 0, _, _ :: _ => []
  | fuel + 1, r, v :: Q =>
    uwssspScanSums v (row table v) r ++
      uwssspLoopSums table fuel (uwssspScan v (row table v) r Q).1
        (uwssspScan v (row table v) r Q).2

/-- The exact values of the sums `dist[v] + 1` that `uwsssp` evaluates. -/
def uwssspSums (fuel : Nat) (g : Digraph) (s : Int) : List Int :=
  if ¬ (1 ≤ s ∧ s ≤ g.size) then []
  else
    uwssspLoopSums g.table fuel
      { dist := wr (List.replicate g.dist.length INT_MAX) s 0,
        path := List.replicate g.path.length 0,
        done := g.done } [s]

/-- The exact values of the sums `dist[v] + w` the inner loop of `pwsssp` evaluates: one
for each edge whose target is not done (for a done target `&&` skips the comparison). -/
def pwssspScanSums (v : Int) : List Edge → Run → List Int
  | [], _ => []
  | edge :: rest, r =>
    let u := edge.to_
    let w := edge.weight
    if rdDone r.done u then pwssspScanSums v rest r
    else if rd r.dist u > wrap32 (rd r.dist v + w) then
      (rd r.dist v + w) :: pwssspScanSums v rest
        { r with dist := wr r.dist u (wrap32 (rd r.dist v + w)), path := wr r.path u v }
    else (rd r.dist v + w) :: pwssspScanSums v rest r

/-- The exact values of the sums `dist[v] + w` the loop of `pwsssp` evaluates. -/
def pwssspLoopSums (table : List (List Edge)) (size : Int) : Nat → Int → Run → List Int
  | 0, _, _ => []
  | fuel + 1, v, r =>
    let r1 := pwssspScan v (row table v) r
    let v1 := find_smallest_undone_distance_vertex size r1
    if v1 = 0 then pwssspScanSums v (row table v) r
    else pwssspScanSums v (row table v) r ++
      pwssspLoopSums table size fuel v1 { r1 with done := wr r1.done v1 true }

/-- The exact values of the sums `dist[v] + w` that `pwsssp` evaluates. -/
def pwssspSums (fuel : Nat) (g : Digraph) (s : Int) : List Int :=
  if ¬ (1 ≤ s ∧ s ≤ g.size) then []
  else
    pwssspLoopSums g.table g.size fuel s
      { dist := wr (List.replicate g.dist.length INT_MAX) s 0,
        path := List.replicate g.path.length 0,
        done := wr (List.replicate g.done.length false) s true }

/-- The subscripts one run of a loop body applies for the vertex `v`: `v` itself
(`table[v]`, `dist[v]`) and the target of every edge of `table[v]` (`dist[u]`, `path[u]`,
`done[u]`). -/
def bodySubscripts (table : List (List Edge)) (v : Int) : List Int :=
  v :: (row table v).map (fun e => e.to_)

/-- The subscripts `uwsssp` applies to `table`, `dist` and `path` once its assertion has
passed: the source, and those of every run of the loop body. -/
def uwssspSubscripts (fuel : Nat) (g : Digraph) (s : Int) : List Int :=
  if ¬ (1 ≤ s ∧ s ≤ g.size) then []
  else s :: (uwssspOrder fuel g s).flatMap (bodySubscripts g.table)

/-- The subscripts `pwsssp` applies to `table`, `dist`, `path` and `done` once its assertion
has passed: the source, those of every run of the loop body, and the indices `1..size` of
the scan for the next vertex (the vertex marked done is one of them). -/
def pwssspSubscripts (fuel : Nat) (g : Digraph) (s : Int) : List Int :=
  if ¬ (1 ≤ s ∧ s ≤ g.size) then []
  else s :: (pwssspOrder fuel g s).flatMap (bodySubscripts g.table) ++ vertexIds g.size

/-- The graph of the worked example: edges 1→2 (1), 2→3 (1), 1→3 (5) on 3 vertices. -/
def exampleEdges : List Edge := [⟨1, 2, 1⟩, ⟨2, 3, 1⟩, ⟨1, 3, 5⟩]

/-- The graph `Digraph(exampleEdges, 3)` builds. -/
def exampleGraph : Digraph :=
  { table := [[], [⟨1, 2, 1⟩, ⟨1, 3, 5⟩], [⟨2, 3, 1⟩], []], size := 3, n_edges := 3,
    dist := [0, 0, 0, 0], path := [0, 0, 0, 0], done := [false, false, false, false] }

/-- A well-formed graph on 3 vertices whose path 1→2→3 weighs `INT_MAX + 1`. -/
def overflowGraph : Digraph :=
  { table := [[], [⟨1, 2, 2147483646⟩], [⟨2, 3, 2⟩], []], size := 3, n_edges := 2,
    dist := [0, 0, 0, 0], path := [0, 0, 0, 0], done := [false, false, false, false] }

/-- A well-formed graph on 4 vertices in which no edge starts or ends at vertex 4. -/
def isolatedGraph : Digraph :=
  { table := [[], [⟨1, 2, 3⟩], [], [⟨3, 1, 1⟩], []], size := 4, n_edges := 2,
    dist := [0, 0, 0, 0, 0], path := [0, 0, 0, 0, 0],
    done := [false, false, false, false, false] }

/-- A well-formed graph on 3 vertices with a self-loop at 1 and the cycle 1→2→3→1. -/
def cycleGraph : Digraph :=
  { table := [[], [⟨1, 1, 4⟩, ⟨1, 2, 1⟩], [⟨2, 3, 1⟩], [⟨3, 1, 1⟩]], size := 3, n_edges := 4,
    dist := [0, 0, 0, 0], path := [0, 0, 0, 0], done := [false, false, false, false] }

/-- The example graph with other weights on the same edges, and an earlier run state. -/
def exampleGraphReweighted : Digraph :=
  { table := [[], [⟨1, 2, -7⟩, ⟨1, 3, 0⟩], [⟨2, 3, 100⟩], []], size := 3, n_edges := 3,
    dist := [9, 8, 7, 6], path := [3, 3, 3, 3], done := [true, true, false, true] }

/-- The example graph in the run state `pwsssp 2` leaves. -/
def exampleGraphUsed : Digraph :=
  { exampleGraph with
    dist := [2147483647, 2147483647, 0, 1], path := [0, 0, 0, 2],
    done := [false, false, true, true] }

/-- A well-formed graph on 4 vertices with weight 1 on every edge; vertex 4 has no
incoming edge. -/
def unitGraph : Digraph :=
  { table := [[], [⟨1, 3, 1⟩, ⟨1, 2, 1⟩], [⟨2, 3, 1⟩, ⟨2, 1, 1⟩], [⟨3, 3, 1⟩], [⟨4, 1, 1⟩]],
    size := 4, n_edges := 6,
    dist := [0, 0, 0, 0, 0], path := [0, 0, 0, 0, 0],
    done := [false, false, false, false, false] }

/-! # Theorems -/

/-! ## Vectors -/

theorem wrap32_eq {x : Int} (h1 : -2147483648 ≤ x) (h2 : x ≤ 2147483647) : wrap32 x = x := by
  unfold wrap32; omega

theorem length_wr {α : Type} (a : List α) (i : Int) (x : α) : (wr a i x).length = a.length := by
  simp [wr]

theorem rd_wr_same {a : List Int} {i : Int} {x : Int} (h : i.toNat < a.length) :
    rd (wr a i x) i = x := by
  simp [rd, wr, List.getD_eq_getElem?_getD, List.getElem?_set, h]

theorem rd_wr_ne {a : List Int} {i j : Int} {x : Int} (h : i.toNat ≠ j.toNat) :
    rd (wr a i x) j = rd a j := by
  simp [rd, wr, List.getD_eq_getElem?_getD, List.getElem?_set, h]

theorem rdDone_wr_same {a : List Bool} {i : Int} {x : Bool} (h : i.toNat < a.length) :
    rdDone (wr a i x) i = x := by
  simp [rdDone, wr, List.getD_eq_getElem?_getD, List.getElem?_set, h]

theorem rdDone_wr_ne {a : List Bool} {i j : Int} {x : Bool} (h : i.toNat ≠ j.toNat) :
    rdDone (wr a i x) j = rdDone a j := by
  simp [rdDone, wr, List.getD_eq_getElem?_getD, List.getElem?_set, h]

theorem row_wr_same {t : List (List Edge)} {i : Int} {x : List Edge} (h : i.toNat < t.length) :
    row (wr t i x) i = x := by
  simp [row, wr, List.getD_eq_getElem?_getD, List.getElem?_set, h]

theorem row_wr_ne {t : List (List Edge)} {i j : Int} {x : List Edge} (h : i.toNat ≠ j.toNat) :
    row (wr t i x) j = row t j := by
  simp [row, wr, List.getD_eq_getElem?_getD, List.getElem?_set, h]

theorem rd_replicate {n : Nat} {x : Int} {i : Int} (h : i.toNat < n) :
    rd (List.replicate n x) i = x := by
  simp [rd, List.getD_eq_getElem?_getD, List.getElem?_replicate, h]

theorem rdDone_replicate_false (n : Nat) (i : Int) :
    rdDone (List.replicate n false) i = false := by
  simp only [rdDone, List.getD_eq_getElem?_getD, List.getElem?_replicate]
  split <;> rfl

theorem rd_replicate_zero (n : Nat) (i : Int) : rd (List.replicate n 0) i = 0 := by
  simp only [rd, List.getD_eq_getElem?_getD, List.getElem?_replicate]
  split <;> rfl

/-! ## find_if -/

theorem find_if_none {p : Edge → Bool} {l : List Edge} :
    find_if p l = none ↔ ∀ x ∈ l, p x = false := by
  induction l with
  | nil => simp [find_if]
  | cons a l ih =>
    by_cases h : p a = true
    · simp [find_if, h]
    · simp [find_if, h, ih]

theorem find_if_some {p : Edge → Bool} {l : List Edge} {i : Nat} (h : find_if p l = some i) :
    ∃ l1 x l2, l = l1 ++ x :: l2 ∧ l1.length = i ∧ p x = true ∧ ∀ y ∈ l1, p y = false := by
  induction l generalizing i with
  | nil => simp [find_if] at h
  | cons a l ih =>
    by_cases hp : p a = true
    · simp [find_if, hp] at h
      exact ⟨[], a, l, by simp, by simp [h], hp, by simp⟩
    · simp only [find_if, hp] at h
      cases hf : find_if p l with
      | none => simp [hf] at h
      | some j =>
        simp [hf] at h
        obtain ⟨l1, x, l2, rfl, hl, hx, hall⟩ := ih hf
        refine ⟨a :: l1, x, l2, by simp, by simp [hl, h], hx, ?_⟩
        intro y hy
        rcases List.mem_cons.1 hy with rfl | hy
        · simpa using hp
        · exact hall y hy

theorem modify_split {f : Edge → Edge} (l1 : List Edge) (x : Edge) (l2 : List Edge) :
    (l1 ++ x :: l2).modify f l1.length = l1 ++ f x :: l2 := by
  induction l1 with
  | nil => simp [List.modify]
  | cons a l1 ih => simpa [List.modify] using ih

theorem eraseIdx_split (l1 : List Edge) (x : Edge) (l2 : List Edge) :
    (l1 ++ x :: l2).eraseIdx l1.length = l1 ++ l2 := by
  induction l1 with
  | nil => simp
  | cons a l1 ih => simpa using ih

/-! ## Well-formed graphs -/

theorem sum_length_set (t : List (List Edge)) (k : Nat) (l : List Edge) (hk : k < t.length) :
    ((((t.set k l).map List.length).sum : Nat) : Int)
      = ((t.map List.length).sum : Nat) + l.length - (t.getD k []).length := by
  induction t generalizing k with
  | nil => simp at hk
  | cons a t ih =>
    cases k with
    | zero => simp; omega
    | succ k =>
      have hk1 : k < t.length := by simpa using hk
      have := ih k hk1
      simp only [List.set_cons_succ, List.map_cons, List.sum_cons, List.getD_cons_succ]
      omega

theorem WellFormed.row_mem {g : Digraph} (hg : WellFormed g) {v : Int} {e : Edge}
    (he : e ∈ row g.table v) :
    e.from_ = v ∧ 1 ≤ v ∧ v ≤ g.size ∧ 1 ≤ e.to_ ∧ e.to_ ≤ g.size := by
  obtain ⟨h1, _, hlen, _, _, _, _, hhead, hrows, _⟩ := hg
  unfold row at he
  by_cases hk : v.toNat < g.table.length
  · have h0 : v.toNat ≠ 0 := by
      intro h0
      rw [h0] at he
      cases ht : g.table with
      | nil => simp [ht] at hhead
      | cons a t =>
        simp [ht] at hhead he
        simp [hhead] at he
    have := hrows v.toNat (List.mem_range.2 hk) e he
    refine ⟨?_, ?_, ?_, this.2.1, this.2.2⟩ <;> omega
  · rw [List.getD_eq_default _ _ (by omega)] at he
    simp at he

theorem WellFormed.noParallel {g : Digraph} (hg : WellFormed g) (v : Int) :
    NoParallel (row g.table v) := by
  obtain ⟨_, _, _, _, _, _, _, _, _, hpar⟩ := hg
  unfold row
  by_cases hk : v.toNat < g.table.length
  · apply hpar
    rw [List.getD_eq_getElem _ _ hk]
    exact List.getElem_mem hk
  · rw [List.getD_eq_default _ _ (by omega)]
    exact List.Pairwise.nil

theorem WellFormed.update {g : Digraph} (hg : WellFormed g) {v : Int} (hv1 : 1 ≤ v)
    (hv2 : v ≤ g.size) {l : List Edge}
    (hl : ∀ e ∈ l, e.from_ = v ∧ 1 ≤ e.to_ ∧ e.to_ ≤ g.size) (hp : NoParallel l) {m : Int}
    (hm : m = g.n_edges + l.length - (row g.table v).length) :
    WellFormed { g with table := wr g.table v l, n_edges := m } := by
  have hg0 := hg
  obtain ⟨h1, h2, hlen, hd, hpa, hdo, hn, hhead, hrows, hpar⟩ := hg
  have hk : v.toNat < g.table.length := by omega
  refine ⟨h1, h2, by simp [wr, hlen], hd, hpa, hdo, ?_, ?_, ?_, ?_⟩
  · simp only [wr]
    rw [hm, sum_length_set _ _ _ hk, hn]
    rfl
  · simp only [wr]
    cases ht : g.table with
    | nil => simp [ht] at hhead
    | cons a t =>
      have : v.toNat ≠ 0 := by omega
      obtain ⟨j, hj⟩ := Nat.exists_eq_succ_of_ne_zero this
      simpa [ht, hj] using hhead
  · intro k _ e he
    by_cases hkv : v.toNat = k
    · subst hkv
      have : row (wr g.table v l) v = l := row_wr_same hk
      simp only [row, wr] at this
      simp only [wr] at he
      rw [this] at he
      have := hl e he
      refine ⟨?_, this.2⟩
      omega
    · have : row (wr g.table v l) (k : Int) = row g.table (k : Int) :=
        row_wr_ne (by simpa using hkv)
      simp only [row, wr, Int.toNat_ofNat] at this
      simp only [wr] at he
      rw [this] at he
      have h3 : e ∈ row g.table (k : Int) := by simpa [row] using he
      have := hg0.row_mem h3
      exact ⟨this.1, this.2.2.2⟩
  · intro l1 hl1
    simp only [wr] at hl1
    rcases List.mem_or_eq_of_mem_set hl1 with h | h
    · exact hpar _ h
    · exact h ▸ hp

/-! ## insertEdge and removeEdge -/

theorem links_same_nodes_iff {g : Digraph} (hg : WellFormed g) {e ed : Edge}
    (hed : ed ∈ row g.table e.from_) : e.links_same_nodes ed = true ↔ ed.to_ = e.to_ := by
  have := (hg.row_mem hed).1
  simp only [Edge.links_same_nodes, Bool.and_eq_true, decide_eq_true_eq]
  constructor
  · intro h; exact h.2.symm
  · intro h; exact ⟨this.symm, h.symm⟩

theorem map_split {t : Int} {f : Edge → Edge} {l1 l2 : List Edge} {x : Edge}
    (hx : x.to_ = t) (h1 : ∀ y ∈ l1, y.to_ ≠ t) (h2 : ∀ y ∈ l2, y.to_ ≠ t) :
    (l1 ++ x :: l2).map (fun ed => if ed.to_ = t then f ed else ed) = l1 ++ f x :: l2 := by
  have e1 : l1.map (fun ed => if ed.to_ = t then f ed else ed) = l1 := by
    conv_rhs => rw [← List.map_id l1]
    apply List.map_congr_left
    intro a ha; simp [h1 a ha]
  have e2 : l2.map (fun ed => if ed.to_ = t then f ed else ed) = l2 := by
    conv_rhs => rw [← List.map_id l2]
    apply List.map_congr_left
    intro a ha; simp [h2 a ha]
  simp [e1, e2, hx]

theorem filter_split {t : Int} {l1 l2 : List Edge} {x : Edge}
    (hx : x.to_ = t) (h1 : ∀ y ∈ l1, y.to_ ≠ t) (h2 : ∀ y ∈ l2, y.to_ ≠ t) :
    (l1 ++ x :: l2).filter (fun ed => decide (ed.to_ ≠ t)) = l1 ++ l2 := by
  have e1 : l1.filter (fun ed => decide (ed.to_ ≠ t)) = l1 :=
    List.filter_eq_self.2 (fun a ha => by simpa using h1 a ha)
  have e2 : l2.filter (fun ed => decide (ed.to_ ≠ t)) = l2 :=
    List.filter_eq_self.2 (fun a ha => by simpa using h2 a ha)
  rw [List.filter_append, List.filter_cons, e1, e2]
  simp [hx]

/-- The position `find_if` stops at in a well-formed adjacency list splits the list around
the one entry with the target of `e`. -/
theorem find_if_row {g : Digraph} (hg : WellFormed g) {e : Edge} {i : Nat}
    (h : find_if (fun ed => e.links_same_nodes ed) (row g.table e.from_) = some i) :
    ∃ l1 x l2, row g.table e.from_ = l1 ++ x :: l2 ∧ l1.length = i ∧ x.to_ = e.to_ ∧
      (∀ y ∈ l1, y.to_ ≠ e.to_) ∧ (∀ y ∈ l2, y.to_ ≠ e.to_) := by
  obtain ⟨l1, x, l2, hrow, hlen, hx, hall⟩ := find_if_some h
  have hmem : ∀ y, y ∈ l1 ++ x :: l2 → y ∈ row g.table e.from_ := fun y hy => hrow ▸ hy
  have hxt : x.to_ = e.to_ := (links_same_nodes_iff hg (hmem x (by simp))).1 hx
  refine ⟨l1, x, l2, hrow, hlen, hxt, ?_, ?_⟩
  · intro y hy hyt
    have := (links_same_nodes_iff hg (hmem y (by simp [hy]))).2 hyt
    simp [hall y hy] at this
  · intro y hy hyt
    have hp := hg.noParallel e.from_
    rw [hrow] at hp
    have := (List.pairwise_append.1 hp).2.1
    have := (List.pairwise_cons.1 this).1 y hy
    exact this (hxt.trans hyt.symm)

theorem find_if_row_none {g : Digraph} (hg : WellFormed g) {e : Edge} :
    find_if (fun ed => e.links_same_nodes ed) (row g.table e.from_) = none ↔
      ¬ ∃ ed ∈ row g.table e.from_, ed.to_ = e.to_ := by
  rw [find_if_none]
  constructor
  · rintro h ⟨ed, hed, ht⟩
    have := (links_same_nodes_iff hg hed).2 ht
    simp [h ed hed] at this
  · intro h ed hed
    by_contra hc
    exact h ⟨ed, hed, (links_same_nodes_iff hg hed).1 (by simpa using hc)⟩

/-- What `insertEdge` returns when the link is not yet stored. -/
theorem insertEdge_new {g : Digraph} (hg : WellFormed g) {e : Edge}
    (hf : 1 ≤ e.from_ ∧ e.from_ ≤ g.size) (ht : 1 ≤ e.to_ ∧ e.to_ ≤ g.size)
    (hno : ¬ ∃ ed ∈ row g.table e.from_, ed.to_ = e.to_) :
    insertEdge g e = .ok { g with table := wr g.table e.from_ (row g.table e.from_ ++ [e]),
                                  n_edges := g.n_edges + 1 } := by
  unfold insertEdge
  simp only [hf, ht, and_self, not_true_eq_false, if_false]
  rw [(find_if_row_none hg).2 hno]

/-- What `insertEdge` returns when the link is already stored. -/
theorem insertEdge_old {g : Digraph} (hg : WellFormed g) {e : Edge}
    (hf : 1 ≤ e.from_ ∧ e.from_ ≤ g.size) (ht : 1 ≤ e.to_ ∧ e.to_ ≤ g.size)
    (hyes : ∃ ed ∈ row g.table e.from_, ed.to_ = e.to_) :
    insertEdge g e = .ok { g with
      table := wr g.table e.from_ ((row g.table e.from_).map
        (fun ed => if ed.to_ = e.to_ then { ed with weight := e.weight } else ed)) } := by
  unfold insertEdge
  simp only [hf, ht, and_self, not_true_eq_false, if_false]
  cases hfi : find_if (fun ed => e.links_same_nodes ed) (row g.table e.from_) with
  | none => exact absurd hyes ((find_if_row_none hg).1 hfi)
  | some i =>
    obtain ⟨l1, x, l2, hrow, hlen, hx, h1, h2⟩ := find_if_row hg hfi
    simp only
    rw [hrow, ← hlen, modify_split, map_split hx h1 h2]

/-- What `removeEdge` returns when the link is stored. -/
theorem removeEdge_old {g : Digraph} (hg : WellFormed g) {e : Edge}
    (hf : 1 ≤ e.from_ ∧ e.from_ ≤ g.size) (ht : 1 ≤ e.to_ ∧ e.to_ ≤ g.size)
    (hyes : ∃ ed ∈ row g.table e.from_, ed.to_ = e.to_) :
    removeEdge g e = .ok { g with
      table := wr g.table e.from_
        ((row g.table e.from_).filter (fun ed => decide (ed.to_ ≠ e.to_))),
      n_edges := g.n_edges - 1 } ∧
    ((row g.table e.from_).filter (fun ed => decide (ed.to_ ≠ e.to_))).length + 1
      = (row g.table e.from_).length := by
  unfold removeEdge removeEdgeRun
  simp only [hf, ht, and_self, not_true_eq_false, if_false]
  cases hfi : find_if (fun ed => e.links_same_nodes ed) (row g.table e.from_) with
  | none => exact absurd hyes ((find_if_row_none hg).1 hfi)
  | some i =>
    obtain ⟨l1, x, l2, hrow, hlen, hx, h1, h2⟩ := find_if_row hg hfi
    simp only
    rw [hrow, ← hlen, eraseIdx_split, filter_split hx h1 h2]
    simp
    omega

theorem insertEdge_wf {g g1 : Digraph} (hg : WellFormed g) {e : Edge}
    (h : insertEdge g e = .ok g1) : WellFormed g1 := by
  by_cases hf : 1 ≤ e.from_ ∧ e.from_ ≤ g.size
  swap
  · simp [insertEdge, hf] at h
  by_cases ht : 1 ≤ e.to_ ∧ e.to_ ≤ g.size
  swap
  · simp [insertEdge, ht] at h
  by_cases hyes : ∃ ed ∈ row g.table e.from_, ed.to_ = e.to_
  · rw [insertEdge_old hg hf ht hyes] at h
    injection h with h
    subst h
    apply hg.update hf.1 hf.2
    · intro x hx
      obtain ⟨y, hy, rfl⟩ := List.mem_map.1 hx
      have := hg.row_mem hy
      by_cases hc : y.to_ = e.to_
      · simp only [hc, if_true]; exact ⟨this.1, ht⟩
      · simp only [hc, if_false]; exact ⟨this.1, this.2.2.2⟩
    · have := hg.noParallel e.from_
      unfold NoParallel at this ⊢
      rw [List.pairwise_map]
      refine this.imp ?_
      intro a b hab
      show (if a.to_ = e.to_ then { a with weight := e.weight } else a).to_
        ≠ (if b.to_ = e.to_ then { b with weight := e.weight } else b).to_
      split_ifs <;> exact hab
    · simp
  · rw [insertEdge_new hg hf ht hyes] at h
    injection h with h
    subst h
    apply hg.update hf.1 hf.2
    · intro x hx
      rcases List.mem_append.1 hx with hx | hx
      · have := hg.row_mem hx
        exact ⟨this.1, this.2.2.2⟩
      · simp at hx; subst hx; exact ⟨rfl, ht⟩
    · have := hg.noParallel e.from_
      unfold NoParallel at this ⊢
      rw [List.pairwise_append]
      refine ⟨this, by simp, ?_⟩
      intro a ha b hb
      simp at hb; subst hb
      exact fun h => hyes ⟨a, ha, h⟩
    · simp; omega

theorem removeEdge_wf {g g1 : Digraph} (hg : WellFormed g) {e : Edge}
    (h : removeEdge g e = .ok g1) : WellFormed g1 := by
  by_cases hf : 1 ≤ e.from_ ∧ e.from_ ≤ g.size
  swap
  · simp [removeEdge, removeEdgeRun, hf] at h
  by_cases ht : 1 ≤ e.to_ ∧ e.to_ ≤ g.size
  swap
  · simp [removeEdge, removeEdgeRun, ht] at h
  by_cases hyes : ∃ ed ∈ row g.table e.from_, ed.to_ = e.to_
  · have hlen := (removeEdge_old hg hf ht hyes).2
    rw [(removeEdge_old hg hf ht hyes).1] at h
    injection h with h
    subst h
    apply hg.update hf.1 hf.2
    · intro x hx
      have := hg.row_mem (List.mem_filter.1 hx).1
      exact ⟨this.1, this.2.2.2⟩
    · exact (hg.noParallel e.from_).sublist (List.filter_sublist _)
    · omega
  · have := (find_if_row_none hg).2 hyes
    simp [removeEdge, removeEdgeRun, hf, ht, this] at h

theorem create_wf {n : Int} {g : Digraph} (h : Digraph.create n = .ok g) : WellFormed g := by
  unfold Digraph.create at h
  split at h
  next hn =>
    injection h with h
    subst h
    have hn1 : n + 1 ≤ 2147483647 := hn.1
    have hpos : 0 < (n + 1).toNat := by omega
    obtain ⟨m, hm⟩ := Nat.exists_eq_succ_of_ne_zero (Nat.pos_iff_ne_zero.1 hpos)
    refine ⟨hn.2, ?_, by simp, by simp, by simp, by simp, ?_, ?_, ?_, ?_⟩
    · show n < 2147483647
      omega
    · simp
    · simp [hm, List.replicate_succ]
    · intro k _ e he
      simp only [List.getD_eq_getElem?_getD, List.getElem?_replicate] at he
      split at he <;> simp at he
    · intro l hl
      rw [(List.mem_replicate.1 hl).2]
      exact List.Pairwise.nil
  next => cases h

theorem insertEdges_wf {V : List Edge} {g g1 : Digraph} (hg : WellFormed g)
    (h : insertEdges V g = .ok g1) : WellFormed g1 := by
  induction V generalizing g with
  | nil => simp [insertEdges] at h; exact h ▸ hg
  | cons e rest ih =>
    unfold insertEdges at h
    cases hi : insertEdge g e with
    | ok g2 => rw [hi] at h; exact ih (insertEdge_wf hg hi) h
    | error f => rw [hi] at h; cases h

theorem Built.wellFormed {g : Digraph} (h : Built g) : WellFormed g := by
  induction h with
  | create n g h => exact create_wf h
  | createFrom V n g h =>
    unfold Digraph.createFrom at h
    cases hc : Digraph.create n with
    | ok g0 => rw [hc] at h; exact insertEdges_wf (create_wf hc) h
    | error f => rw [hc] at h; cases h
  | insert g e g1 _ h ih => exact insertEdge_wf ih h
  | remove g e g1 _ h ih => exact removeEdge_wf ih h

/-! ## Paths, predecessor chains and the final state -/

theorem WellFormed.tableOK {g : Digraph} (hg : WellFormed g) : TableOK g.table g.size := by
  intro v e he
  have := hg.row_mem he
  exact ⟨this.2.1, this.2.2.1, this.2.2.2⟩

theorem pathCost_nil (cost : Edge → Int) : pathCost cost [] = 0 := rfl

theorem pathCost_cons (cost : Edge → Int) (e : Edge) (p : List Edge) :
    pathCost cost (e :: p) = cost e + pathCost cost p := by
  simp [pathCost]

theorem pathCost_append (cost : Edge → Int) (p q : List Edge) :
    pathCost cost (p ++ q) = pathCost cost p + pathCost cost q := by
  simp [pathCost]

theorem pathCost_reverse (cost : Edge → Int) (p : List Edge) :
    pathCost cost p.reverse = pathCost cost p := by
  simp [pathCost, List.sum_reverse]

theorem pathCost_one (p : List Edge) : pathCost (fun _ => 1) p = p.length := by
  induction p with
  | nil => rfl
  | cons e p ih => rw [pathCost_cons, ih]; simp; omega

theorem pathWeight_eq (p : List Edge) : pathWeight p = pathCost (fun e => e.weight) p := rfl

theorem IsPath.snoc {t : List (List Edge)} {a b : Int} {p : List Edge} {e : Edge}
    (h : IsPath t a p b) (he : e ∈ row t b) : IsPath t a (p ++ [e]) e.to_ := by
  induction p generalizing a with
  | nil =>
    simp only [IsPath] at h
    subst h
    exact ⟨he, rfl⟩
  | cons x p ih => exact ⟨h.1, ih h.2⟩

theorem IsChain.isPath {t : List (List Edge)} {path : List Int} {s v : Int} {c : List Edge}
    (h : IsChain t path s c v) : IsPath t s c.reverse v := by
  induction c generalizing v with
  | nil =>
    simp only [IsChain] at h
    simp [IsPath, h]
  | cons e es ih =>
    obtain ⟨h1, h2, h3⟩ := h
    rw [List.reverse_cons, ← h1]
    exact (ih h3).snoc h2

theorem IsChain.congr {t : List (List Edge)} {path path1 : List Int} {s v : Int}
    {c : List Edge} (h : IsChain t path s c v)
    (hp : ∀ e ∈ c, rd path1 e.to_ = rd path e.to_) : IsChain t path1 s c v := by
  induction c generalizing v with
  | nil => exact h
  | cons e es ih =>
    obtain ⟨h1, h2, h3⟩ := h
    have hv : rd path1 v = rd path v := by
      rw [← h1]; exact hp e (List.mem_cons_self _ _)
    refine ⟨h1, hv ▸ h2, hv ▸ ih h3 ?_⟩
    intro x hx
    exact hp x (List.mem_cons_of_mem _ hx)

/-- Every edge of a predecessor chain is stored in the adjacency list of the predecessor of
its target. -/
theorem IsChain.mem_row {t : List (List Edge)} {path : List Int} {s v : Int} {c : List Edge}
    (h : IsChain t path s c v) : ∀ e ∈ c, e ∈ row t (rd path e.to_) := by
  induction c generalizing v with
  | nil => simp
  | cons e es ih =>
    obtain ⟨h1, h2, h3⟩ := h
    intro x hx
    rcases List.mem_cons.1 hx with rfl | hx
    · rw [h1]; exact h2
    · exact ih h3 x hx

theorem IsChain.src_not_mem {t : List (List Edge)} {path : List Int} {n s v : Int}
    {c : List Edge} (hok : TableOK t n) (hs : rd path s = 0) (h : IsChain t path s c v) :
    s ∉ c.map (fun e => e.to_) := by
  intro hmem
  obtain ⟨e, he, hes⟩ := List.mem_map.1 hmem
  have := h.mem_row e he
  simp only [hes, hs] at this
  have := (hok 0 e this).1
  omega

theorem length_le_of_nodup_range {L : List Int} {n : Int} (hn : L.Nodup)
    (hr : ∀ x ∈ L, 1 ≤ x ∧ x ≤ n) : (L.length : Int) ≤ n ∨ L = [] := by
  by_cases hL : L = []
  · exact Or.inr hL
  left
  have hsub : L.toFinset ⊆ Finset.Icc 1 n := by
    intro x hx
    rw [List.mem_toFinset] at hx
    exact Finset.mem_Icc.2 (hr x hx)
  have hcard := Finset.card_le_card hsub
  rw [List.toFinset_card_of_nodup hn, Int.card_Icc] at hcard
  obtain ⟨x, hx⟩ := List.exists_mem_of_ne_nil L hL
  have := hr x hx
  omega

theorem length_le_of_nodup_range1 {L : List Int} {n : Int} (h1 : 1 ≤ n) (hn : L.Nodup)
    (hr : ∀ x ∈ L, 1 ≤ x ∧ x ≤ n) : (L.length : Int) ≤ n := by
  rcases length_le_of_nodup_range hn hr with h | h
  · exact h
  · subst h; simp; omega

/-- The vertices of a predecessor chain inside `L` are pairwise different, so the chain
has fewer than `n` edges. -/
theorem IsChain.length_lt {t : List (List Edge)} {path : List Int} {n s v : Int}
    {c : List Edge} (hok : TableOK t n) (hs : rd path s = 0)
    (h : IsChain t path s c v) (hsr : 1 ≤ s ∧ s ≤ n)
    (hnd : (c.map (fun e => e.to_)).Nodup) (hL : ∀ e ∈ c, 1 ≤ e.to_ ∧ e.to_ ≤ n) :
    (c.length : Int) + 1 ≤ n := by
  have hnd2 : (s :: c.map (fun e => e.to_)).Nodup :=
    List.nodup_cons.2 ⟨h.src_not_mem hok hs, hnd⟩
  have hr : ∀ x ∈ s :: c.map (fun e => e.to_), 1 ≤ x ∧ x ≤ n := by
    intro x hx
    rcases List.mem_cons.1 hx with rfl | hx
    · exact hsr
    · obtain ⟨e, he, rfl⟩ := List.mem_map.1 hx
      exact hL e he
  have := length_le_of_nodup_range1 (by omega) hnd2 hr
  simpa using this

/-- The vertex sequence `printPathHelper` writes for a vertex with a predecessor chain. -/
theorem printPathHelper_chain {t : List (List Edge)} {path : List Int} {n s : Int}
    (hok : TableOK t n) (hs : rd path s = 0) {c : List Edge} {v : Int}
    (h : IsChain t path s c v) (fuel : Nat) (hf : c.length < fuel) :
    printPathHelper path fuel v = .ok (s :: c.reverse.map (fun e => e.to_)) := by
  induction c generalizing v fuel with
  | nil =>
    simp only [IsChain] at h
    subst h
    obtain ⟨f, rfl⟩ := Nat.exists_eq_succ_of_ne_zero (Nat.pos_iff_ne_zero.1 hf)
    simp [printPathHelper, hs]
  | cons e es ih =>
    obtain ⟨h1, h2, h3⟩ := h
    obtain ⟨f, rfl⟩ := Nat.exists_eq_succ_of_ne_zero (Nat.pos_iff_ne_zero.1 (by omega : 0 < fuel))
    have hne : rd path v ≠ 0 := by
      have := (hok _ e h2).1
      omega
    have hrec := ih h3 f (by simpa using hf)
    simp only [printPathHelper, hne, if_false, hrec]
    simp [h1]

/-- The written sequence starts at the source, ends at the vertex asked for, and every
later element is preceded by its `path` value. -/
theorem chain_output {t : List (List Edge)} {path : List Int} {s : Int} {c : List Edge}
    {v : Int} (h : IsChain t path s c v) :
    (s :: c.reverse.map (fun e => e.to_)).head? = some s ∧
    (s :: c.reverse.map (fun e => e.to_)).getLast? = some v ∧
    (s :: c.reverse.map (fun e => e.to_)).Chain' (fun a b => rd path b = a) := by
  induction c generalizing v with
  | nil =>
    simp only [IsChain] at h
    subst h
    simp
  | cons e es ih =>
    obtain ⟨h1, h2, h3⟩ := h
    obtain ⟨_, i2, i3⟩ := ih h3
    have : s :: (e :: es).reverse.map (fun e => e.to_)
        = (s :: es.reverse.map (fun e => e.to_)) ++ [v] := by simp [h1]
    refine ⟨rfl, ?_, ?_⟩
    · rw [this, List.getLast?_append]
      simp
    · rw [this, List.chain'_append]
      refine ⟨i3, by simp, ?_⟩
      intro x hx y hy
      rw [i2] at hx
      simp at hx hy
      subst hx hy
      rfl

/-- In the final state every vertex a path from a reached vertex leads to is reached, and
its distance is at most the distance of the start plus the cost of the path. -/
theorem TreeFinal.le_of_path {t : List (List Edge)} {n s : Int} {cost : Edge → Int}
    {dist path : List Int} {L : List Int} (hF : TreeFinal t n s cost dist path L)
    {a b : Int} {p : List Edge} (ha : a ∈ L) (hp : IsPath t a p b) :
    b ∈ L ∧ rd dist b ≤ rd dist a + pathCost cost p := by
  induction p generalizing a with
  | nil =>
    simp only [IsPath] at hp
    subst hp
    exact ⟨ha, by simp [pathCost_nil]⟩
  | cons e es ih =>
    obtain ⟨h1, h2⟩ := hp
    obtain ⟨c1, c2⟩ := hF.closed a ha e h1
    obtain ⟨i1, i2⟩ := ih c1 h2
    refine ⟨i1, ?_⟩
    rw [pathCost_cons]
    omega

/-- In the final state the distance of a vertex that a path from the source leads to is the
least cost of such a path. -/
theorem TreeFinal.dist_min {t : List (List Edge)} {n s : Int} {cost : Edge → Int}
    {dist path : List Int} {L : List Int} (hF : TreeFinal t n s cost dist path L)
    {v : Int} (hv : ∃ p, IsPath t s p v) :
    v ∈ L ∧ (∃ p, IsPath t s p v ∧ pathCost cost p = rd dist v) ∧
      ∀ p, IsPath t s p v → rd dist v ≤ pathCost cost p := by
  obtain ⟨p0, hp0⟩ := hv
  have hvL := (hF.le_of_path hF.shape.src_mem hp0).1
  refine ⟨hvL, ?_, ?_⟩
  · obtain ⟨c, hc, _, _, hcost⟩ := hF.shape.chain v hvL
    exact ⟨c.reverse, hc.isPath, by rw [pathCost_reverse, hcost trivial]⟩
  · intro p hp
    have := (hF.le_of_path hF.shape.src_mem hp).2
    rw [hF.shape.src_dist] at this
    omega

/-- In the final state a vertex of `1..n` is reached if and only if a path from the source
leads to it. -/
theorem TreeFinal.mem_iff {t : List (List Edge)} {n s : Int} {cost : Edge → Int}
    {dist path : List Int} {L : List Int} (hF : TreeFinal t n s cost dist path L)
    {v : Int} : v ∈ L ↔ ∃ p, IsPath t s p v := by
  constructor
  · intro hv
    obtain ⟨c, hc, _⟩ := hF.shape.chain v hv
    exact ⟨c.reverse, hc.isPath⟩
  · intro hv
    exact (hF.dist_min hv).1

/-- In a shape the distance of a reached vertex is the number of edges of a chain with
pairwise different vertices in `1..n`, hence below `n`, when the cost of an edge is 1. -/
theorem TreeShape.dist_lt {t : List (List Edge)} {n s : Int} {dist path : List Int}
    {L : List Int} (hok : TableOK t n) (hS : TreeShape t n s (fun _ => 1) True dist path L)
    {x : Int} (hx : x ∈ L) : 0 ≤ rd dist x ∧ rd dist x + 1 ≤ n := by
  obtain ⟨c, hc, hnd, hL, hcost⟩ := hS.chain x hx
  have h1 := hc.length_lt hok hS.src_path (hS.range s hS.src_mem) hnd
    (fun e he => hS.range _ (hL e he))
  have h2 := hcost trivial
  rw [pathCost_one] at h2
  omega

/-! ## Breadth-first search -/

theorem rd_wr_of_ne {a : List Int} {i j x : Int} (hi : 1 ≤ i) (h : i ≠ j) :
    rd (wr a i x) j = rd a j := rd_wr_ne (by omega)

theorem rdDone_wr_of_ne {a : List Bool} {i j : Int} {x : Bool} (hi : 1 ≤ i) (h : i ≠ j) :
    rdDone (wr a i x) j = rdDone a j := rdDone_wr_ne (by omega)

/-- Visiting a new vertex `e.to_` from the current vertex keeps the invariant. -/
theorem BfsInv.visit {t : List (List Edge)} {n s : Int} {r : Run} {L P : List Int} {v : Int}
    (hok : TableOK t n) (hn : n < INT_MAX) (h : BfsInv t n s r L P v) {e : Edge}
    (he : e ∈ row t v) (hu : rd r.dist e.to_ = INT_MAX) :
    e.to_ ∉ L ∧
    BfsInv t n s { r with dist := wr r.dist e.to_ (wrap32 (rd r.dist v + 1)),
                          path := wr r.path e.to_ v } (L ++ [e.to_]) P v ∧
    ∀ x ∈ L, rd (wr r.dist e.to_ (wrap32 (rd r.dist v + 1))) x = rd r.dist x := by
  have hur := (hok v e he).2.2
  have huL : e.to_ ∉ L := fun hmem => h.shape.finite _ hmem hu
  have hdv := h.shape.dist_lt hok h.cur_mem
  have hmax : INT_MAX = 2147483647 := rfl
  have hw : wrap32 (rd r.dist v + 1) = rd r.dist v + 1 := wrap32_eq (by omega) (by omega)
  have hne : ∀ x ∈ L, e.to_ ≠ x := fun x hx hxe => huL (hxe ▸ hx)
  have hd : ∀ x ∈ L, rd (wr r.dist e.to_ (wrap32 (rd r.dist v + 1))) x = rd r.dist x :=
    fun x hx => rd_wr_of_ne hur.1 (hne x hx)
  have hp : ∀ x ∈ L, rd (wr r.dist e.to_ (wrap32 (rd r.dist v + 1))) x = rd r.dist x ∧
      rd (wr r.path e.to_ v) x = rd r.path x :=
    fun x hx => ⟨hd x hx, rd_wr_of_ne hur.1 (hne x hx)⟩
  have hdu : rd (wr r.dist e.to_ (wrap32 (rd r.dist v + 1))) e.to_ = rd r.dist v + 1 := by
    rw [rd_wr_same (by rw [h.len_dist]; omega), hw]
  have hpu : rd (wr r.path e.to_ v) e.to_ = v := rd_wr_same (by rw [h.len_path]; omega)
  refine ⟨huL, ?_, hd⟩
  refine
    { len_dist := by simp [length_wr, h.len_dist]
      len_path := by simp [length_wr, h.len_path]
      nodup := ?_
      cur_mem := List.mem_append_left _ h.cur_mem
      sub := fun x hx => List.mem_append_left _ (h.sub x hx)
      shape := ?_
      closed := ?_
      sorted := ?_
      span := ?_ }
  · rw [List.nodup_append]
    refine ⟨h.nodup, List.nodup_singleton _, ?_⟩
    intro x hx hx2
    simp at hx2
    exact huL (hx2 ▸ hx)
  · refine
      { src_mem := List.mem_append_left _ h.shape.src_mem
        src_dist := by
          show rd (wr _ _ _) s = 0
          rw [(hp s h.shape.src_mem).1]; exact h.shape.src_dist
        src_path := by
          show rd (wr _ _ _) s = 0
          rw [(hp s h.shape.src_mem).2]; exact h.shape.src_path
        range := ?_
        chain := ?_
        finite := ?_
        fresh := ?_ }
    · intro x hx
      rcases List.mem_append.1 hx with hx | hx
      · exact h.shape.range x hx
      · simp at hx; subst hx; exact hur
    · intro x hx
      rcases List.mem_append.1 hx with hx | hx
      · obtain ⟨c, hc, hnd, hcL, hcost⟩ := h.shape.chain x hx
        refine ⟨c, hc.congr (fun y hy => (hp _ (hcL y hy)).2), hnd,
          fun y hy => List.mem_append_left _ (hcL y hy), fun _ => ?_⟩
        show _ = rd (wr _ _ _) x
        rw [(hp x hx).1]; exact hcost trivial
      · simp at hx; subst hx
        obtain ⟨c, hc, hnd, hcL, hcost⟩ := h.shape.chain v h.cur_mem
        refine ⟨e :: c, ⟨rfl, ?_, ?_⟩, ?_, ?_, fun _ => ?_⟩
        · show e ∈ row t (rd (wr r.path e.to_ v) e.to_)
          rw [hpu]; exact he
        · show IsChain t (wr r.path e.to_ v) s c (rd (wr r.path e.to_ v) e.to_)
          rw [hpu]
          exact hc.congr (fun y hy => (hp _ (hcL y hy)).2)
        · rw [List.map_cons, List.nodup_cons]
          refine ⟨?_, hnd⟩
          intro hmem
          obtain ⟨y, hy, hye⟩ := List.mem_map.1 hmem
          exact huL (hye ▸ hcL y hy)
        · intro y hy
          rcases List.mem_cons.1 hy with rfl | hy
          · simp
          · exact List.mem_append_left _ (hcL y hy)
        · show _ = rd (wr _ _ _) e.to_
          rw [hdu, pathCost_cons, hcost trivial]; omega
    · intro x hx
      rcases List.mem_append.1 hx with hx | hx
      · show rd (wr _ _ _) x ≠ _
        rw [(hp x hx).1]; exact h.shape.finite x hx
      · simp at hx; subst hx
        show rd (wr _ _ _) e.to_ ≠ _
        rw [hdu]; omega
    · intro x hx h1 h2
      have hxL : x ∉ L := fun hmem => hx (List.mem_append_left _ hmem)
      have hxu : e.to_ ≠ x := fun hxe => hx (by simp [hxe])
      show rd (wr _ _ _) x = _ ∧ rd (wr _ _ _) x = _
      rw [rd_wr_of_ne hur.1 hxu, rd_wr_of_ne hur.1 hxu]
      exact h.shape.fresh x hxL h1 h2
  · intro x hx y hy
    obtain ⟨c1, c2⟩ := h.closed x hx y hy
    refine ⟨List.mem_append_left _ c1, ?_⟩
    show rd (wr _ _ _) _ ≤ rd (wr _ _ _) _ + 1
    rw [(hp _ c1).1, (hp _ (h.sub x hx)).1]; exact c2
  · rw [List.pairwise_append]
    refine ⟨?_, List.pairwise_singleton _ _, ?_⟩
    · refine h.sorted.imp_of_mem ?_
      intro a b ha hb hab
      show rd (wr _ _ _) _ ≤ rd (wr _ _ _) _
      rw [(hp a ha).1, (hp b hb).1]; exact hab
    · intro a ha b hb
      simp at hb; subst hb
      show rd (wr _ _ _) _ ≤ rd (wr _ _ _) _
      rw [(hp a ha).1, hdu]; exact h.span a ha
  · intro x hx
    show rd (wr _ _ _) _ ≤ rd (wr _ _ _) _ + 1
    rw [(hp v h.cur_mem).1]
    rcases List.mem_append.1 hx with hx | hx
    · rw [(hp x hx).1]; exact h.span x hx
    · simp at hx; subst hx
      rw [hdu]

/-- The inner loop of `uwsssp` keeps the invariant, appends the vertices it visits to the
queue, leaves the distances of the vertices visited before as they are, and has seen the
target of every edge it went through. -/
theorem uwssspScan_inv {t : List (List Edge)} {n s : Int} {P : List Int} {v : Int}
    (hok : TableOK t n) (hn : n < INT_MAX) (es : List Edge) (hes : ∀ e ∈ es, e ∈ row t v) :
    ∀ (r : Run) (L Q : List Int), BfsInv t n s r L P v →
      ∃ N, (uwssspScan v es r Q).2 = Q ++ N ∧
        BfsInv t n s (uwssspScan v es r Q).1 (L ++ N) P v ∧
        (∀ x ∈ L, rd (uwssspScan v es r Q).1.dist x = rd r.dist x) ∧
        (∀ e ∈ es, e.to_ ∈ L ++ N ∧
          rd (uwssspScan v es r Q).1.dist e.to_ ≤ rd (uwssspScan v es r Q).1.dist v + 1) := by
  induction es with
  | nil =>
    intro r L Q h
    exact ⟨[], by simp [uwssspScan], by simpa [uwssspScan] using h, by simp [uwssspScan],
      by simp⟩
  | cons e rest ih =>
    intro r L Q h
    have he : e ∈ row t v := hes e (List.mem_cons_self _ _)
    have hrest : ∀ x ∈ rest, x ∈ row t v := fun x hx => hes x (List.mem_cons_of_mem _ hx)
    by_cases hu : rd r.dist e.to_ = INT_MAX
    · obtain ⟨huL, hinv, hd⟩ := h.visit hok hn he hu
      obtain ⟨N, hQ, hI, hst, hseen⟩ := ih hrest _ (L ++ [e.to_]) (Q ++ [e.to_]) hinv
      have hscan : uwssspScan v (e :: rest) r Q = uwssspScan v rest
          { r with dist := wr r.dist e.to_ (wrap32 (rd r.dist v + 1)),
                   path := wr r.path e.to_ v } (Q ++ [e.to_]) := by
        simp [uwssspScan, hu]
      rw [hscan]
      refine ⟨e.to_ :: N, by simp [hQ], by simpa using hI, ?_, ?_⟩
      · intro x hx
        rw [hst x (List.mem_append_left _ hx)]
        exact hd x hx
      · intro y hy
        rcases List.mem_cons.1 hy with rfl | hy
        · refine ⟨by simp, ?_⟩
          have hv := hst v (List.mem_append_left _ h.cur_mem)
          have hy2 := hst y.to_ (by simp)
          rw [hv, hy2]
          exact hinv.span y.to_ (by simp)
        · have := hseen y hy
          exact ⟨by simpa using this.1, this.2⟩
    · have hscan : uwssspScan v (e :: rest) r Q = uwssspScan v rest r Q := by
        simp [uwssspScan, hu]
      rw [hscan]
      obtain ⟨N, hQ, hI, hst, hseen⟩ := ih hrest r L Q h
      refine ⟨N, hQ, hI, hst, ?_⟩
      intro y hy
      rcases List.mem_cons.1 hy with rfl | hy
      · have hur := (hok v y he).2.2
        have hyL : y.to_ ∈ L := by
          by_contra hc
          exact hu (h.shape.fresh _ hc hur.1 hur.2).1
        refine ⟨List.mem_append_left _ hyL, ?_⟩
        rw [hst _ hyL, hst _ h.cur_mem]
        exact h.span _ hyL
      · exact hseen y hy

theorem uwssspLoop_nil (t : List (List Edge)) (fuel : Nat) (r : Run) :
    uwssspLoop t fuel r [] = .ok r := by
  cases fuel <;> rfl

/-- With enough fuel the loop of `uwsssp` ends, in a final state. -/
theorem uwssspLoop_final {t : List (List Edge)} {n s : Int} (hok : TableOK t n)
    (h1 : 1 ≤ n) (hn : n < INT_MAX) :
    ∀ (fuel : Nat) (P : List Int) (v : Int) (Q : List Int) (r : Run),
      BfsInv t n s r (P ++ v :: Q) P v → n ≤ fuel + P.length →
      ∃ r1 L, uwssspLoop t fuel r (v :: Q) = .ok r1 ∧
        TreeFinal t n s (fun _ => 1) r1.dist r1.path L := by
  intro fuel
  induction fuel with
  | zero =>
    intro P v Q r h hf
    have := length_le_of_nodup_range1 h1 h.nodup h.shape.range
    simp at this hf
    omega
  | succ fuel ih =>
    intro P v Q r h hf
    obtain ⟨N, hQ, hI, hst, hseen⟩ :=
      uwssspScan_inv hok hn (row t v) (fun e he => he) r (P ++ v :: Q) Q h
    have hstep : uwssspLoop t (fuel + 1) r (v :: Q)
        = uwssspLoop t fuel (uwssspScan v (row t v) r Q).1 (Q ++ N) := by
      rw [← hQ]; rfl
    rw [hstep]
    have hclosed : ∀ x ∈ P ++ [v], ∀ e ∈ row t x, e.to_ ∈ (P ++ v :: Q) ++ N ∧
        rd (uwssspScan v (row t v) r Q).1.dist e.to_
          ≤ rd (uwssspScan v (row t v) r Q).1.dist x + 1 := by
      intro x hx e he
      rcases List.mem_append.1 hx with hx | hx
      · exact hI.closed x hx e he
      · simp at hx; subst hx; exact hseen e he
    cases hQN : Q ++ N with
    | nil =>
      refine ⟨_, (P ++ v :: Q) ++ N, uwssspLoop_nil _ _ _, hI.shape, ?_⟩
      intro x hx e he
      apply hclosed x ?_ e he
      have : Q = [] ∧ N = [] := by simpa using hQN
      simpa [this.1, this.2] using hx
    | cons w Q2 =>
      have hL : (P ++ v :: Q) ++ N = (P ++ [v]) ++ w :: Q2 := by
        simp [← hQN]
      have hinv : BfsInv t n s (uwssspScan v (row t v) r Q).1 ((P ++ [v]) ++ w :: Q2)
          (P ++ [v]) w := by
        have hvw : rd (uwssspScan v (row t v) r Q).1.dist v
            ≤ rd (uwssspScan v (row t v) r Q).1.dist w := by
          have hs := hI.sorted
          rw [hL, List.append_assoc] at hs
          have := (List.pairwise_append.1 hs).2.1
          simp only [List.singleton_append] at this
          exact (List.pairwise_cons.1 this).1 w (by simp)
        refine
          { len_dist := hI.len_dist
            len_path := hI.len_path
            nodup := hL ▸ hI.nodup
            cur_mem := by simp
            sub := fun x hx => by
              rcases List.mem_append.1 hx with hx | hx
              · simp [hx]
              · simp at hx; simp [hx]
            shape := hL ▸ hI.shape
            closed := fun x hx e he => hL ▸ hclosed x hx e he
            sorted := hL ▸ hI.sorted
            span := ?_ }
        intro x hx
        have := hI.span x (hL ▸ hx)
        omega
      exact ih (P ++ [v]) w Q2 _ hinv (by simp; omega)

/-- The state `uwsssp` starts its loop in satisfies the invariant. -/
theorem bfs_init (t : List (List Edge)) {n s : Int} {dlen plen : Nat} (done : List Bool)
    (hs : 1 ≤ s ∧ s ≤ n) (hd : dlen = (n + 1).toNat) (hp : plen = (n + 1).toNat) :
    BfsInv t n s { dist := wr (List.replicate dlen INT_MAX) s 0,
                   path := List.replicate plen 0, done := done } ([] ++ s :: []) [] s := by
  have hds : rd (wr (List.replicate dlen INT_MAX) s 0) s = 0 :=
    rd_wr_same (by simp [hd]; omega)
  refine
    { len_dist := by simp [length_wr, hd]
      len_path := by simp [hp]
      nodup := by simp
      cur_mem := by simp
      sub := by simp
      shape :=
        { src_mem := by simp
          src_dist := hds
          src_path := rd_replicate_zero _ _
          range := by intro x hx; simp at hx; subst hx; exact hs
          chain := ?_
          finite := ?_
          fresh := ?_ }
      closed := by simp
      sorted := by simp
      span := by intro x hx; simp at hx; subst hx; omega }
  · intro x hx
    simp at hx; subst hx
    exact ⟨[], rfl, by simp, by simp, fun _ => by rw [pathCost_nil]; exact hds.symm⟩
  · intro x hx
    simp at hx; subst hx
    show rd (wr _ _ _) x ≠ _
    rw [hds]; decide
  · intro x hx h1 h2
    have hxs : s ≠ x := fun h => hx (by simp [h])
    refine ⟨?_, rd_replicate_zero _ _⟩
    show rd (wr _ _ _) x = _
    rw [rd_wr_of_ne hs.1 hxs]
    exact rd_replicate (by omega)

/-- On a well-formed graph, `uwsssp` from a source in `1..n` with fuel `n` or more returns,
changes only `dist` and `path`, and leaves a final state. -/
theorem uwsssp_final {g : Digraph} (hg : WellFormed g) {s : Int} (hs : 1 ≤ s ∧ s ≤ g.size)
    {fuel : Nat} (hf : g.size ≤ fuel) :
    ∃ g1 L, uwsssp fuel g s = .ok g1 ∧ g1.table = g.table ∧ g1.size = g.size ∧
      g1.n_edges = g.n_edges ∧ g1.done = g.done ∧
      TreeFinal g.table g.size s (fun _ => 1) g1.dist g1.path L := by
  obtain ⟨h1, h2, _, hd, hp, _⟩ := id hg
  have hinit := bfs_init g.table g.done hs hd hp
  obtain ⟨r1, L, hloop, hF⟩ :=
    uwssspLoop_final hg.tableOK h1 h2 fuel [] s [] _ hinit (by simpa using hf)
  refine ⟨{ g with dist := r1.dist, path := r1.path }, L, ?_, rfl, rfl, rfl, rfl, hF⟩
  unfold uwsssp
  simp only [hs, and_self, not_true_eq_false, if_false]
  rw [hloop]

/-! ## Dijkstra with a linear scan -/

theorem row_mem_table {t : List (List Edge)} {v : Int} {e : Edge} (he : e ∈ row t v) :
    ∃ l ∈ t, e ∈ l := by
  unfold row at he
  by_cases hk : v.toNat < t.length
  · rw [List.getD_eq_getElem _ _ hk] at he
    exact ⟨_, List.getElem_mem hk, he⟩
  · rw [List.getD_eq_default _ _ (by omega)] at he
    simp at he

theorem mem_vertexIds {n i : Int} : i ∈ vertexIds n ↔ 1 ≤ i ∧ i ≤ n := by
  unfold vertexIds
  simp only [List.mem_map, List.mem_range]
  constructor
  · rintro ⟨k, hk, rfl⟩; omega
  · intro h
    exact ⟨(i - 1).toNat, by omega, by omega⟩

/-- The result of the scan is the initial `vertex_index` when no visited index is not done
with a distance below the initial `min_distance`; otherwise it is a visited index that is
not done, whose distance is below the initial `min_distance` and least among the visited
indices that are not done. -/
theorem scanMin_spec (r : Run) (l : List Int) :
    ∀ m vi : Int,
    (scanMin r l m vi = vi ∧ ∀ i ∈ l, rdDone r.done i = true ∨ m ≤ rd r.dist i) ∨
    (scanMin r l m vi ∈ l ∧ rdDone r.done (scanMin r l m vi) = false ∧
      rd r.dist (scanMin r l m vi) < m ∧
      ∀ i ∈ l, rdDone r.done i = true ∨ rd r.dist (scanMin r l m vi) ≤ rd r.dist i) := by
  induction l with
  | nil => intro m vi; left; simp [scanMin]
  | cons i rest ih =>
    intro m vi
    by_cases hc : rdDone r.done i = false ∧ rd r.dist i < m
    · have hs : scanMin r (i :: rest) m vi = scanMin r rest (rd r.dist i) i := by
        simp [scanMin, hc.1, hc.2]
      rw [hs]
      right
      rcases ih (rd r.dist i) i with ⟨h1, h2⟩ | ⟨h1, h2, h3, h4⟩
      · rw [h1]
        refine ⟨by simp, hc.1, hc.2, ?_⟩
        intro j hj
        rcases List.mem_cons.1 hj with rfl | hj
        · right; exact le_refl _
        · exact h2 j hj
      · refine ⟨List.mem_cons_of_mem _ h1, h2, by omega, ?_⟩
        intro j hj
        rcases List.mem_cons.1 hj with rfl | hj
        · right; omega
        · exact h4 j hj
    · have hs : scanMin r (i :: rest) m vi = scanMin r rest m vi := by
        by_cases hd : rdDone r.done i = false
        · have : ¬ rd r.dist i < m := fun h => hc ⟨hd, h⟩
          simp [scanMin, this]
        · simp at hd
          simp [scanMin, hd]
      rw [hs]
      have hi : rdDone r.done i = true ∨ m ≤ rd r.dist i := by
        by_cases hd : rdDone r.done i = false
        · right
          have : ¬ rd r.dist i < m := fun h => hc ⟨hd, h⟩
          omega
        · left; simpa using hd
      rcases ih m vi with ⟨h1, h2⟩ | ⟨h1, h2, h3, h4⟩
      · left
        refine ⟨h1, ?_⟩
        intro j hj
        rcases List.mem_cons.1 hj with rfl | hj
        · exact hi
        · exact h2 j hj
      · right
        refine ⟨List.mem_cons_of_mem _ h1, h2, h3, ?_⟩
        intro j hj
        rcases List.mem_cons.1 hj with rfl | hj
        · rcases hi with hi | hi
          · left; exact hi
          · right; omega
        · exact h4 j hj

/-- What `find_smallest_undone_distance_vertex` returns: 0 when every vertex is done or at
distance `INT_MAX` or more, and otherwise a vertex of `1..n` that is not done, with a
distance below `INT_MAX` that is least among the vertices not done. -/
theorem find_smallest_spec (n : Int) (r : Run) :
    (find_smallest_undone_distance_vertex n r = 0 ∧
      ∀ i, 1 ≤ i → i ≤ n → rdDone r.done i = true ∨ INT_MAX ≤ rd r.dist i) ∨
    (1 ≤ find_smallest_undone_distance_vertex n r ∧
      find_smallest_undone_distance_vertex n r ≤ n ∧
      rdDone r.done (find_smallest_undone_distance_vertex n r) = false ∧
      rd r.dist (find_smallest_undone_distance_vertex n r) < INT_MAX ∧
      ∀ i, 1 ≤ i → i ≤ n → rdDone r.done i = true ∨
        rd r.dist (find_smallest_undone_distance_vertex n r) ≤ rd r.dist i) := by
  unfold find_smallest_undone_distance_vertex
  rcases scanMin_spec r (vertexIds n) INT_MAX 0 with ⟨h1, h2⟩ | ⟨h1, h2, h3, h4⟩
  · left
    exact ⟨h1, fun i hi1 hi2 => h2 i (mem_vertexIds.2 ⟨hi1, hi2⟩)⟩
  · right
    have := mem_vertexIds.1 h1
    exact ⟨this.1, this.2, h2, h3, fun i hi1 hi2 => h4 i (mem_vertexIds.2 ⟨hi1, hi2⟩)⟩

/-- The chain of a done vertex extended by an edge to a vertex that is not done is a list
of stored edges with pairwise different targets. -/
theorem DijInv.extend {t : List (List Edge)} {n s : Int} {r : Run} {L P : List Int} {v : Int}
    (h : DijInv t n s r L P v) {x : Int} (hx : x ∈ L) {e : Edge} (he : e ∈ row t x)
    (hu : e.to_ ∉ L) :
    ∃ c, IsChain t r.path s c x ∧ (∀ y ∈ c, y.to_ ∈ L) ∧
      (∀ y ∈ e :: c, ∃ l ∈ t, y ∈ l) ∧ ((e :: c).map (fun y => y.to_)).Nodup ∧
      (Bounded t INT_MAX → pathWeight c = rd r.dist x) := by
  have hvr := h.range x hx
  obtain ⟨c, hc, hnd, hcL, hcost⟩ := h.chain x hvr.1 hvr.2 (h.finite x hx)
  have hcL2 : ∀ y ∈ c, y.to_ ∈ L := by
    intro y hy
    rcases hcL y hy with h1 | h1
    · exact h1
    · exact h1 ▸ hx
  refine ⟨c, hc, hcL2, ?_, ?_, hcost⟩
  · intro y hy
    rcases List.mem_cons.1 hy with rfl | hy
    · exact row_mem_table he
    · exact row_mem_table (hc.mem_row y hy)
  · rw [List.map_cons, List.nodup_cons]
    refine ⟨?_, hnd⟩
    intro hmem
    obtain ⟨y, hy, hye⟩ := List.mem_map.1 hmem
    exact hu (hye ▸ hcL2 y hy)

/-- Without overflow the sum `dist[x] + w` for an edge from a done vertex to a vertex that
is not done is the weight of a chain, so its 32-bit value is the exact one, at most `B`. -/
theorem DijInv.add_exact {t : List (List Edge)} {n s : Int} {r : Run} {L P : List Int}
    {v : Int} (h : DijInv t n s r L P v) {x : Int} (hx : x ∈ L) {e : Edge}
    (he : e ∈ row t x) (hu : e.to_ ∉ L) {B : Int} (hB : B ≤ INT_MAX) (hb : Bounded t B) :
    wrap32 (rd r.dist x + e.weight) = rd r.dist x + e.weight ∧
      rd r.dist x + e.weight ≤ B := by
  obtain ⟨c, _, _, hst, hnd, hcost⟩ := h.extend hx he hu
  have hb2 : Bounded t INT_MAX := fun c h1 h2 => ⟨(hb c h1 h2).1, le_trans (hb c h1 h2).2 hB⟩
  have := hb _ hst hnd
  rw [pathWeight_eq, pathCost_cons, ← pathWeight_eq, hcost hb2] at this
  have hmax : INT_MAX = 2147483647 := rfl
  exact ⟨wrap32_eq (by omega) (by omega), by omega⟩

/-- Relaxing an edge from the current vertex to a vertex that is not done keeps the
invariant. -/
theorem DijInv.relax {t : List (List Edge)} {n s : Int} {r : Run} {L P : List Int} {v : Int}
    (hok : TableOK t n) (h : DijInv t n s r L P v) {e : Edge} (he : e ∈ row t v)
    (hu : rdDone r.done e.to_ = false)
    (hlt : rd r.dist e.to_ > wrap32 (rd r.dist v + e.weight)) :
    DijInv t n s { r with dist := wr r.dist e.to_ (wrap32 (rd r.dist v + e.weight)),
                          path := wr r.path e.to_ v } L P v ∧
    (∀ x, x ≠ e.to_ →
      rd (wr r.dist e.to_ (wrap32 (rd r.dist v + e.weight))) x = rd r.dist x) ∧
    rd (wr r.dist e.to_ (wrap32 (rd r.dist v + e.weight))) e.to_
      = wrap32 (rd r.dist v + e.weight) := by
  have hur := (hok v e he).2.2
  have huL : e.to_ ∉ L := fun hmem => by
    have := (h.done_iff e.to_).2 hmem
    rw [hu] at this; cases this
  have hd : ∀ x, x ≠ e.to_ →
      rd (wr r.dist e.to_ (wrap32 (rd r.dist v + e.weight))) x = rd r.dist x :=
    fun x hx => rd_wr_of_ne hur.1 (Ne.symm hx)
  have hp : ∀ x, x ≠ e.to_ → rd (wr r.path e.to_ v) x = rd r.path x :=
    fun x hx => rd_wr_of_ne hur.1 (Ne.symm hx)
  have hne : ∀ x ∈ L, x ≠ e.to_ := fun x hx hxe => huL (hxe ▸ hx)
  have hdu : rd (wr r.dist e.to_ (wrap32 (rd r.dist v + e.weight))) e.to_
      = wrap32 (rd r.dist v + e.weight) := rd_wr_same (by rw [h.len_dist]; omega)
  have hpu : rd (wr r.path e.to_ v) e.to_ = v := rd_wr_same (by rw [h.len_path]; omega)
  have hmaxu := h.le_max e.to_
  refine ⟨?_, hd, hdu⟩
  refine
    { len_dist := by simp [length_wr, h.len_dist]
      len_path := by simp [length_wr, h.len_path]
      len_done := h.len_done
      nodup := h.nodup
      range := h.range
      cur_mem := h.cur_mem
      sub := h.sub
      done_iff := h.done_iff
      src_mem := h.src_mem
      src_dist := by
        show rd (wr _ _ _) s = 0
        rw [hd s (hne s h.src_mem)]; exact h.src_dist
      src_path := by
        show rd (wr _ _ _) s = 0
        rw [hp s (hne s h.src_mem)]; exact h.src_path
      le_max := ?_
      finite := ?_
      chain := ?_
      fresh := ?_
      greedy := ?_ }
  · intro x
    show rd (wr _ _ _) x ≤ _
    by_cases hx : x = e.to_
    · rw [hx, hdu]; omega
    · rw [hd x hx]; exact h.le_max x
  · intro x hx
    show rd (wr _ _ _) x ≠ _
    rw [hd x (hne x hx)]; exact h.finite x hx
  · intro x hx1 hx2 hfin
    by_cases hx : x = e.to_
    · subst hx
      obtain ⟨c, hc, hcL, _, hnd, hcost⟩ := h.extend h.cur_mem he huL
      refine ⟨e :: c, ⟨rfl, ?_, ?_⟩, hnd, ?_, ?_⟩
      · show e ∈ row t (rd (wr r.path e.to_ v) e.to_)
        rw [hpu]; exact he
      · show IsChain t (wr r.path e.to_ v) s c (rd (wr r.path e.to_ v) e.to_)
        rw [hpu]
        exact hc.congr (fun y hy => hp _ (hne _ (hcL y hy)))
      · intro y hy
        rcases List.mem_cons.1 hy with rfl | hy
        · right; rfl
        · left; exact hcL y hy
      · intro hb
        show _ = rd (wr _ _ _) e.to_
        rw [hdu, (h.add_exact h.cur_mem he huL (le_refl _) hb).1, pathWeight_eq, pathCost_cons,
          ← pathWeight_eq, hcost hb]
        omega
    · have hfin2 : rd r.dist x ≠ INT_MAX := by
        have := hfin
        change rd (wr _ _ _) x ≠ _ at this
        rwa [hd x hx] at this
      obtain ⟨c, hc, hnd, hcL, hcost⟩ := h.chain x hx1 hx2 hfin2
      refine ⟨c, hc.congr ?_, hnd, hcL, ?_⟩
      · intro y hy
        apply hp
        rcases hcL y hy with h1 | h1
        · exact hne _ h1
        · rw [h1]; exact hx
      · intro hb
        show _ = rd (wr _ _ _) x
        rw [hd x hx]; exact hcost hb
  · intro x hx1 hx2 hinf
    change rd (wr _ _ _) x = _ at hinf
    show rd (wr _ _ _) x = 0
    have hx : x ≠ e.to_ := by
      intro hx
      rw [hx, hdu] at hinf
      omega
    rw [hd x hx] at hinf
    rw [hp x hx]
    exact h.fresh x hx1 hx2 hinf
  · intro hnn hb
    obtain ⟨g1, g2, g3⟩ := h.greedy hnn hb
    have hex := (h.add_exact h.cur_mem he huL (le_refl _) hb).1
    have hw : 0 ≤ e.weight := by
      obtain ⟨l, hl, hel⟩ := row_mem_table he
      exact hnn l hl e hel
    have hv : rd (wr r.dist e.to_ (wrap32 (rd r.dist v + e.weight))) v = rd r.dist v :=
      hd v (hne v h.cur_mem)
    refine ⟨?_, ?_, ?_⟩
    · intro x hx
      show rd (wr _ _ _) x ≤ rd (wr _ _ _) v
      rw [hd x (hne x hx), hv]; exact g1 x hx
    · intro x hx1 hx2 hxL
      show rd (wr _ _ _) v ≤ rd (wr _ _ _) x
      rw [hv]
      by_cases hx : x = e.to_
      · rw [hx, hdu, hex]; omega
      · rw [hd x hx]; exact g2 x hx1 hx2 hxL
    · intro x hx y hy
      show rd (wr _ _ _) _ ≤ rd (wr _ _ _) x + _
      rw [hd x (hne x (h.sub x hx))]
      have := g3 x hx y hy
      by_cases hyu : y.to_ = e.to_
      · rw [hyu, hdu]; rw [hyu] at this; omega
      · rw [hd _ hyu]; exact this

/-- The inner loop of `pwsssp` keeps the invariant, does not touch `done` or the distances
of the done vertices, and only lowers distances; with non-negative weights and without
overflow no edge it went through shortens a distance afterwards. -/
theorem pwssspScan_inv {t : List (List Edge)} {n s : Int} {L P : List Int} {v : Int}
    (hok : TableOK t n) (es : List Edge) (hes : ∀ e ∈ es, e ∈ row t v) :
    ∀ (r : Run), DijInv t n s r L P v →
      DijInv t n s (pwssspScan v es r) L P v ∧
      (pwssspScan v es r).done = r.done ∧
      (∀ x ∈ L, rd (pwssspScan v es r).dist x = rd r.dist x) ∧
      (∀ x, rd (pwssspScan v es r).dist x ≤ rd r.dist x) ∧
      (NonNeg t → Bounded t INT_MAX → ∀ e ∈ es,
        rd (pwssspScan v es r).dist e.to_ ≤ rd (pwssspScan v es r).dist v + e.weight) := by
  induction es with
  | nil =>
    intro r h
    exact ⟨by simpa [pwssspScan] using h, by simp [pwssspScan], by simp [pwssspScan],
      by simp [pwssspScan], by simp⟩
  | cons e rest ih =>
    intro r h
    have he : e ∈ row t v := hes e (List.mem_cons_self _ _)
    have hrest : ∀ x ∈ rest, x ∈ row t v := fun x hx => hes x (List.mem_cons_of_mem _ hx)
    by_cases hc : rdDone r.done e.to_ = false ∧ rd r.dist e.to_ > wrap32 (rd r.dist v + e.weight)
    · obtain ⟨hinv, hd, hdu⟩ := h.relax hok he hc.1 hc.2
      have huL : e.to_ ∉ L := fun hmem => by
        have := (h.done_iff e.to_).2 hmem
        rw [hc.1] at this; cases this
      have hscan : pwssspScan v (e :: rest) r = pwssspScan v rest
          { r with dist := wr r.dist e.to_ (wrap32 (rd r.dist v + e.weight)),
                   path := wr r.path e.to_ v } := by
        simp [pwssspScan, hc.1, hc.2]
      rw [hscan]
      obtain ⟨hI, hdone, hst, hle, hseen⟩ := ih hrest _ hinv
      refine ⟨hI, hdone, ?_, ?_, ?_⟩
      · intro x hx
        rw [hst x hx]
        exact hd x (fun hxe => huL (hxe ▸ hx))
      · intro x
        refine le_trans (hle x) ?_
        show rd (wr _ _ _) x ≤ _
        by_cases hx : x = e.to_
        · rw [hx, hdu]; omega
        · rw [hd x hx]
      · intro hnn hb y hy
        rcases List.mem_cons.1 hy with rfl | hy
        · have hX := (h.add_exact h.cur_mem he huL (le_refl _) hb).1
          have h1 := le_trans (hle y.to_) (le_of_eq hdu)
          have h2 := (hst v h.cur_mem).trans (hd v (fun hv => huL (hv ▸ h.cur_mem)))
          rw [h2]
          exact le_trans h1 (le_of_eq hX)
        · exact hseen hnn hb y hy
    · have hscan : pwssspScan v (e :: rest) r = pwssspScan v rest r := by
        by_cases hd : rdDone r.done e.to_ = false
        · have : ¬ rd r.dist e.to_ > wrap32 (rd r.dist v + e.weight) := fun h => hc ⟨hd, h⟩
          simp only [pwssspScan]
          simp [this]
        · simp at hd
          simp [pwssspScan, hd]
      rw [hscan]
      obtain ⟨hI, hdone, hst, hle, hseen⟩ := ih hrest r h
      refine ⟨hI, hdone, hst, hle, ?_⟩
      intro hnn hb y hy
      rcases List.mem_cons.1 hy with rfl | hy
      · obtain ⟨g1, _, _⟩ := h.greedy hnn hb
        have hw : 0 ≤ y.weight := by
          obtain ⟨l, hl, hel⟩ := row_mem_table he
          exact hnn l hl y hel
        rw [hst v h.cur_mem]
        by_cases hyL : y.to_ ∈ L
        · rw [hst _ hyL]
          have := g1 _ hyL
          omega
        · have hd : rdDone r.done y.to_ = false := by
            cases hdd : rdDone r.done y.to_ with
            | false => rfl
            | true => exact absurd ((h.done_iff _).1 hdd) hyL
          have h1 : ¬ rd r.dist y.to_ > wrap32 (rd r.dist v + y.weight) := fun h => hc ⟨hd, h⟩
          rw [(h.add_exact h.cur_mem he hyL (le_refl _) hb).1] at h1
          have := hle y.to_
          omega
      · exact hseen hnn hb y hy

/-- Marking the vertex the scan selected as done gives the invariant for the next round. -/
theorem DijInv.select {t : List (List Edge)} {n s : Int} {r : Run} {P : List Int} {v w : Int}
    (h : DijInv t n s r (P ++ [v]) P v)
    (hseen : NonNeg t → Bounded t INT_MAX →
      ∀ e ∈ row t v, rd r.dist e.to_ ≤ rd r.dist v + e.weight)
    (hw1 : 1 ≤ w) (hw2 : w ≤ n) (hwd : rdDone r.done w = false) (hwf : rd r.dist w < INT_MAX)
    (hmin : ∀ i, 1 ≤ i → i ≤ n → rdDone r.done i = true ∨ rd r.dist w ≤ rd r.dist i) :
    DijInv t n s { r with done := wr r.done w true } ((P ++ [v]) ++ [w]) (P ++ [v]) w := by
  have hwL : w ∉ P ++ [v] := fun hmem => by
    have := (h.done_iff w).2 hmem
    rw [hwd] at this; cases this
  refine
    { len_dist := h.len_dist
      len_path := h.len_path
      len_done := by simp [length_wr, h.len_done]
      nodup := ?_
      range := ?_
      cur_mem := by simp
      sub := fun x hx => List.mem_append_left _ hx
      done_iff := ?_
      src_mem := List.mem_append_left _ h.src_mem
      src_dist := h.src_dist
      src_path := h.src_path
      le_max := h.le_max
      finite := ?_
      chain := ?_
      fresh := h.fresh
      greedy := ?_ }
  · rw [List.nodup_append]
    refine ⟨h.nodup, List.nodup_singleton _, ?_⟩
    intro x hx hx2
    simp at hx2
    exact hwL (hx2 ▸ hx)
  · intro x hx
    rcases List.mem_append.1 hx with hx | hx
    · exact h.range x hx
    · simp at hx; subst hx; exact ⟨hw1, hw2⟩
  · intro x
    show rdDone (wr r.done w true) x = true ↔ _
    by_cases hx : x = w
    · subst hx
      rw [rdDone_wr_same (by rw [h.len_done]; omega)]
      simp
    · rw [rdDone_wr_of_ne hw1 (Ne.symm hx), h.done_iff x]
      constructor
      · intro hm; exact List.mem_append_left _ hm
      · intro hm
        rcases List.mem_append.1 hm with hm | hm
        · exact hm
        · simp at hm; exact absurd hm hx
  · intro x hx
    rcases List.mem_append.1 hx with hx | hx
    · exact h.finite x hx
    · simp at hx; subst hx
      show rd r.dist x ≠ _
      omega
  · intro x hx1 hx2 hfin
    obtain ⟨c, hc, hnd, hcL, hcost⟩ := h.chain x hx1 hx2 hfin
    refine ⟨c, hc, hnd, ?_, hcost⟩
    intro y hy
    rcases hcL y hy with h1 | h1
    · left; exact List.mem_append_left _ h1
    · right; exact h1
  · intro hnn hb
    obtain ⟨g1, g2, g3⟩ := h.greedy hnn hb
    have hvw : rd r.dist v ≤ rd r.dist w := g2 w hw1 hw2 hwL
    refine ⟨?_, ?_, ?_⟩
    · intro x hx
      show rd r.dist x ≤ rd r.dist w
      rcases List.mem_append.1 hx with hx | hx
      · have := g1 x hx
        omega
      · simp at hx; subst hx; exact le_refl _
    · intro x hx1 hx2 hxL
      show rd r.dist w ≤ rd r.dist x
      rcases hmin x hx1 hx2 with hd | hd
      · exact absurd (List.mem_append_left _ ((h.done_iff x).1 hd)) hxL
      · exact hd
    · intro x hx e he
      show rd r.dist e.to_ ≤ rd r.dist x + e.weight
      rcases List.mem_append.1 hx with hx | hx
      · exact g3 x hx e he
      · simp at hx; subst hx; exact hseen hnn hb e he

/-- With enough fuel the loop of `pwsssp` ends; it leaves a shape over the done vertices,
and with non-negative weights whose sums stay below `INT_MAX` no edge leaves the done
vertices or shortens a distance. -/
theorem pwssspLoop_final {t : List (List Edge)} {n s : Int} (hok : TableOK t n)
    (h1 : 1 ≤ n) :
    ∀ (fuel : Nat) (P : List Int) (v : Int) (r : Run),
      DijInv t n s r (P ++ [v]) P v → n ≤ fuel + P.length →
      ∃ r1 L, pwssspLoop t n fuel v r = .ok r1 ∧
        TreeShape t n s (fun e => e.weight) (Bounded t INT_MAX) r1.dist r1.path L ∧
        (∀ x, rdDone r1.done x = true ↔ x ∈ L) ∧
        (NonNeg t → Bounded t (INT_MAX - 1) →
          ∀ x ∈ L, ∀ e ∈ row t x, e.to_ ∈ L ∧ rd r1.dist e.to_ ≤ rd r1.dist x + e.weight) := by
  intro fuel
  induction fuel with
  | zero =>
    intro P v r h hf
    have := length_le_of_nodup_range1 h1 h.nodup h.range
    simp at this hf
    omega
  | succ fuel ih =>
    intro P v r h hf
    obtain ⟨hI, hdone, hst, hle, hseen⟩ :=
      pwssspScan_inv hok (row t v) (fun e he => he) r h
    have hstep : pwssspLoop t n (fuel + 1) v r =
        if find_smallest_undone_distance_vertex n (pwssspScan v (row t v) r) = 0 then
          .ok (pwssspScan v (row t v) r)
        else pwssspLoop t n fuel (find_smallest_undone_distance_vertex n (pwssspScan v (row t v) r))
          { pwssspScan v (row t v) r with
            done := wr (pwssspScan v (row t v) r).done
              (find_smallest_undone_distance_vertex n (pwssspScan v (row t v) r)) true } := rfl
    rw [hstep]
    rcases find_smallest_spec n (pwssspScan v (row t v) r) with ⟨h0, hall⟩ | ⟨w1, w2, w3, w4, w5⟩
    · rw [if_pos h0]
      have hundone : ∀ x, x ∉ P ++ [v] → 1 ≤ x → x ≤ n →
          rd (pwssspScan v (row t v) r).dist x = INT_MAX := by
        intro x hx hx1 hx2
        rcases hall x hx1 hx2 with hd | hd
        · exact absurd ((hI.done_iff x).1 hd) hx
        · exact le_antisymm (hI.le_max x) hd
      refine ⟨_, P ++ [v], rfl, ?_, hI.done_iff, ?_⟩
      · refine
          { src_mem := hI.src_mem
            src_dist := hI.src_dist
            src_path := hI.src_path
            range := hI.range
            chain := ?_
            finite := hI.finite
            fresh := ?_ }
        · intro x hx
          have hxr := hI.range x hx
          obtain ⟨c, hc, hnd, hcL, hcost⟩ := hI.chain x hxr.1 hxr.2 (hI.finite x hx)
          refine ⟨c, hc, hnd, ?_, hcost⟩
          intro y hy
          rcases hcL y hy with h2 | h2
          · exact h2
          · exact h2 ▸ hx
        · intro x hx hx1 hx2
          have := hundone x hx hx1 hx2
          exact ⟨this, hI.fresh x hx1 hx2 this⟩
      · intro hnn hb x hx e he
        have hb2 : Bounded t INT_MAX :=
          fun c h1 h2 => ⟨(hb c h1 h2).1, by have := (hb c h1 h2).2; omega⟩
        obtain ⟨_, _, g3⟩ := hI.greedy hnn hb2
        have hle2 : rd (pwssspScan v (row t v) r).dist e.to_
            ≤ rd (pwssspScan v (row t v) r).dist x + e.weight := by
          rcases List.mem_append.1 hx with hx | hx
          · exact g3 x hx e he
          · simp at hx; subst hx; exact hseen hnn hb2 e he
        refine ⟨?_, hle2⟩
        by_contra hc
        have her := (hok x e he).2.2
        have := hundone e.to_ hc her.1 her.2
        have := (hI.add_exact hx he hc (by omega) hb).2
        omega
    · rw [if_neg (by omega)]
      have hsel := hI.select hseen w1 w2 w3 w4 w5
      exact ih (P ++ [v]) _ _ hsel (by simp; omega)

/-- The state `pwsssp` starts its loop in satisfies the invariant. -/
theorem dij_init {t : List (List Edge)} {n s : Int} {dlen plen olen : Nat}
    (hs : 1 ≤ s ∧ s ≤ n) (hd : dlen = (n + 1).toNat) (hp : plen = (n + 1).toNat)
    (ho : olen = (n + 1).toNat) :
    DijInv t n s { dist := wr (List.replicate dlen INT_MAX) s 0,
                   path := List.replicate plen 0,
                   done := wr (List.replicate olen false) s true } ([] ++ [s]) [] s := by
  have hds : rd (wr (List.replicate dlen INT_MAX) s 0) s = 0 :=
    rd_wr_same (by simp [hd]; omega)
  have hdx : ∀ x, 1 ≤ x → x ≤ n → x ≠ s →
      rd (wr (List.replicate dlen INT_MAX) s 0) x = INT_MAX := by
    intro x hx1 hx2 hx
    rw [rd_wr_of_ne hs.1 (Ne.symm hx)]
    exact rd_replicate (by omega)
  refine
    { len_dist := by simp [length_wr, hd]
      len_path := by simp [hp]
      len_done := by simp [length_wr, ho]
      nodup := by simp
      range := by intro x hx; simp at hx; subst hx; exact hs
      cur_mem := by simp
      sub := by simp
      done_iff := ?_
      src_mem := by simp
      src_dist := hds
      src_path := rd_replicate_zero _ _
      le_max := ?_
      finite := ?_
      chain := ?_
      fresh := fun x _ _ _ => rd_replicate_zero _ _
      greedy := ?_ }
  · intro x
    show rdDone (wr _ _ _) x = true ↔ _
    by_cases hx : x = s
    · subst hx
      rw [rdDone_wr_same (by simp [ho]; omega)]
      simp
    · rw [rdDone_wr_of_ne hs.1 (Ne.symm hx), rdDone_replicate_false]
      simp [hx]
  · intro x
    show rd (wr _ _ _) x ≤ _
    by_cases hx : x = s
    · rw [hx, hds]; decide
    · rw [rd_wr_of_ne hs.1 (Ne.symm hx)]
      simp only [rd, List.getD_eq_getElem?_getD, List.getElem?_replicate]
      split
      · exact le_refl _
      · decide
  · intro x hx
    simp at hx; subst hx
    show rd (wr _ _ _) x ≠ _
    rw [hds]; decide
  · intro x hx1 hx2 hfin
    have hx : x = s := by
      by_contra hx
      exact hfin (hdx x hx1 hx2 hx)
    subst hx
    exact ⟨[], rfl, by simp, by simp, fun _ => hds.symm⟩
  · intro _ _
    refine ⟨?_, ?_, by simp⟩
    · intro x hx
      simp at hx; subst hx; exact le_refl _
    · intro x hx1 hx2 hx
      have hxs : x ≠ s := fun h => hx (by simp [h])
      show rd (wr _ _ _) s ≤ rd (wr _ _ _) x
      rw [hds, hdx x hx1 hx2 hxs]; decide

/-- On a well-formed graph, `pwsssp` from a source in `1..n` with fuel `n` or more returns
and changes only the run state; it leaves a shape over the done vertices, and with
non-negative weights whose sums stay below `INT_MAX` a final state. -/
theorem pwsssp_final {g : Digraph} (hg : WellFormed g) {s : Int} (hs : 1 ≤ s ∧ s ≤ g.size)
    {fuel : Nat} (hf : g.size ≤ fuel) :
    ∃ g1 L, pwsssp fuel g s = .ok g1 ∧ g1.table = g.table ∧ g1.size = g.size ∧
      g1.n_edges = g.n_edges ∧
      TreeShape g.table g.size s (fun e => e.weight) (Bounded g.table INT_MAX)
        g1.dist g1.path L ∧
      (∀ x, rdDone g1.done x = true ↔ x ∈ L) ∧
      (NonNeg g.table → Bounded g.table (INT_MAX - 1) →
        TreeFinal g.table g.size s (fun e => e.weight) g1.dist g1.path L) := by
  obtain ⟨h1, _, _, hd, hp, ho, _⟩ := id hg
  have hinit := dij_init (t := g.table) hs hd hp ho
  obtain ⟨r1, L, hloop, hS, hdone, hcl⟩ :=
    pwssspLoop_final hg.tableOK h1 fuel [] s _ hinit (by simpa using hf)
  refine ⟨{ g with dist := r1.dist, path := r1.path, done := r1.done }, L, ?_, rfl, rfl, rfl,
    hS, hdone, ?_⟩
  · unfold pwsssp
    simp only [hs, and_self, not_true_eq_false, if_false]
    rw [hloop]
  · intro hnn hb
    have hb2 : Bounded g.table INT_MAX :=
      fun c h1 h2 => ⟨(hb c h1 h2).1, by have := (hb c h1 h2).2; omega⟩
    refine ⟨?_, hcl hnn hb⟩
    exact
      { src_mem := hS.src_mem
        src_dist := hS.src_dist
        src_path := hS.src_path
        range := hS.range
        chain := fun x hx => by
          obtain ⟨c, a1, a2, a3, a4⟩ := hS.chain x hx
          exact ⟨c, a1, a2, a3, fun _ => a4 hb2⟩
        finite := hS.finite
        fresh := hS.fresh }

/-! ## Consequences for the two algorithms -/

theorem totalWeight_eq (t : List (List Edge)) :
    totalWeight t = (t.flatten.map (fun e => e.weight)).sum := by
  induction t with
  | nil => rfl
  | cons l t ih =>
    have : totalWeight (l :: t) = pathWeight l + totalWeight t := by
      simp [totalWeight]
    rw [this, ih]
    simp [pathWeight]

/-- Non-negative weights with total at most `B` keep every sum of distinct stored edges
between 0 and `B`. -/
theorem bounded_of_total {t : List (List Edge)} {B : Int} (hnn : NonNeg t)
    (htot : totalWeight t ≤ B) : Bounded t B := by
  intro c hst hnd
  have hcn : c.Nodup := List.Nodup.of_map _ hnd
  have hsub : c ⊆ t.flatten := fun e he => List.mem_flatten.2 (hst e he)
  obtain ⟨c1, hperm, hsl⟩ := List.subperm_of_subset hcn hsub
  have hnn2 : ∀ a ∈ t.flatten.map (fun e => e.weight), (0 : Int) ≤ a := by
    intro a ha
    obtain ⟨e, he, rfl⟩ := List.mem_map.1 ha
    obtain ⟨l, hl, hel⟩ := List.mem_flatten.1 he
    exact hnn l hl e hel
  have h1 : (c1.map (fun e => e.weight)).sum ≤ (t.flatten.map (fun e => e.weight)).sum :=
    List.Sublist.sum_le_sum (hsl.map _) hnn2
  have h2 : (c1.map (fun e => e.weight)).sum = (c.map (fun e => e.weight)).sum :=
    (hperm.map _).sum_eq
  have h3 : (0 : Int) ≤ (c.map (fun e => e.weight)).sum := by
    apply List.sum_nonneg
    intro a ha
    obtain ⟨e, he, rfl⟩ := List.mem_map.1 ha
    obtain ⟨l, hl, hel⟩ := hst e he
    exact hnn l hl e hel
  rw [totalWeight_eq] at htot
  unfold pathWeight
  omega

/-- In a shape a vertex of `1..n` with a finite distance is reached. -/
theorem TreeShape.mem_of_finite {t : List (List Edge)} {n s : Int} {cost : Edge → Int}
    {exact : Prop} {dist path : List Int} {L : List Int}
    (hS : TreeShape t n s cost exact dist path L) {v : Int} (h1 : 1 ≤ v) (h2 : v ≤ n)
    (hfin : rd dist v ≠ INT_MAX) : v ∈ L := by
  by_contra hc
  exact hfin (hS.fresh v hc h1 h2).1

/-- In a shape a vertex of `1..n` that no path from the source leads to keeps the initial
values. -/
theorem TreeShape.unreachable {t : List (List Edge)} {n s : Int} {cost : Edge → Int}
    {exact : Prop} {dist path : List Int} {L : List Int}
    (hS : TreeShape t n s cost exact dist path L) {v : Int} (h1 : 1 ≤ v) (h2 : v ≤ n)
    (hno : ¬ ∃ p, IsPath t s p v) : rd dist v = INT_MAX ∧ rd path v = 0 := by
  apply hS.fresh v _ h1 h2
  intro hv
  obtain ⟨c, hc, _⟩ := hS.chain v hv
  exact hno ⟨c.reverse, hc.isPath⟩

/-- In a shape `printPathHelper` writes, for a reached vertex, at most `n` vertices: the
source first, the vertex last, each later one preceded by its `path` value; a recursion
depth equal to their number is enough. -/
theorem TreeShape.print {t : List (List Edge)} {n s : Int} {cost : Edge → Int}
    {exact : Prop} {dist path : List Int} {L : List Int} (hok : TableOK t n)
    (hS : TreeShape t n s cost exact dist path L) {v : Int} (hv : v ∈ L) :
    ∃ out, (∀ fuel, out.length ≤ fuel → printPathHelper path fuel v = .ok out) ∧
      (out.length : Int) ≤ n ∧ out.head? = some s ∧ out.getLast? = some v ∧
      out.Chain' (fun a b => rd path b = a) := by
  obtain ⟨c, hc, hnd, hcL, _⟩ := hS.chain v hv
  obtain ⟨o1, o2, o3⟩ := chain_output hc
  have hlen := hc.length_lt hok hS.src_path (hS.range s hS.src_mem) hnd
    (fun e he => hS.range _ (hcL e he))
  refine ⟨s :: c.reverse.map (fun e => e.to_), ?_, ?_, o1, o2, o3⟩
  · intro fuel hfuel
    exact printPathHelper_chain hok hS.src_path hc fuel (by simp at hfuel; omega)
  · simp; omega

/-! ## Fuel, earlier run state and weights -/

/-- More fuel does not change what the loop of `uwsssp` returns. -/
theorem uwssspLoop_mono {t : List (List Edge)} (k : Nat) :
    ∀ (fuel : Nat) (r : Run) (Q : List Int) (r1 : Run),
      uwssspLoop t fuel r Q = .ok r1 → uwssspLoop t (fuel + k) r Q = .ok r1 := by
  intro fuel
  induction fuel with
  | zero =>
    intro r Q r1 h
    cases Q with
    | nil => rw [uwssspLoop_nil] at h ⊢; exact h
    | cons v Q => simp [uwssspLoop] at h
  | succ fuel ih =>
    intro r Q r1 h
    cases Q with
    | nil => rw [uwssspLoop_nil] at h ⊢; exact h
    | cons v Q =>
      have e : fuel + 1 + k = (fuel + k) + 1 := by omega
      rw [e]
      exact ih _ _ _ h

/-- More fuel does not change what the loop of `pwsssp` returns. -/
theorem pwssspLoop_mono {t : List (List Edge)} {n : Int} (k : Nat) :
    ∀ (fuel : Nat) (v : Int) (r r1 : Run),
      pwssspLoop t n fuel v r = .ok r1 → pwssspLoop t n (fuel + k) v r = .ok r1 := by
  intro fuel
  induction fuel with
  | zero => intro v r r1 h; simp [pwssspLoop] at h
  | succ fuel ih =>
    intro v r r1 h
    have e : fuel + 1 + k = (fuel + k) + 1 := by omega
    rw [e]
    simp only [pwssspLoop] at h ⊢
    split
    next h0 => simpa [h0] using h
    next h0 =>
      rw [if_neg h0] at h
      exact ih _ _ _ h

/-- More fuel does not change what `uwsssp` returns. -/
theorem uwsssp_mono {g g1 : Digraph} {s : Int} {fuel : Nat} (k : Nat)
    (h : uwsssp fuel g s = .ok g1) : uwsssp (fuel + k) g s = .ok g1 := by
  unfold uwsssp at h ⊢
  split
  next hs => simp [hs] at h
  next hs =>
    rw [if_neg hs] at h
    split at h
    next r hr => rw [uwssspLoop_mono k _ _ _ _ hr]; exact h
    next f hr => cases h

/-- More fuel does not change what `pwsssp` returns. -/
theorem pwsssp_mono {g g1 : Digraph} {s : Int} {fuel : Nat} (k : Nat)
    (h : pwsssp fuel g s = .ok g1) : pwsssp (fuel + k) g s = .ok g1 := by
  unfold pwsssp at h ⊢
  split
  next hs => simp [hs] at h
  next hs =>
    rw [if_neg hs] at h
    split at h
    next r hr => rw [pwssspLoop_mono k _ _ _ _ hr]; exact h
    next f hr => cases h

/-- The inner loop of `uwsssp` carries `done` along without reading it. -/
theorem uwssspScan_done (v : Int) (d : List Bool) (es : List Edge) :
    ∀ (r : Run) (Q : List Int),
      uwssspScan v es { r with done := d } Q
        = ({ (uwssspScan v es r Q).1 with done := d }, (uwssspScan v es r Q).2) := by
  induction es with
  | nil => intro r Q; rfl
  | cons e rest ih =>
    intro r Q
    by_cases hu : rd r.dist e.to_ = INT_MAX
    · simp only [uwssspScan, hu, if_true]
      exact ih ⟨wr r.dist e.to_ (wrap32 (rd r.dist v + 1)), wr r.path e.to_ v, r.done⟩
        (Q ++ [e.to_])
    · simp only [uwssspScan, hu, if_false]
      exact ih r Q

/-- The loop of `uwsssp` carries `done` along without reading it. -/
theorem uwssspLoop_done (t : List (List Edge)) (d : List Bool) :
    ∀ (fuel : Nat) (r : Run) (Q : List Int),
      uwssspLoop t fuel { r with done := d } Q
        = match uwssspLoop t fuel r Q with
          | .ok r1 => .ok { r1 with done := d }
          | .error f => .error f := by
  intro fuel
  induction fuel with
  | zero =>
    intro r Q
    cases Q with
    | nil => simp [uwssspLoop_nil]
    | cons v Q => simp [uwssspLoop]
  | succ fuel ih =>
    intro r Q
    cases Q with
    | nil => simp [uwssspLoop_nil]
    | cons v Q =>
      simp only [uwssspLoop]
      rw [uwssspScan_done]
      exact ih _ _

/-- The inner loop of `uwsssp` reads only the targets of the edges. -/
theorem uwssspScan_targets (v : Int) (es : List Edge) :
    ∀ (es2 : List Edge) (r : Run) (Q : List Int),
      es2.map (fun e => e.to_) = es.map (fun e => e.to_) →
      uwssspScan v es2 r Q = uwssspScan v es r Q := by
  induction es with
  | nil =>
    intro es2 r Q h
    have : es2 = [] := by simpa using h
    rw [this]
  | cons e rest ih =>
    intro es2 r Q h
    cases es2 with
    | nil => simp at h
    | cons e2 rest2 =>
      simp only [List.map_cons, List.cons.injEq] at h
      obtain ⟨h1, h2⟩ := h
      simp only [uwssspScan, h1]
      split
      · exact ih _ _ _ h2
      · exact ih _ _ _ h2

/-- The loop of `uwsssp` reads only the targets of the stored edges. -/
theorem uwssspLoop_targets {t t2 : List (List Edge)}
    (h : ∀ v, (row t2 v).map (fun e => e.to_) = (row t v).map (fun e => e.to_)) :
    ∀ (fuel : Nat) (r : Run) (Q : List Int), uwssspLoop t2 fuel r Q = uwssspLoop t fuel r Q := by
  intro fuel
  induction fuel with
  | zero =>
    intro r Q
    cases Q with
    | nil => simp [uwssspLoop_nil]
    | cons v Q => simp [uwssspLoop]
  | succ fuel ih =>
    intro r Q
    cases Q with
    | nil => simp [uwssspLoop_nil]
    | cons v Q =>
      simp only [uwssspLoop]
      rw [uwssspScan_targets v (row t v) (row t2 v) r Q (h v)]
      exact ih _ _

/-- Tables with the same (from, to) pairs in the same order have the same targets in every
adjacency list. -/
theorem row_targets_of_pairs {t t2 : List (List Edge)}
    (h : t2.map (List.map (fun e => (e.from_, e.to_)))
      = t.map (List.map (fun e => (e.from_, e.to_)))) (v : Int) :
    (row t2 v).map (fun e => e.to_) = (row t v).map (fun e => e.to_) := by
  have key : ∀ (u : List (List Edge)) (k : Nat),
      (u.getD k []).map (fun e => (e.from_, e.to_))
        = (u.map (List.map (fun e => (e.from_, e.to_)))).getD k [] := by
    intro u k
    simp only [List.getD_eq_getElem?_getD, List.getElem?_map]
    cases u[k]? <;> simp
  have h1 := key t v.toNat
  have h2 := key t2 v.toNat
  rw [h] at h2
  have h3 : (row t2 v).map (fun e => (e.from_, e.to_))
      = (row t v).map (fun e => (e.from_, e.to_)) := by
    unfold row; rw [h1, h2]
  have h4 := congrArg (List.map Prod.snd) h3
  simpa [List.map_map, Function.comp_def] using h4

/-! ## The scan for the next vertex -/

/-- When the scan returns a visited index, the indices visited before it are done or
strictly farther, and those visited after it are done or at least as far. -/
theorem scanMin_first (r : Run) (l : List Int) :
    ∀ m vi : Int,
    (scanMin r l m vi = vi ∧ ∀ i ∈ l, rdDone r.done i = true ∨ m ≤ rd r.dist i) ∨
    (∃ l1 l2, l = l1 ++ scanMin r l m vi :: l2 ∧
      rdDone r.done (scanMin r l m vi) = false ∧ rd r.dist (scanMin r l m vi) < m ∧
      (∀ i ∈ l1, rdDone r.done i = true ∨ rd r.dist (scanMin r l m vi) < rd r.dist i) ∧
      (∀ i ∈ l2, rdDone r.done i = true ∨ rd r.dist (scanMin r l m vi) ≤ rd r.dist i)) := by
  induction l with
  | nil => intro m vi; left; simp [scanMin]
  | cons i rest ih =>
    intro m vi
    by_cases hc : rdDone r.done i = false ∧ rd r.dist i < m
    · have hs : scanMin r (i :: rest) m vi = scanMin r rest (rd r.dist i) i := by
        simp [scanMin, hc.1, hc.2]
      rw [hs]
      right
      rcases ih (rd r.dist i) i with ⟨h1, h2⟩ | ⟨l1, l2, h1, h2, h3, h4, h5⟩
      · rw [h1]
        exact ⟨[], rest, rfl, hc.1, hc.2, by simp, h2⟩
      · refine ⟨i :: l1, l2, by rw [List.cons_append, ← h1], h2, by omega, ?_, h5⟩
        intro j hj
        rcases List.mem_cons.1 hj with rfl | hj
        · right; exact h3
        · exact h4 j hj
    · have hs : scanMin r (i :: rest) m vi = scanMin r rest m vi := by
        by_cases hd : rdDone r.done i = false
        · have : ¬ rd r.dist i < m := fun h => hc ⟨hd, h⟩
          simp [scanMin, this]
        · simp at hd
          simp [scanMin, hd]
      rw [hs]
      have hi : rdDone r.done i = true ∨ m ≤ rd r.dist i := by
        by_cases hd : rdDone r.done i = false
        · right
          have : ¬ rd r.dist i < m := fun h => hc ⟨hd, h⟩
          omega
        · left; simpa using hd
      rcases ih m vi with ⟨h1, h2⟩ | ⟨l1, l2, h1, h2, h3, h4, h5⟩
      · left
        refine ⟨h1, ?_⟩
        intro j hj
        rcases List.mem_cons.1 hj with rfl | hj
        · exact hi
        · exact h2 j hj
      · right
        refine ⟨i :: l1, l2, by rw [List.cons_append, ← h1], h2, h3, ?_, h5⟩
        intro j hj
        rcases List.mem_cons.1 hj with rfl | hj
        · rcases hi with hi | hi
          · left; exact hi
          · right; omega
        · exact h4 j hj

theorem vertexIds_sorted (n : Int) : (vertexIds n).Pairwise (fun a b => a < b) := by
  unfold vertexIds
  rw [List.pairwise_map]
  exact (List.pairwise_lt_range n.toNat).imp (fun h => by omega)

/-! ## The vertices the loop bodies run for -/

/-- One run of the body of the loop of `uwsssp`: either the queue is empty afterwards and
the visited vertices are the processed ones together with `v`, or the invariant holds for
the next vertex of the queue. -/
theorem BfsInv.dequeue {t : List (List Edge)} {n s : Int} {r : Run} {P Q : List Int} {v : Int}
    (hok : TableOK t n) (hn : n < INT_MAX) (h : BfsInv t n s r (P ++ v :: Q) P v) :
    ((uwssspScan v (row t v) r Q).2 = [] ∧ (P ++ [v]).Nodup ∧
      ∀ x ∈ P ++ [v], 1 ≤ x ∧ x ≤ n) ∨
    (∃ w Q2, (uwssspScan v (row t v) r Q).2 = w :: Q2 ∧
      BfsInv t n s (uwssspScan v (row t v) r Q).1 ((P ++ [v]) ++ w :: Q2) (P ++ [v]) w) := by
  obtain ⟨N, hQ, hI, hst, hseen⟩ :=
    uwssspScan_inv hok hn (row t v) (fun e he => he) r (P ++ v :: Q) Q h
  have hclosed : ∀ x ∈ P ++ [v], ∀ e ∈ row t x, e.to_ ∈ (P ++ v :: Q) ++ N ∧
      rd (uwssspScan v (row t v) r Q).1.dist e.to_
        ≤ rd (uwssspScan v (row t v) r Q).1.dist x + 1 := by
    intro x hx e he
    rcases List.mem_append.1 hx with hx | hx
    · exact hI.closed x hx e he
    · simp at hx; subst hx; exact hseen e he
  rw [hQ]
  cases hQN : Q ++ N with
  | nil =>
    left
    have hnil : Q = [] ∧ N = [] := by simpa using hQN
    have hL : (P ++ v :: Q) ++ N = P ++ [v] := by simp [hnil.1, hnil.2]
    exact ⟨rfl, hL ▸ hI.nodup, hL ▸ hI.shape.range⟩
  | cons w Q2 =>
    right
    have hL : (P ++ v :: Q) ++ N = (P ++ [v]) ++ w :: Q2 := by
      simp [← hQN]
    have hvw : rd (uwssspScan v (row t v) r Q).1.dist v
        ≤ rd (uwssspScan v (row t v) r Q).1.dist w := by
      have hs := hI.sorted
      rw [hL, List.append_assoc] at hs
      have := (List.pairwise_append.1 hs).2.1
      simp only [List.singleton_append] at this
      exact (List.pairwise_cons.1 this).1 w (by simp)
    refine ⟨w, Q2, rfl, ?_⟩
    refine
      { len_dist := hI.len_dist
        len_path := hI.len_path
        nodup := hL ▸ hI.nodup
        cur_mem := by simp
        sub := fun x hx => by
          rcases List.mem_append.1 hx with hx | hx
          · simp [hx]
          · simp at hx; simp [hx]
        shape := hL ▸ hI.shape
        closed := fun x hx e he => hL ▸ hclosed x hx e he
        sorted := hL ▸ hI.sorted
        span := ?_ }
    intro x hx
    have := hI.span x (hL ▸ hx)
    omega

/-- The vertices taken from the queue, after the processed ones, are pairwise different
vertices of `1..n`. -/
theorem uwssspLoopOrder_inv {t : List (List Edge)} {n s : Int} (hok : TableOK t n)
    (hn : n < INT_MAX) :
    ∀ (fuel : Nat) (P : List Int) (v : Int) (Q : List Int) (r : Run),
      BfsInv t n s r (P ++ v :: Q) P v →
      (P ++ uwssspLoopOrder t fuel r (v :: Q)).Nodup ∧
        ∀ x ∈ P ++ uwssspLoopOrder t fuel r (v :: Q), 1 ≤ x ∧ x ≤ n := by
  intro fuel
  induction fuel with
  | zero =>
    intro P v Q r h
    simp only [uwssspLoopOrder, List.append_nil]
    exact ⟨(List.nodup_append.1 h.nodup).1,
      fun x hx => h.shape.range x (List.mem_append_left _ hx)⟩
  | succ fuel ih =>
    intro P v Q r h
    have hord : uwssspLoopOrder t (fuel + 1) r (v :: Q)
        = v :: uwssspLoopOrder t fuel (uwssspScan v (row t v) r Q).1
            (uwssspScan v (row t v) r Q).2 := rfl
    rw [hord]
    rcases h.dequeue hok hn with ⟨h1, h2, h3⟩ | ⟨w, Q2, h1, h2⟩
    · rw [h1]
      have : uwssspLoopOrder t fuel (uwssspScan v (row t v) r Q).1 [] = [] := by
        cases fuel <;> rfl
      rw [this]
      exact ⟨h2, h3⟩
    · rw [h1]
      have := ih (P ++ [v]) w Q2 _ h2
      simpa using this

/-- One run of the body of the loop of `pwsssp`: either the scan returns 0 and the done
vertices are the relaxed ones together with `v`, or the invariant holds for the vertex the
scan returns, marked done. -/
theorem DijInv.advance {t : List (List Edge)} {n s : Int} {r : Run} {P : List Int} {v : Int}
    (hok : TableOK t n) (h : DijInv t n s r (P ++ [v]) P v) :
    find_smallest_undone_distance_vertex n (pwssspScan v (row t v) r) = 0 ∨
    (find_smallest_undone_distance_vertex n (pwssspScan v (row t v) r) ≠ 0 ∧
      DijInv t n s
        { pwssspScan v (row t v) r with
          done := wr (pwssspScan v (row t v) r).done
            (find_smallest_undone_distance_vertex n (pwssspScan v (row t v) r)) true }
        ((P ++ [v]) ++ [find_smallest_undone_distance_vertex n (pwssspScan v (row t v) r)])
        (P ++ [v]) (find_smallest_undone_distance_vertex n (pwssspScan v (row t v) r))) := by
  obtain ⟨hI, _, _, _, hseen⟩ := pwssspScan_inv hok (row t v) (fun e he => he) r h
  rcases find_smallest_spec n (pwssspScan v (row t v) r) with ⟨h0, _⟩ | ⟨w1, w2, w3, w4, w5⟩
  · exact Or.inl h0
  · exact Or.inr ⟨by omega, hI.select hseen w1 w2 w3 w4 w5⟩

/-- The vertices the body of the loop of `pwsssp` runs for, after the relaxed ones, are
pairwise different vertices of `1..n`. -/
theorem pwssspLoopOrder_inv {t : List (List Edge)} {n s : Int} (hok : TableOK t n) :
    ∀ (fuel : Nat) (P : List Int) (v : Int) (r : Run),
      DijInv t n s r (P ++ [v]) P v →
      (P ++ pwssspLoopOrder t n fuel v r).Nodup ∧
        ∀ x ∈ P ++ pwssspLoopOrder t n fuel v r, 1 ≤ x ∧ x ≤ n := by
  intro fuel
  induction fuel with
  | zero =>
    intro P v r h
    simp only [pwssspLoopOrder, List.append_nil]
    exact ⟨(List.nodup_append.1 h.nodup).1, fun x hx => h.range x (List.mem_append_left _ hx)⟩
  | succ fuel ih =>
    intro P v r h
    simp only [pwssspLoopOrder]
    rcases h.advance hok with h0 | ⟨h0, hsel⟩
    · rw [if_pos h0]
      exact ⟨h.nodup, h.range⟩
    · rw [if_neg h0]
      have := ih (P ++ [v]) _ _ hsel
      simpa using this

/-! ## The sums the runs evaluate -/

theorem wrap32_range {x : Int} (h : wrap32 x = x) : -2147483648 ≤ x ∧ x ≤ INT_MAX := by
  have hmax : INT_MAX = 2147483647 := rfl
  unfold wrap32 at h
  omega

/-- Every sum `dist[v] + 1` the inner loop of `uwsssp` evaluates lies in `1..n-1`. -/
theorem uwssspScanSums_bound {t : List (List Edge)} {n s : Int} {P : List Int} {v : Int}
    (hok : TableOK t n) (hn : n < INT_MAX) (es : List Edge) (hes : ∀ e ∈ es, e ∈ row t v) :
    ∀ (r : Run) (L : List Int), BfsInv t n s r L P v →
      ∀ x ∈ uwssspScanSums v es r, 1 ≤ x ∧ x ≤ n - 1 ∧ wrap32 x = x := by
  induction es with
  | nil => intro r L _ x hx; simp [uwssspScanSums] at hx
  | cons e rest ih =>
    intro r L h x hx
    have he : e ∈ row t v := hes e (List.mem_cons_self _ _)
    have hrest : ∀ y ∈ rest, y ∈ row t v := fun y hy => hes y (List.mem_cons_of_mem _ hy)
    by_cases hu : rd r.dist e.to_ = INT_MAX
    · obtain ⟨_, hinv, _⟩ := h.visit hok hn he hu
      simp only [uwssspScanSums, hu, if_true, List.mem_cons] at hx
      rcases hx with hx | hx
      · have hur := (hok v e he).2.2
        have hdv := h.shape.dist_lt hok h.cur_mem
        have hmax : INT_MAX = 2147483647 := rfl
        have hw : wrap32 (rd r.dist v + 1) = rd r.dist v + 1 :=
          wrap32_eq (by omega) (by omega)
        have hdu : rd (wr r.dist e.to_ (wrap32 (rd r.dist v + 1))) e.to_ = rd r.dist v + 1 := by
          rw [rd_wr_same (by rw [h.len_dist]; omega), hw]
        have := hinv.shape.dist_lt hok (List.mem_append_right L (List.mem_singleton_self e.to_))
        change 0 ≤ rd (wr _ _ _) _ ∧ rd (wr _ _ _) _ + 1 ≤ n at this
        rw [hdu] at this
        subst hx
        exact ⟨by omega, by omega, hw⟩
      · exact ih hrest _ _ hinv x hx
    · simp only [uwssspScanSums, hu, if_false] at hx
      exact ih hrest r L h x hx

/-- Every sum `dist[v] + 1` the loop of `uwsssp` evaluates lies in `1..n-1`. -/
theorem uwssspLoopSums_bound {t : List (List Edge)} {n s : Int} (hok : TableOK t n)
    (hn : n < INT_MAX) :
    ∀ (fuel : Nat) (P : List Int) (v : Int) (Q : List Int) (r : Run),
      BfsInv t n s r (P ++ v :: Q) P v →
      ∀ x ∈ uwssspLoopSums t fuel r (v :: Q), 1 ≤ x ∧ x ≤ n - 1 ∧ wrap32 x = x := by
  intro fuel
  induction fuel with
  | zero => intro P v Q r _ x hx; simp [uwssspLoopSums] at hx
  | succ fuel ih =>
    intro P v Q r h x hx
    have hsum : uwssspLoopSums t (fuel + 1) r (v :: Q)
        = uwssspScanSums v (row t v) r ++
          uwssspLoopSums t fuel (uwssspScan v (row t v) r Q).1
            (uwssspScan v (row t v) r Q).2 := rfl
    rw [hsum] at hx
    rcases List.mem_append.1 hx with hx | hx
    · exact uwssspScanSums_bound hok hn (row t v) (fun e he => he) r _ h x hx
    · rcases h.dequeue hok hn with ⟨h1, _, _⟩ | ⟨w, Q2, h1, h2⟩
      · rw [h1] at hx
        have : uwssspLoopSums t fuel (uwssspScan v (row t v) r Q).1 [] = [] := by
          cases fuel <;> rfl
        rw [this] at hx
        simp at hx
      · rw [h1] at hx
        exact ih (P ++ [v]) w Q2 _ h2 x hx

/-- Without overflow every sum `dist[v] + w` the inner loop of `pwsssp` evaluates is an
`int`. -/
theorem pwssspScanSums_bound {t : List (List Edge)} {n s : Int} {L P : List Int} {v : Int}
    (hok : TableOK t n) (hb : Bounded t INT_MAX) (es : List Edge)
    (hes : ∀ e ∈ es, e ∈ row t v) :
    ∀ (r : Run), DijInv t n s r L P v →
      ∀ x ∈ pwssspScanSums v es r, -2147483648 ≤ x ∧ x ≤ INT_MAX ∧ wrap32 x = x := by
  induction es with
  | nil => intro r _ x hx; simp [pwssspScanSums] at hx
  | cons e rest ih =>
    intro r h x hx
    have he : e ∈ row t v := hes e (List.mem_cons_self _ _)
    have hrest : ∀ y ∈ rest, y ∈ row t v := fun y hy => hes y (List.mem_cons_of_mem _ hy)
    cases hd : rdDone r.done e.to_ with
    | true =>
      simp only [pwssspScanSums, hd, if_true] at hx
      exact ih hrest r h x hx
    | false =>
      have huL : e.to_ ∉ L := fun hmem => by
        have := (h.done_iff e.to_).2 hmem
        rw [hd] at this; cases this
      have hex := (h.add_exact h.cur_mem he huL (le_refl _) hb).1
      have hhead : -2147483648 ≤ rd r.dist v + e.weight ∧
          rd r.dist v + e.weight ≤ INT_MAX ∧
          wrap32 (rd r.dist v + e.weight) = rd r.dist v + e.weight :=
        ⟨(wrap32_range hex).1, (wrap32_range hex).2, hex⟩
      by_cases hlt : rd r.dist e.to_ > wrap32 (rd r.dist v + e.weight)
      · obtain ⟨hinv, _, _⟩ := h.relax hok he hd hlt
        simp only [pwssspScanSums, hd, hlt, if_true, Bool.false_eq_true, if_false,
          List.mem_cons] at hx
        rcases hx with hx | hx
        · rw [hx]; exact hhead
        · exact ih hrest _ hinv x hx
      · simp only [pwssspScanSums, hd, hlt, Bool.false_eq_true, if_false,
          List.mem_cons] at hx
        rcases hx with hx | hx
        · rw [hx]; exact hhead
        · exact ih hrest r h x hx

/-- Without overflow every sum `dist[v] + w` the loop of `pwsssp` evaluates is an `int`. -/
theorem pwssspLoopSums_bound {t : List (List Edge)} {n s : Int} (hok : TableOK t n)
    (hb : Bounded t INT_MAX) :
    ∀ (fuel : Nat) (P : List Int) (v : Int) (r : Run),
      DijInv t n s r (P ++ [v]) P v →
      ∀ x ∈ pwssspLoopSums t n fuel v r, -2147483648 ≤ x ∧ x ≤ INT_MAX ∧ wrap32 x = x := by
  intro fuel
  induction fuel with
  | zero => intro P v r _ x hx; simp [pwssspLoopSums] at hx
  | succ fuel ih =>
    intro P v r h x hx
    simp only [pwssspLoopSums] at hx
    rcases h.advance hok with h0 | ⟨h0, hsel⟩
    · rw [if_pos h0] at hx
      exact pwssspScanSums_bound hok hb (row t v) (fun e he => he) r h x hx
    · rw [if_neg h0] at hx
      rcases List.mem_append.1 hx with hx | hx
      · exact pwssspScanSums_bound hok hb (row t v) (fun e he => he) r h x hx
      · exact ih (P ++ [v]) _ _ hsel x hx

/-! ## What the runs leave untouched -/

theorem uwsssp_ok {g g1 : Digraph} {s : Int} {fuel : Nat} (h : uwsssp fuel g s = .ok g1) :
    (1 ≤ s ∧ s ≤ g.size) ∧
    ∃ r1, uwssspLoop g.table fuel
        { dist := wr (List.replicate g.dist.length INT_MAX) s 0,
          path := List.replicate g.path.length 0,
          done := g.done } [s] = .ok r1 ∧
      g1 = { g with dist := r1.dist, path := r1.path } := by
  unfold uwsssp at h
  split at h
  next hs => cases h
  next hs =>
    refine ⟨by simpa using hs, ?_⟩
    split at h
    next r hr =>
      injection h with h
      exact ⟨r, hr, h.symm⟩
    next f hr => cases h

theorem pwsssp_ok {g g1 : Digraph} {s : Int} {fuel : Nat} (h : pwsssp fuel g s = .ok g1) :
    (1 ≤ s ∧ s ≤ g.size) ∧
    ∃ r1, pwssspLoop g.table g.size fuel s
        { dist := wr (List.replicate g.dist.length INT_MAX) s 0,
          path := List.replicate g.path.length 0,
          done := wr (List.replicate g.done.length false) s true } = .ok r1 ∧
      g1 = { g with dist := r1.dist, path := r1.path, done := r1.done } := by
  unfold pwsssp at h
  split at h
  next hs => cases h
  next hs =>
    refine ⟨by simpa using hs, ?_⟩
    split at h
    next r hr =>
      injection h with h
      exact ⟨r, hr, h.symm⟩
    next f hr => cases h

/-- The inner loop of `uwsssp` keeps the length of `dist` and its slot 0. -/
theorem uwssspScan_keep (v : Int) (es : List Edge) (hes : ∀ e ∈ es, 1 ≤ e.to_) :
    ∀ (r : Run) (Q : List Int),
      (uwssspScan v es r Q).1.dist.length = r.dist.length ∧
      rd (uwssspScan v es r Q).1.dist 0 = rd r.dist 0 := by
  induction es with
  | nil => intro r Q; exact ⟨rfl, rfl⟩
  | cons e rest ih =>
    intro r Q
    have h1 := hes e (List.mem_cons_self _ _)
    have hrest : ∀ y ∈ rest, 1 ≤ y.to_ := fun y hy => hes y (List.mem_cons_of_mem _ hy)
    by_cases hu : rd r.dist e.to_ = INT_MAX
    · simp only [uwssspScan, hu, if_true]
      obtain ⟨i1, i2⟩ := ih hrest
        ⟨wr r.dist e.to_ (wrap32 (rd r.dist v + 1)), wr r.path e.to_ v, r.done⟩ (Q ++ [e.to_])
      refine ⟨by rw [i1]; exact length_wr _ _ _, ?_⟩
      rw [i2]
      exact rd_wr_of_ne h1 (by omega)
    · simp only [uwssspScan, hu, if_false]
      exact ih hrest r Q

/-- The loop of `uwsssp` keeps the length of `dist` and its slot 0. -/
theorem uwssspLoop_keep {t : List (List Edge)} {n : Int} (hok : TableOK t n) :
    ∀ (fuel : Nat) (r : Run) (Q : List Int) (r1 : Run), uwssspLoop t fuel r Q = .ok r1 →
      r1.dist.length = r.dist.length ∧ rd r1.dist 0 = rd r.dist 0 := by
  intro fuel
  induction fuel with
  | zero =>
    intro r Q r1 h
    cases Q with
    | nil =>
      rw [uwssspLoop_nil] at h
      injection h with h
      subst h
      exact ⟨rfl, rfl⟩
    | cons v Q => simp [uwssspLoop] at h
  | succ fuel ih =>
    intro r Q r1 h
    cases Q with
    | nil =>
      rw [uwssspLoop_nil] at h
      injection h with h
      subst h
      exact ⟨rfl, rfl⟩
    | cons v Q =>
      obtain ⟨i1, i2⟩ := ih _ _ _ h
      obtain ⟨k1, k2⟩ := uwssspScan_keep v (row t v) (fun e he => (hok v e he).2.2.1) r Q
      exact ⟨i1.trans k1, i2.trans k2⟩

/-- The inner loop of `pwsssp` keeps the length of `dist` and its slot 0. -/
theorem pwssspScan_keep (v : Int) (es : List Edge) (hes : ∀ e ∈ es, 1 ≤ e.to_) :
    ∀ (r : Run),
      (pwssspScan v es r).dist.length = r.dist.length ∧
      rd (pwssspScan v es r).dist 0 = rd r.dist 0 := by
  induction es with
  | nil => intro r; exact ⟨rfl, rfl⟩
  | cons e rest ih =>
    intro r
    have h1 := hes e (List.mem_cons_self _ _)
    have hrest : ∀ y ∈ rest, 1 ≤ y.to_ := fun y hy => hes y (List.mem_cons_of_mem _ hy)
    simp only [pwssspScan]
    split
    · obtain ⟨i1, i2⟩ := ih hrest
        ⟨wr r.dist e.to_ (wrap32 (rd r.dist v + e.weight)), wr r.path e.to_ v, r.done⟩
      refine ⟨by rw [i1]; exact length_wr _ _ _, ?_⟩
      rw [i2]
      exact rd_wr_of_ne h1 (by omega)
    · exact ih hrest r

/-- The loop of `pwsssp` keeps the length of `dist` and its slot 0. -/
theorem pwssspLoop_keep {t : List (List Edge)} {n : Int} (hok : TableOK t n) :
    ∀ (fuel : Nat) (v : Int) (r r1 : Run), pwssspLoop t n fuel v r = .ok r1 →
      r1.dist.length = r.dist.length ∧ rd r1.dist 0 = rd r.dist 0 := by
  intro fuel
  induction fuel with
  | zero => intro v r r1 h; simp [pwssspLoop] at h
  | succ fuel ih =>
    intro v r r1 h
    obtain ⟨k1, k2⟩ := pwssspScan_keep v (row t v) (fun e he => (hok v e he).2.2.1) r
    simp only [pwssspLoop] at h
    split at h
    next h0 =>
      injection h with h
      subst h
      exact ⟨k1, k2⟩
    next h0 =>
      obtain ⟨i1, i2⟩ := ih _ _ _ h
      exact ⟨i1.trans k1, i2.trans k2⟩

/-- Two vectors of `n + 1` slots that read the same at every index of `0..n` are equal. -/
theorem list_eq_of_rd {a b : List Int} {n : Int} (ha : a.length = (n + 1).toNat)
    (hb : b.length = (n + 1).toNat) (h : ∀ v, 0 ≤ v → v ≤ n → rd a v = rd b v) : a = b := by
  apply List.ext_getElem (by rw [ha, hb])
  intro i h1 h2
  have := h (i : Int) (by omega) (by omega)
  simp only [rd, Int.toNat_ofNat, List.getD_eq_getElem _ _ h1, List.getD_eq_getElem _ _ h2]
    at this
  exact this

theorem WellFormed.mem_table {g : Digraph} (hg : WellFormed g) {l : List Edge}
    (hl : l ∈ g.table) {e : Edge} (he : e ∈ l) : 1 ≤ e.to_ ∧ e.to_ ≤ g.size := by
  obtain ⟨k, hk, rfl⟩ := List.getElem_of_mem hl
  have hrow : e ∈ row g.table (k : Int) := by
    simp only [row, Int.toNat_ofNat, List.getD_eq_getElem _ _ hk]
    exact he
  exact (hg.row_mem hrow).2.2.2

theorem IsPath.stored {t : List (List Edge)} {a b : Int} {p : List Edge}
    (h : IsPath t a p b) : ∀ e ∈ p, ∃ l ∈ t, e ∈ l := by
  induction p generalizing a with
  | nil => simp
  | cons x p ih =>
    intro e he
    rcases List.mem_cons.1 he with rfl | he
    · exact row_mem_table h.1
    · exact ih h.2 e he

theorem pathWeight_unit {t : List (List Edge)} (hu : ∀ l ∈ t, ∀ e ∈ l, e.weight = 1)
    {p : List Edge} (hp : ∀ e ∈ p, ∃ l ∈ t, e ∈ l) : pathWeight p = p.length := by
  induction p with
  | nil => rfl
  | cons x p ih =>
    obtain ⟨l, hl, hx⟩ := hp x (List.mem_cons_self _ _)
    rw [pathWeight_eq, pathCost_cons, ← pathWeight_eq,
      ih (fun e he => hp e (List.mem_cons_of_mem _ he)), hu l hl x hx]
    simp
    omega

/-- With all weights 1 on a well-formed graph no chain weight reaches `INT_MAX`. -/
theorem bounded_of_unit {g : Digraph} (hg : WellFormed g)
    (hu : ∀ l ∈ g.table, ∀ e ∈ l, e.weight = 1) : Bounded g.table (INT_MAX - 1) := by
  intro c hst hnd
  have hlen : ((c.map (fun e => e.to_)).length : Int) ≤ g.size := by
    apply length_le_of_nodup_range1 hg.1 hnd
    intro x hx
    obtain ⟨e, he, rfl⟩ := List.mem_map.1 hx
    obtain ⟨l, hl, hel⟩ := hst e he
    exact hg.mem_table hl hel
  have h2 := hg.2.1
  rw [pathWeight_unit hu hst]
  simp at hlen
  omega

theorem set_getD_self {α : Type} (t : List α) (k : Nat) (d : α) (hk : k < t.length) :
    t.set k (t.getD k d) = t := by
  apply List.ext_getElem (by simp)
  intro i h1 h2
  rw [List.getElem_set]
  split
  next h => subst h; exact List.getD_eq_getElem _ _ hk
  next h => rfl

theorem map_range_getD {α β : Type} (l : List α) (d : α) (f : α → β) :
    (List.range l.length).map (fun k => f (l.getD k d)) = l.map f := by
  apply List.ext_getElem (by simp)
  intro i h1 h2
  have hi : i < l.length := by simpa using h2
  simp [List.getElem?_eq_getElem hi]

/-- The adjacency lists of the vertices `1..n` have as many entries as the whole table when
slot 0 is empty. -/
theorem sum_rows (t : List (List Edge)) (n : Int) (hlen : t.length = (n + 1).toNat)
    (hn : 0 ≤ n) (hhead : t.head? = some []) :
    ((vertexIds n).map (fun v => (row t v).length)).sum = (t.map List.length).sum := by
  cases t with
  | nil => simp at hhead
  | cons a rest =>
    simp at hhead
    subst hhead
    have hr : rest.length = n.toNat := by
      simp at hlen
      omega
    unfold vertexIds
    rw [← hr, List.map_map]
    have : ((fun v => (row ([] :: rest) v).length) ∘ fun (k : Nat) => (k : Int) + 1)
        = fun k => (rest.getD k []).length := by
      funext k
      have : ((k : Int) + 1).toNat = k + 1 := by omega
      simp [row, this]
    rw [this, map_range_getD rest [] List.length]
    simp

/-! ## The number of runs of the loop bodies -/

/-- When the loop of `uwsssp` returns, its body has run once for each vertex of
`uwssspLoopOrder`: that many runs are enough for the same result. -/
theorem uwssspLoop_order_fuel {t : List (List Edge)} :
    ∀ (fuel : Nat) (r : Run) (Q : List Int) (r1 : Run), uwssspLoop t fuel r Q = .ok r1 →
      uwssspLoop t (uwssspLoopOrder t fuel r Q).length r Q = .ok r1 := by
  intro fuel
  induction fuel with
  | zero =>
    intro r Q r1 h
    cases Q with
    | nil => rw [uwssspLoop_nil] at h ⊢; exact h
    | cons v Q => simp [uwssspLoop] at h
  | succ fuel ih =>
    intro r Q r1 h
    cases Q with
    | nil => rw [uwssspLoop_nil] at h ⊢; exact h
    | cons v Q => exact ih _ _ _ h

/-- When the loop of `pwsssp` returns, its body has run once for each vertex of
`pwssspLoopOrder`: that many runs are enough for the same result. -/
theorem pwssspLoop_order_fuel {t : List (List Edge)} {n : Int} :
    ∀ (fuel : Nat) (v : Int) (r r1 : Run), pwssspLoop t n fuel v r = .ok r1 →
      pwssspLoop t n (pwssspLoopOrder t n fuel v r).length v r = .ok r1 := by
  intro fuel
  induction fuel with
  | zero => intro v r r1 h; simp [pwssspLoop] at h
  | succ fuel ih =>
    intro v r r1 h
    simp only [pwssspLoop, pwssspLoopOrder] at h ⊢
    split
    next h0 =>
      rw [if_pos h0] at h
      simp only [List.length_singleton, pwssspLoop, h0, if_true]
      exact h
    next h0 =>
      rw [if_neg h0] at h
      simp only [List.length_cons, pwssspLoop, h0, if_false]
      exact ih _ _ _ h

theorem uwsssp_order_fuel {g g1 : Digraph} {s : Int} {fuel : Nat}
    (h : uwsssp fuel g s = .ok g1) : uwsssp (uwssspOrder fuel g s).length g s = .ok g1 := by
  obtain ⟨hs, r1, hloop, rfl⟩ := uwsssp_ok h
  unfold uwsssp uwssspOrder
  rw [if_neg (by simpa using hs), if_neg (by simpa using hs),
    uwssspLoop_order_fuel _ _ _ _ hloop]

theorem pwsssp_order_fuel {g g1 : Digraph} {s : Int} {fuel : Nat}
    (h : pwsssp fuel g s = .ok g1) : pwsssp (pwssspOrder fuel g s).length g s = .ok g1 := by
  obtain ⟨hs, r1, hloop, rfl⟩ := pwsssp_ok h
  unfold pwsssp pwssspOrder
  rw [if_neg (by simpa using hs), if_neg (by simpa using hs),
    pwssspLoop_order_fuel _ _ _ _ hloop]

/-! ## Distances as chain weights reduced to 32 bits -/

theorem wrap32_add_wrap32 (a b : Int) : wrap32 (wrap32 a + b) = wrap32 (a + b) := by
  unfold wrap32
  omega

/-- Relaxing an edge to a vertex that is not done keeps every finite distance equal to the
weight of a predecessor chain reduced to 32 bits. -/
theorem DijWrap.relaxEdge {t : List (List Edge)} {n s : Int} {r : Run} {L P : List Int} {v : Int}
    (hok : TableOK t n) (h : DijInv t n s r L P v) (hw : DijWrap t n s r L) {e : Edge}
    (he : e ∈ row t v) (hu : rdDone r.done e.to_ = false) :
    DijWrap t n s { r with dist := wr r.dist e.to_ (wrap32 (rd r.dist v + e.weight)),
                           path := wr r.path e.to_ v } L := by
  have hur := (hok v e he).2.2
  have huL : e.to_ ∉ L := fun hmem => by
    have := (h.done_iff e.to_).2 hmem
    rw [hu] at this; cases this
  have hd : ∀ x, x ≠ e.to_ →
      rd (wr r.dist e.to_ (wrap32 (rd r.dist v + e.weight))) x = rd r.dist x :=
    fun x hx => rd_wr_of_ne hur.1 (Ne.symm hx)
  have hp : ∀ x, x ≠ e.to_ → rd (wr r.path e.to_ v) x = rd r.path x :=
    fun x hx => rd_wr_of_ne hur.1 (Ne.symm hx)
  have hne : ∀ x ∈ L, x ≠ e.to_ := fun x hx hxe => huL (hxe ▸ hx)
  have hdu : rd (wr r.dist e.to_ (wrap32 (rd r.dist v + e.weight))) e.to_
      = wrap32 (rd r.dist v + e.weight) := rd_wr_same (by rw [h.len_dist]; omega)
  have hpu : rd (wr r.path e.to_ v) e.to_ = v := rd_wr_same (by rw [h.len_path]; omega)
  intro x hx1 hx2 hfin
  by_cases hx : x = e.to_
  · subst hx
    have hvr := h.range v h.cur_mem
    obtain ⟨c, hc, hcL, hcost⟩ := hw v hvr.1 hvr.2 (h.finite v h.cur_mem)
    have hcL2 : ∀ y ∈ c, y.to_ ∈ L := by
      intro y hy
      rcases hcL y hy with h1 | h1
      · exact h1
      · exact h1 ▸ h.cur_mem
    refine ⟨e :: c, ⟨rfl, ?_, ?_⟩, ?_, ?_⟩
    · show e ∈ row t (rd (wr r.path e.to_ v) e.to_)
      rw [hpu]; exact he
    · show IsChain t (wr r.path e.to_ v) s c (rd (wr r.path e.to_ v) e.to_)
      rw [hpu]
      exact hc.congr (fun y hy => hp _ (hne _ (hcL2 y hy)))
    · intro y hy
      rcases List.mem_cons.1 hy with rfl | hy
      · right; rfl
      · left; exact hcL2 y hy
    · have hpw : pathWeight (e :: c) = pathWeight c + e.weight := by
        simp [pathWeight]; omega
      show rd (wr _ _ _) e.to_ = _
      rw [hdu, hcost, wrap32_add_wrap32, hpw]
  · have hfin2 : rd r.dist x ≠ INT_MAX := by
      have := hfin
      change rd (wr _ _ _) x ≠ _ at this
      rwa [hd x hx] at this
    obtain ⟨c, hc, hcL, hcost⟩ := hw x hx1 hx2 hfin2
    refine ⟨c, hc.congr ?_, hcL, ?_⟩
    · intro y hy
      apply hp
      rcases hcL y hy with h1 | h1
      · exact hne _ h1
      · rw [h1]; exact hx
    · show rd (wr _ _ _) x = _
      rw [hd x hx]; exact hcost

/-- The inner loop of `pwsssp` keeps every finite distance equal to the weight of a
predecessor chain reduced to 32 bits. -/
theorem pwssspScan_wrap {t : List (List Edge)} {n s : Int} {L P : List Int} {v : Int}
    (hok : TableOK t n) (es : List Edge) (hes : ∀ e ∈ es, e ∈ row t v) :
    ∀ (r : Run), DijInv t n s r L P v → DijWrap t n s r L →
      DijWrap t n s (pwssspScan v es r) L := by
  induction es with
  | nil => intro r _ hw; simpa [pwssspScan] using hw
  | cons e rest ih =>
    intro r h hw
    have he : e ∈ row t v := hes e (List.mem_cons_self _ _)
    have hrest : ∀ x ∈ rest, x ∈ row t v := fun x hx => hes x (List.mem_cons_of_mem _ hx)
    by_cases hc : rdDone r.done e.to_ = false ∧ rd r.dist e.to_ > wrap32 (rd r.dist v + e.weight)
    · have hscan : pwssspScan v (e :: rest) r = pwssspScan v rest
          { r with dist := wr r.dist e.to_ (wrap32 (rd r.dist v + e.weight)),
                   path := wr r.path e.to_ v } := by
        simp [pwssspScan, hc.1, hc.2]
      rw [hscan]
      exact ih hrest _ (h.relax hok he hc.1 hc.2).1 (hw.relaxEdge hok h he hc.1)
    · have hscan : pwssspScan v (e :: rest) r = pwssspScan v rest r := by
        by_cases hd : rdDone r.done e.to_ = false
        · have : ¬ rd r.dist e.to_ > wrap32 (rd r.dist v + e.weight) := fun h => hc ⟨hd, h⟩
          simp only [pwssspScan]
          simp [this]
        · simp at hd
          simp [pwssspScan, hd]
      rw [hscan]
      exact ih hrest r h hw

/-- When the loop of `pwsssp` returns, every vertex of `1..n` with a finite distance has a
predecessor chain whose weight, reduced to 32 bits, is that distance. -/
theorem pwssspLoop_wrap {t : List (List Edge)} {n s : Int} (hok : TableOK t n) :
    ∀ (fuel : Nat) (P : List Int) (v : Int) (r r1 : Run),
      DijInv t n s r (P ++ [v]) P v → DijWrap t n s r (P ++ [v]) →
      pwssspLoop t n fuel v r = .ok r1 →
      ∀ x, 1 ≤ x → x ≤ n → rd r1.dist x ≠ INT_MAX →
        ∃ c, IsChain t r1.path s c x ∧ rd r1.dist x = wrap32 (pathWeight c) := by
  intro fuel
  induction fuel with
  | zero => intro P v r r1 _ _ h; simp [pwssspLoop] at h
  | succ fuel ih =>
    intro P v r r1 h hw hloop
    have hw1 := pwssspScan_wrap hok (row t v) (fun e he => he) r h hw
    simp only [pwssspLoop] at hloop
    rcases h.advance hok with h0 | ⟨h0, hsel⟩
    · rw [if_pos h0] at hloop
      injection hloop with hloop
      subst hloop
      intro x hx1 hx2 hfin
      obtain ⟨c, hc, _, hcost⟩ := hw1 x hx1 hx2 hfin
      exact ⟨c, hc, hcost⟩
    · rw [if_neg h0] at hloop
      refine ih (P ++ [v]) _ _ r1 hsel ?_ hloop
      intro x hx1 hx2 hfin
      obtain ⟨c, hc, hcL, hcost⟩ := hw1 x hx1 hx2 hfin
      refine ⟨c, hc, ?_, hcost⟩
      intro y hy
      rcases hcL y hy with h1 | h1
      · left; exact List.mem_append_left _ h1
      · right; exact h1

/-- The state `pwsssp` starts its loop in has the source as its only vertex with a finite
distance, with the empty chain. -/
theorem dij_init_wrap {t : List (List Edge)} {n s : Int} {dlen plen olen : Nat}
    (hs : 1 ≤ s ∧ s ≤ n) (hd : dlen = (n + 1).toNat) :
    DijWrap t n s { dist := wr (List.replicate dlen INT_MAX) s 0,
                    path := List.replicate plen 0,
                    done := wr (List.replicate olen false) s true } ([] ++ [s]) := by
  intro x hx1 hx2 hfin
  have hds : rd (wr (List.replicate dlen INT_MAX) s 0) s = 0 :=
    rd_wr_same (by simp [hd]; omega)
  have hx : x = s := by
    by_contra hx
    apply hfin
    show rd (wr _ _ _) x = _
    rw [rd_wr_of_ne hs.1 (Ne.symm hx)]
    exact rd_replicate (by omega)
  subst hx
  exact ⟨[], rfl, by simp, hds.trans (by decide)⟩

/-- On a well-formed graph, whatever the weights, after `pwsssp` every vertex of `1..n` with
a finite distance has a predecessor chain whose weight, reduced to 32 bits, is that
distance. -/
theorem pwsssp_wrap {g g1 : Digraph} (hg : WellFormed g) {s : Int} {fuel : Nat}
    (h : pwsssp fuel g s = .ok g1) :
    ∀ x, 1 ≤ x → x ≤ g.size → rd g1.dist x ≠ INT_MAX →
      ∃ c, IsChain g.table g1.path s c x ∧ rd g1.dist x = wrap32 (pathWeight c) := by
  obtain ⟨hs, r1, hloop, rfl⟩ := pwsssp_ok h
  obtain ⟨_, _, _, hd, hp, ho, _⟩ := id hg
  exact pwssspLoop_wrap hg.tableOK fuel [] s _ r1 (dij_init (t := g.table) hs hd hp ho)
    (dij_init_wrap hs hd) hloop

/-- Two entries of an adjacency list without parallel edges that have the same target are
the same entry. -/
theorem NoParallel.eq_of_to {l : List Edge} (h : NoParallel l) {a b : Edge} (ha : a ∈ l)
    (hb : b ∈ l) (hab : a.to_ = b.to_) : a = b := by
  by_contra hne
  exact List.Pairwise.forall (fun x y hxy => Ne.symm hxy) h ha hb hne hab

/-- On a well-formed graph a vertex has at most one predecessor chain. -/
theorem IsChain.unique {g : Digraph} (hg : WellFormed g) {path : List Int} {s : Int}
    (hs : rd path s = 0) {c : List Edge} :
    ∀ {v : Int} {c2 : List Edge}, IsChain g.table path s c v → IsChain g.table path s c2 v →
      c2 = c := by
  have hrow0 : ∀ e : Edge, e ∉ row g.table 0 := by
    intro e he
    have := (hg.row_mem he).2.1
    omega
  induction c with
  | nil =>
    intro v c2 h1 h2
    simp only [IsChain] at h1
    subst h1
    cases c2 with
    | nil => rfl
    | cons e es =>
      obtain ⟨_, h3, _⟩ := h2
      rw [hs] at h3
      exact absurd h3 (hrow0 e)
  | cons e es ih =>
    intro v c2 h1 h2
    obtain ⟨a1, a2, a3⟩ := h1
    cases c2 with
    | nil =>
      simp only [IsChain] at h2
      subst h2
      rw [hs] at a2
      exact absurd a2 (hrow0 e)
    | cons e2 es2 =>
      obtain ⟨b1, b2, b3⟩ := h2
      have he : e2 = e := (hg.noParallel _).eq_of_to b2 a2 (b1.trans a1.symm)
      rw [he, ih a3 b3]

/-! ## Earlier run state -/

/-- Whenever a run returns on one of two states with the same adjacency lists, vertex count,
edge count and vector lengths, it returns on the other with the same run-state vectors. -/
theorem run_state_transfer (g g2 : Digraph) (s : Int) (fuel : Nat)
    (ht : g2.table = g.table) (hn : g2.size = g.size) (he : g2.n_edges = g.n_edges)
    (hd : g2.dist.length = g.dist.length) (hp : g2.path.length = g.path.length)
    (ho : g2.done.length = g.done.length) :
    (∀ g1, uwsssp fuel g s = .ok g1 →
      g1.table = g.table ∧ g1.size = g.size ∧ g1.n_edges = g.n_edges ∧
      ∃ g3, uwsssp fuel g2 s = .ok g3 ∧ g3.dist = g1.dist ∧ g3.path = g1.path ∧
        g3.table = g1.table ∧ g3.size = g1.size ∧ g3.n_edges = g1.n_edges) ∧
    (∀ g1, pwsssp fuel g s = .ok g1 →
      g1.table = g.table ∧ g1.size = g.size ∧ g1.n_edges = g.n_edges ∧
      ∃ g3, pwsssp fuel g2 s = .ok g3 ∧ g3.dist = g1.dist ∧ g3.path = g1.path ∧
        g3.done = g1.done ∧ g3.table = g1.table ∧ g3.size = g1.size ∧
        g3.n_edges = g1.n_edges) := by
  constructor
  · intro g1 h
    obtain ⟨hs, r1, hloop, rfl⟩ := uwsssp_ok h
    refine ⟨rfl, rfl, rfl, { g2 with dist := r1.dist, path := r1.path }, ?_, rfl, rfl,
      ht, hn, he⟩
    have hloop2 := uwssspLoop_done g.table g2.done fuel
      { dist := wr (List.replicate g.dist.length INT_MAX) s 0,
        path := List.replicate g.path.length 0, done := g.done } [s]
    rw [hloop] at hloop2
    unfold uwsssp
    rw [hn, if_neg (by simpa using hs), ht, hd, hp]
    simp only at hloop2
    rw [hloop2]
  · intro g1 h
    obtain ⟨hs, r1, hloop, rfl⟩ := pwsssp_ok h
    refine ⟨rfl, rfl, rfl, { g2 with dist := r1.dist, path := r1.path, done := r1.done }, ?_,
      rfl, rfl, rfl, ht, hn, he⟩
    unfold pwsssp
    rw [hn, if_neg (by simpa using hs), ht, hd, hp, ho, hloop]

/-! ## Claims on the shortest-path runs -/

/-- C1: on a well-formed graph with non-negative weights whose total is below `INT_MAX`,
`pwsssp s` for a source in 1..n returns (with fuel n or more), leaves the adjacency lists
as they are and `dist[s] = 0`, and for every vertex `v` that a directed path leads to from
`s`, `dist[v]` is the weight of such a path and at most the weight of every such path. -/
theorem pwsssp_shortest (g : Digraph) (s : Int) (fuel : Nat) (hg : WellFormed g)
    (hw : NonNeg g.table) (ht : totalWeight g.table < INT_MAX)
    (hs : 1 ≤ s ∧ s ≤ g.size) (hf : g.size ≤ fuel) :
    ∃ g1, pwsssp fuel g s = .ok g1 ∧ g1.table = g.table ∧ rd g1.dist s = 0 ∧
      ∀ v, (∃ p, IsPath g.table s p v) →
        (∃ p, IsPath g.table s p v ∧ pathWeight p = rd g1.dist v) ∧
        (∀ p, IsPath g.table s p v → rd g1.dist v ≤ pathWeight p) := by
  obtain ⟨g1, L, hrun, htab, _, _, _, _, hfin⟩ := pwsssp_final hg hs hf
  have hF := hfin hw (bounded_of_total hw (by omega))
  refine ⟨g1, hrun, htab, hF.shape.src_dist, ?_⟩
  intro v hv
  exact (hF.dist_min hv).2

theorem pwsssp_shortest_witness :
    ∃ g1, pwsssp 3 exampleGraph 1 = .ok g1 ∧ g1.table = exampleGraph.table ∧
      rd g1.dist 1 = 0 ∧
      ∀ v, (∃ p, IsPath exampleGraph.table 1 p v) →
        (∃ p, IsPath exampleGraph.table 1 p v ∧ pathWeight p = rd g1.dist v) ∧
        (∀ p, IsPath exampleGraph.table 1 p v → rd g1.dist v ≤ pathWeight p) :=
  pwsssp_shortest exampleGraph 1 3 (by decide) (by decide) (by decide) (by decide)
    (by decide)

/-- C2: on a well-formed graph, `uwsssp s` for a source in 1..n returns (with fuel n or
more), leaves the adjacency lists as they are and `dist[s] = 0`, and for every vertex `v`
that a directed path leads to from `s`, `dist[v]` is the number of edges of such a path and
at most the number of edges of every such path. -/
theorem uwsssp_shortest (g : Digraph) (s : Int) (fuel : Nat) (hg : WellFormed g)
    (hs : 1 ≤ s ∧ s ≤ g.size) (hf : g.size ≤ fuel) :
    ∃ g1, uwsssp fuel g s = .ok g1 ∧ g1.table = g.table ∧ rd g1.dist s = 0 ∧
      ∀ v, (∃ p, IsPath g.table s p v) →
        (∃ p, IsPath g.table s p v ∧ (p.length : Int) = rd g1.dist v) ∧
        (∀ p, IsPath g.table s p v → rd g1.dist v ≤ (p.length : Int)) := by
  obtain ⟨g1, L, hrun, htab, _, _, _, hF⟩ := uwsssp_final hg hs hf
  refine ⟨g1, hrun, htab, hF.shape.src_dist, ?_⟩
  intro v hv
  obtain ⟨_, ⟨p, hp, hcost⟩, hmin⟩ := hF.dist_min hv
  refine ⟨⟨p, hp, by rw [← hcost, pathCost_one]⟩, ?_⟩
  intro q hq
  have := hmin q hq
  rwa [pathCost_one] at this

theorem uwsssp_shortest_witness :
    ∃ g1, uwsssp 3 exampleGraph 1 = .ok g1 ∧ g1.table = exampleGraph.table ∧
      rd g1.dist 1 = 0 ∧
      ∀ v, (∃ p, IsPath exampleGraph.table 1 p v) →
        (∃ p, IsPath exampleGraph.table 1 p v ∧ (p.length : Int) = rd g1.dist v) ∧
        (∀ p, IsPath exampleGraph.table 1 p v → rd g1.dist v ≤ (p.length : Int)) :=
  uwsssp_shortest exampleGraph 1 3 (by decide) (by decide) (by decide)

/-- C3, as amended: on a well-formed graph and for a source in 1..n, both runs return and
leave `path[s] = 0`, and every vertex `v` of 1..n with a finite `dist[v]` has exactly one
predecessor chain: from `v`, each step goes to `path` of the current vertex along an edge
stored in the adjacency list of that predecessor, and the chain ends at `s`. After `uwsssp`
the chain has exactly `dist[v]` steps. After `pwsssp`, `dist[v]` is the sum of the weights of
the chain's edges reduced to 32 bits, so the weights sum to exactly `dist[v]` whenever their
sum lies in the range of `int`. -/
theorem pred_chain (g : Digraph) (s : Int) (fuel : Nat) (hg : WellFormed g)
    (hs : 1 ≤ s ∧ s ≤ g.size) (hf : g.size ≤ fuel) :
    (∃ g1, uwsssp fuel g s = .ok g1 ∧ rd g1.path s = 0 ∧
      ∀ v, 1 ≤ v → v ≤ g.size → rd g1.dist v ≠ INT_MAX →
        ∃ c, IsChain g.table g1.path s c v ∧
          (∀ c2, IsChain g.table g1.path s c2 v → c2 = c) ∧
          (c.length : Int) = rd g1.dist v) ∧
    (∃ g1, pwsssp fuel g s = .ok g1 ∧ rd g1.path s = 0 ∧
      ∀ v, 1 ≤ v → v ≤ g.size → rd g1.dist v ≠ INT_MAX →
        ∃ c, IsChain g.table g1.path s c v ∧
          (∀ c2, IsChain g.table g1.path s c2 v → c2 = c) ∧
          rd g1.dist v = wrap32 (pathWeight c) ∧
          (-2147483648 ≤ pathWeight c → pathWeight c ≤ INT_MAX →
            pathWeight c = rd g1.dist v)) := by
  constructor
  · obtain ⟨g1, L, hrun, _, _, _, _, hF⟩ := uwsssp_final hg hs hf
    refine ⟨g1, hrun, hF.shape.src_path, ?_⟩
    intro v h1 h2 hfin
    obtain ⟨c, hc, _, _, hcost⟩ := hF.shape.chain v (hF.shape.mem_of_finite h1 h2 hfin)
    refine ⟨c, hc, fun c2 hc2 => IsChain.unique hg hF.shape.src_path hc hc2, ?_⟩
    rw [← hcost trivial, pathCost_one]
  · obtain ⟨g1, L, hrun, _, _, _, hS, _, _⟩ := pwsssp_final hg hs hf
    refine ⟨g1, hrun, hS.src_path, ?_⟩
    intro v h1 h2 hfin
    obtain ⟨c, hc, hcost⟩ := pwsssp_wrap hg hrun v h1 h2 hfin
    refine ⟨c, hc, fun c2 hc2 => IsChain.unique hg hS.src_path hc hc2, hcost, ?_⟩
    intro hlo hhi
    rw [hcost]
    exact (wrap32_eq hlo hhi).symm

theorem pred_chain_witness :
    (∃ g1, uwsssp 3 exampleGraph 1 = .ok g1 ∧ rd g1.path 1 = 0 ∧
      ∀ v, 1 ≤ v → v ≤ exampleGraph.size → rd g1.dist v ≠ INT_MAX →
        ∃ c, IsChain exampleGraph.table g1.path 1 c v ∧
          (∀ c2, IsChain exampleGraph.table g1.path 1 c2 v → c2 = c) ∧
          (c.length : Int) = rd g1.dist v) ∧
    (∃ g1, pwsssp 3 exampleGraph 1 = .ok g1 ∧ rd g1.path 1 = 0 ∧
      ∀ v, 1 ≤ v → v ≤ exampleGraph.size → rd g1.dist v ≠ INT_MAX →
        ∃ c, IsChain exampleGraph.table g1.path 1 c v ∧
          (∀ c2, IsChain exampleGraph.table g1.path 1 c2 v → c2 = c) ∧
          rd g1.dist v = wrap32 (pathWeight c) ∧
          (-2147483648 ≤ pathWeight c → pathWeight c ≤ INT_MAX →
            pathWeight c = rd g1.dist v)) :=
  pred_chain exampleGraph 1 3 (by decide) (by decide) (by decide)

/-- C3 fails as stated: on the well-formed graph with the edges 1→2 of weight 2147483646 and
2→3 of weight 2, `pwsssp 1` leaves `dist[3] = -2147483648`, which is finite, while the only
predecessor chain of 3 weighs 2147483648. -/
theorem pred_chain_overflow :
    WellFormed overflowGraph ∧
    pwsssp 3 overflowGraph 1 = .ok { overflowGraph with
      dist := [2147483647, 0, 2147483646, -2147483648], path := [0, 0, 1, 2],
      done := [false, true, true, true] } ∧
    rd [2147483647, 0, 2147483646, -2147483648] 3 ≠ INT_MAX ∧
    ¬ ∃ c, IsChain overflowGraph.table [0, 0, 1, 2] 1 c 3 ∧
        pathWeight c = rd [2147483647, 0, 2147483646, -2147483648] 3 := by
  refine ⟨by decide, rfl, by decide, ?_⟩
  rintro ⟨c, hc, hw⟩
  match c, hc, hw with
  | [], hc, _ => simp [IsChain] at hc
  | [e1], hc, _ =>
    obtain ⟨_, _, h3⟩ := hc
    revert h3
    simp [IsChain, rd]
  | [e1, e2], hc, hw =>
    obtain ⟨_, h2, _, h4, _⟩ := hc
    have r1 : rd [0, 0, 1, 2] 3 = 2 := rfl
    have r2 : rd [0, 0, 1, 2] 2 = 1 := rfl
    rw [r1] at h2 h4
    rw [r2] at h4
    have e1v : e1 = ⟨2, 3, 2⟩ := by simpa [overflowGraph, row] using h2
    have e2v : e2 = ⟨1, 2, 2147483646⟩ := by simpa [overflowGraph, row] using h4
    subst e1v e2v
    revert hw
    decide
  | e1 :: e2 :: e3 :: c3, hc, _ =>
    obtain ⟨_, _, _, _, _, h6, _⟩ := hc
    have r1 : rd [0, 0, 1, 2] (rd [0, 0, 1, 2] (rd [0, 0, 1, 2] 3)) = 0 := rfl
    rw [r1] at h6
    simp [overflowGraph, row] at h6

/-- C4: on a well-formed graph and for a source in 1..n, both runs return, and every vertex
`v` of 1..n that no directed path leads to from `s` has `dist[v] = INT_MAX` and
`path[v] = 0`, and `printPath v` writes the "No path" line whatever recursion depth it is
allowed, so without writing any vertex sequence. -/
theorem unreachable_no_path (g : Digraph) (s : Int) (fuel : Nat) (hg : WellFormed g)
    (hs : 1 ≤ s ∧ s ≤ g.size) (hf : g.size ≤ fuel) :
    (∃ g1, uwsssp fuel g s = .ok g1 ∧
      ∀ v, 1 ≤ v → v ≤ g.size → (¬ ∃ p, IsPath g.table s p v) →
        rd g1.dist v = INT_MAX ∧ rd g1.path v = 0 ∧
        ∀ depth, printPath depth g1 v = .ok (.noPath v)) ∧
    (∃ g1, pwsssp fuel g s = .ok g1 ∧
      ∀ v, 1 ≤ v → v ≤ g.size → (¬ ∃ p, IsPath g.table s p v) →
        rd g1.dist v = INT_MAX ∧ rd g1.path v = 0 ∧
        ∀ depth, printPath depth g1 v = .ok (.noPath v)) := by
  constructor
  · obtain ⟨g1, L, hrun, _, hsize, _, _, hF⟩ := uwsssp_final hg hs hf
    refine ⟨g1, hrun, ?_⟩
    intro v h1 h2 hno
    obtain ⟨hd, hp⟩ := hF.shape.unreachable h1 h2 hno
    refine ⟨hd, hp, fun depth => ?_⟩
    simp [printPath, hsize, h1, h2, hd]
  · obtain ⟨g1, L, hrun, _, hsize, _, hS, _, _⟩ := pwsssp_final hg hs hf
    refine ⟨g1, hrun, ?_⟩
    intro v h1 h2 hno
    obtain ⟨hd, hp⟩ := hS.unreachable h1 h2 hno
    refine ⟨hd, hp, fun depth => ?_⟩
    simp [printPath, hsize, h1, h2, hd]

theorem unreachable_no_path_witness :
    (∃ g1, uwsssp 3 exampleGraph 2 = .ok g1 ∧
      ∀ v, 1 ≤ v → v ≤ exampleGraph.size → (¬ ∃ p, IsPath exampleGraph.table 2 p v) →
        rd g1.dist v = INT_MAX ∧ rd g1.path v = 0 ∧
        ∀ depth, printPath depth g1 v = .ok (.noPath v)) ∧
    (∃ g1, pwsssp 3 exampleGraph 2 = .ok g1 ∧
      ∀ v, 1 ≤ v → v ≤ exampleGraph.size → (¬ ∃ p, IsPath exampleGraph.table 2 p v) →
        rd g1.dist v = INT_MAX ∧ rd g1.path v = 0 ∧
        ∀ depth, printPath depth g1 v = .ok (.noPath v)) :=
  unreachable_no_path exampleGraph 2 3 (by decide) (by decide) (by decide)

/-- C5: on a well-formed graph and for a source in 1..n, both runs return, and for every
target `t` of 1..n with a finite `dist[t]`, `printPath t` writes the "Shortest path" line
with the total `dist[t]` and a vertex sequence that starts with `s`, ends with `t`, has
every later element preceded by its `path` value and has at most n elements; a recursion
depth equal to the number of elements is enough for `printPathHelper`. -/
theorem printPath_sequence (g : Digraph) (s : Int) (fuel : Nat) (hg : WellFormed g)
    (hs : 1 ≤ s ∧ s ≤ g.size) (hf : g.size ≤ fuel) :
    (∃ g1, uwsssp fuel g s = .ok g1 ∧
      ∀ t, 1 ≤ t → t ≤ g.size → rd g1.dist t ≠ INT_MAX →
        ∃ out, (∀ depth, out.length ≤ depth →
            printPath depth g1 t = .ok (.shortest out (rd g1.dist t))) ∧
          (out.length : Int) ≤ g.size ∧ out.head? = some s ∧ out.getLast? = some t ∧
          out.Chain' (fun a b => rd g1.path b = a)) ∧
    (∃ g1, pwsssp fuel g s = .ok g1 ∧
      ∀ t, 1 ≤ t → t ≤ g.size → rd g1.dist t ≠ INT_MAX →
        ∃ out, (∀ depth, out.length ≤ depth →
            printPath depth g1 t = .ok (.shortest out (rd g1.dist t))) ∧
          (out.length : Int) ≤ g.size ∧ out.head? = some s ∧ out.getLast? = some t ∧
          out.Chain' (fun a b => rd g1.path b = a)) := by
  constructor
  · obtain ⟨g1, L, hrun, htab, hsize, _, _, hF⟩ := uwsssp_final hg hs hf
    refine ⟨g1, hrun, ?_⟩
    intro t h1 h2 hfin
    obtain ⟨out, hout, hrest⟩ :=
      hF.shape.print hg.tableOK (hF.shape.mem_of_finite h1 h2 hfin)
    refine ⟨out, ?_, hrest⟩
    intro depth hdepth
    simp [printPath, hsize, h1, h2, hfin, hout depth hdepth]
  · obtain ⟨g1, L, hrun, htab, hsize, _, hS, _, _⟩ := pwsssp_final hg hs hf
    refine ⟨g1, hrun, ?_⟩
    intro t h1 h2 hfin
    obtain ⟨out, hout, hrest⟩ := hS.print hg.tableOK (hS.mem_of_finite h1 h2 hfin)
    refine ⟨out, ?_, hrest⟩
    intro depth hdepth
    simp [printPath, hsize, h1, h2, hfin, hout depth hdepth]

theorem printPath_sequence_witness :
    (∃ g1, uwsssp 3 exampleGraph 1 = .ok g1 ∧
      ∀ t, 1 ≤ t → t ≤ exampleGraph.size → rd g1.dist t ≠ INT_MAX →
        ∃ out, (∀ depth, out.length ≤ depth →
            printPath depth g1 t = .ok (.shortest out (rd g1.dist t))) ∧
          (out.length : Int) ≤ exampleGraph.size ∧ out.head? = some 1 ∧
          out.getLast? = some t ∧ out.Chain' (fun a b => rd g1.path b = a)) ∧
    (∃ g1, pwsssp 3 exampleGraph 1 = .ok g1 ∧
      ∀ t, 1 ≤ t → t ≤ exampleGraph.size → rd g1.dist t ≠ INT_MAX →
        ∃ out, (∀ depth, out.length ≤ depth →
            printPath depth g1 t = .ok (.shortest out (rd g1.dist t))) ∧
          (out.length : Int) ≤ exampleGraph.size ∧ out.head? = some 1 ∧
          out.getLast? = some t ∧ out.Chain' (fun a b => rd g1.path b = a)) :=
  printPath_sequence exampleGraph 1 3 (by decide) (by decide) (by decide)

/-! ## Claims on edge insertion and removal -/

/-- C6: on a well-formed graph without an edge linking (from, to), inserting (from, to, w1)
and then (from, to, w2) succeeds twice, leaves exactly one edge to `to` in the adjacency list
of `from`, with weight w2, and the edge count one above the original. (The two weights need
not differ.) -/
theorem insertEdge_twice (g : Digraph) (a b w1 w2 : Int) (hg : WellFormed g)
    (ha : 1 ≤ a ∧ a ≤ g.size) (hb : 1 ≤ b ∧ b ≤ g.size)
    (hno : ¬ ∃ ed ∈ row g.table a, ed.to_ = b) :
    ∃ g1 g2, insertEdge g ⟨a, b, w1⟩ = .ok g1 ∧ insertEdge g1 ⟨a, b, w2⟩ = .ok g2 ∧
      (row g2.table a).filter (fun ed => decide (ed.to_ = b)) = [⟨a, b, w2⟩] ∧
      row g2.table a = row g.table a ++ [⟨a, b, w2⟩] ∧
      g2.n_edges = g.n_edges + 1 := by
  have hk : a.toNat < g.table.length := by
    have := hg.2.2.1
    omega
  have h1 := insertEdge_new (e := ⟨a, b, w1⟩) hg ha hb hno
  have hg1 := insertEdge_wf hg h1
  have hrow1 : row (wr g.table a (row g.table a ++ [(⟨a, b, w1⟩ : Edge)])) a
      = row g.table a ++ [⟨a, b, w1⟩] := row_wr_same hk
  have hyes : ∃ ed ∈ row (wr g.table a (row g.table a ++ [(⟨a, b, w1⟩ : Edge)])) a,
      ed.to_ = b := ⟨⟨a, b, w1⟩, by simp [hrow1], rfl⟩
  have h2 := insertEdge_old (e := ⟨a, b, w2⟩) hg1 ha hb hyes
  have hold : ∀ y ∈ row g.table a, y.to_ ≠ b := fun y hy hyb => hno ⟨y, hy, hyb⟩
  have hmap : (row g.table a ++ [(⟨a, b, w1⟩ : Edge)]).map
      (fun ed => if ed.to_ = b then { ed with weight := w2 } else ed)
      = row g.table a ++ [⟨a, b, w2⟩] :=
    @map_split b (fun ed => { ed with weight := w2 }) (row g.table a) [] ⟨a, b, w1⟩ rfl hold
      (by simp)
  have hfin : row (wr (wr g.table a (row g.table a ++ [(⟨a, b, w1⟩ : Edge)])) a
      (row g.table a ++ [(⟨a, b, w2⟩ : Edge)])) a = row g.table a ++ [⟨a, b, w2⟩] :=
    row_wr_same (by rw [length_wr]; exact hk)
  refine ⟨_, _, h1, h2, ?_, ?_, rfl⟩
  · simp only [hrow1, hmap, hfin]
    rw [List.filter_append, List.filter_eq_nil_iff.2 (fun y hy => by simpa using hold y hy)]
    simp
  · simp only [hrow1, hmap, hfin]

theorem insertEdge_twice_witness :
    ∃ g1 g2, insertEdge exampleGraph ⟨3, 1, 4⟩ = .ok g1 ∧ insertEdge g1 ⟨3, 1, 9⟩ = .ok g2 ∧
      (row g2.table 3).filter (fun ed => decide (ed.to_ = 1)) = [⟨3, 1, 9⟩] ∧
      row g2.table 3 = row exampleGraph.table 3 ++ [⟨3, 1, 9⟩] ∧
      g2.n_edges = exampleGraph.n_edges + 1 :=
  insertEdge_twice exampleGraph 3 1 4 9 (by decide) (by decide) (by decide) (by decide)

/-- C7: on a well-formed graph, `insertEdge e` with both endpoints in 1..n succeeds and
keeps the vertex count and every other adjacency list; if the list of `e.from` has an edge
to `e.to`, that list is the old one with the weight of that entry replaced by `e.weight`
and the edge count is unchanged; otherwise the list is the old one with `e` appended and the
edge count grows by 1. -/
theorem insertEdge_behaviour (g : Digraph) (e : Edge) (hg : WellFormed g)
    (hf : 1 ≤ e.from_ ∧ e.from_ ≤ g.size) (ht : 1 ≤ e.to_ ∧ e.to_ ≤ g.size) :
    ∃ g1, insertEdge g e = .ok g1 ∧ g1.size = g.size ∧
      (∀ v, v ≠ e.from_ → row g1.table v = row g.table v) ∧
      ((∃ ed ∈ row g.table e.from_, ed.to_ = e.to_) →
        row g1.table e.from_ = (row g.table e.from_).map
          (fun ed => if ed.to_ = e.to_ then { ed with weight := e.weight } else ed) ∧
        (row g1.table e.from_).length = (row g.table e.from_).length ∧
        g1.n_edges = g.n_edges) ∧
      ((¬ ∃ ed ∈ row g.table e.from_, ed.to_ = e.to_) →
        row g1.table e.from_ = row g.table e.from_ ++ [e] ∧
        g1.n_edges = g.n_edges + 1) := by
  have hk : e.from_.toNat < g.table.length := by
    have := hg.2.2.1
    omega
  have hne : ∀ v : Int, v ≠ e.from_ → e.from_.toNat ≠ v.toNat := by
    intro v hv; omega
  by_cases hyes : ∃ ed ∈ row g.table e.from_, ed.to_ = e.to_
  · refine ⟨_, insertEdge_old hg hf ht hyes, rfl, ?_, ?_, ?_⟩
    · intro v hv; exact row_wr_ne (hne v hv)
    · intro _
      refine ⟨row_wr_same hk, ?_, rfl⟩
      show (row (wr _ _ _) _).length = _
      rw [row_wr_same hk, List.length_map]
    · intro h; exact absurd hyes h
  · refine ⟨_, insertEdge_new hg hf ht hyes, rfl, ?_, ?_, ?_⟩
    · intro v hv; exact row_wr_ne (hne v hv)
    · intro h; exact absurd h hyes
    · intro _; exact ⟨row_wr_same hk, rfl⟩

theorem insertEdge_behaviour_witness :
    ∃ g1, insertEdge exampleGraph ⟨1, 3, 7⟩ = .ok g1 ∧ g1.size = exampleGraph.size ∧
      (∀ v, v ≠ (⟨1, 3, 7⟩ : Edge).from_ → row g1.table v = row exampleGraph.table v) ∧
      ((∃ ed ∈ row exampleGraph.table (⟨1, 3, 7⟩ : Edge).from_, ed.to_ = (⟨1, 3, 7⟩ : Edge).to_) →
        row g1.table (⟨1, 3, 7⟩ : Edge).from_ = (row exampleGraph.table (⟨1, 3, 7⟩ : Edge).from_).map
          (fun ed => if ed.to_ = (⟨1, 3, 7⟩ : Edge).to_ then
            { ed with weight := (⟨1, 3, 7⟩ : Edge).weight } else ed) ∧
        (row g1.table (⟨1, 3, 7⟩ : Edge).from_).length
          = (row exampleGraph.table (⟨1, 3, 7⟩ : Edge).from_).length ∧
        g1.n_edges = exampleGraph.n_edges) ∧
      ((¬ ∃ ed ∈ row exampleGraph.table (⟨1, 3, 7⟩ : Edge).from_,
          ed.to_ = (⟨1, 3, 7⟩ : Edge).to_) →
        row g1.table (⟨1, 3, 7⟩ : Edge).from_
          = row exampleGraph.table (⟨1, 3, 7⟩ : Edge).from_ ++ [⟨1, 3, 7⟩] ∧
        g1.n_edges = exampleGraph.n_edges + 1) :=
  insertEdge_behaviour exampleGraph ⟨1, 3, 7⟩ (by decide) (by decide) (by decide)

/-- C8: on a well-formed graph that stores an edge linking (e.from, e.to), whatever the
weights, `removeEdge e` succeeds; the adjacency list of `e.from` becomes the old one without
its entry to `e.to` (the other entries in their order, one entry fewer), the edge count
drops by 1, and every other adjacency list is unchanged. -/
theorem removeEdge_behaviour (g : Digraph) (e : Edge) (hg : WellFormed g)
    (hf : 1 ≤ e.from_ ∧ e.from_ ≤ g.size) (ht : 1 ≤ e.to_ ∧ e.to_ ≤ g.size)
    (hyes : ∃ ed ∈ row g.table e.from_, ed.to_ = e.to_) :
    ∃ g1, removeEdge g e = .ok g1 ∧
      (∀ ed ∈ row g1.table e.from_, ed.to_ ≠ e.to_) ∧
      row g1.table e.from_ = (row g.table e.from_).filter (fun ed => decide (ed.to_ ≠ e.to_)) ∧
      (row g1.table e.from_).length + 1 = (row g.table e.from_).length ∧
      g1.n_edges = g.n_edges - 1 ∧ g1.size = g.size ∧
      (∀ v, v ≠ e.from_ → row g1.table v = row g.table v) := by
  have hk : e.from_.toNat < g.table.length := by
    have := hg.2.2.1
    omega
  obtain ⟨h1, h2⟩ := removeEdge_old hg hf ht hyes
  have hrow : row (wr g.table e.from_
      ((row g.table e.from_).filter (fun ed => decide (ed.to_ ≠ e.to_)))) e.from_
      = (row g.table e.from_).filter (fun ed => decide (ed.to_ ≠ e.to_)) := row_wr_same hk
  refine ⟨_, h1, ?_, hrow, ?_, rfl, rfl, ?_⟩
  · intro ed hed
    simp only [hrow] at hed
    simpa using (List.mem_filter.1 hed).2
  · simp only [hrow]; exact h2
  · intro v hv
    exact row_wr_ne (by omega)

theorem removeEdge_behaviour_witness :
    ∃ g1, removeEdge exampleGraph ⟨1, 2, 99⟩ = .ok g1 ∧
      (∀ ed ∈ row g1.table (⟨1, 2, 99⟩ : Edge).from_, ed.to_ ≠ (⟨1, 2, 99⟩ : Edge).to_) ∧
      row g1.table (⟨1, 2, 99⟩ : Edge).from_
        = (row exampleGraph.table (⟨1, 2, 99⟩ : Edge).from_).filter
            (fun ed => decide (ed.to_ ≠ (⟨1, 2, 99⟩ : Edge).to_)) ∧
      (row g1.table (⟨1, 2, 99⟩ : Edge).from_).length + 1
        = (row exampleGraph.table (⟨1, 2, 99⟩ : Edge).from_).length ∧
      g1.n_edges = exampleGraph.n_edges - 1 ∧ g1.size = exampleGraph.size ∧
      (∀ v, v ≠ (⟨1, 2, 99⟩ : Edge).from_ → row g1.table v = row exampleGraph.table v) :=
  removeEdge_behaviour exampleGraph ⟨1, 2, 99⟩ (by decide) (by decide) (by decide) (by decide)

/-- C9: on a well-formed graph, `removeEdge e` stops at an assertion if and only if `e.from`
or `e.to` lies outside 1..n or the adjacency list of `e.from` has no edge to `e.to`; when it
does, the graph is the one it was called on, and no graph is returned. -/
theorem removeEdge_fails_iff (g : Digraph) (e : Edge) (hg : WellFormed g) :
    ((removeEdgeRun g e).2 = some Fault.assertion ↔
      (¬ (1 ≤ e.from_ ∧ e.from_ ≤ g.size) ∨ ¬ (1 ≤ e.to_ ∧ e.to_ ≤ g.size) ∨
        ¬ ∃ ed ∈ row g.table e.from_, ed.to_ = e.to_)) ∧
    (removeEdge g e = .error Fault.assertion ↔ (removeEdgeRun g e).2 = some Fault.assertion) ∧
    ((removeEdgeRun g e).2 = some Fault.assertion → (removeEdgeRun g e).1 = g) ∧
    ((removeEdgeRun g e).2 ≠ some Fault.assertion → removeEdge g e = .ok (removeEdgeRun g e).1) := by
  by_cases hf : 1 ≤ e.from_ ∧ e.from_ ≤ g.size
  swap
  · simp [removeEdge, removeEdgeRun, hf]
  by_cases ht : 1 ≤ e.to_ ∧ e.to_ ≤ g.size
  swap
  · simp [removeEdge, removeEdgeRun, ht]
  by_cases hyes : ∃ ed ∈ row g.table e.from_, ed.to_ = e.to_
  · cases hfi : find_if (fun ed => e.links_same_nodes ed) (row g.table e.from_) with
    | none => exact absurd hyes ((find_if_row_none hg).1 hfi)
    | some i =>
      simp only [removeEdge, removeEdgeRun, hf, ht, hfi, hyes]
      simp
  · have := (find_if_row_none hg).2 hyes
    simp only [removeEdge, removeEdgeRun, hf, ht, this, hyes]
    simp

theorem removeEdge_fails_iff_witness :
    ((removeEdgeRun exampleGraph ⟨3, 1, 0⟩).2 = some Fault.assertion ↔
      (¬ (1 ≤ (⟨3, 1, 0⟩ : Edge).from_ ∧ (⟨3, 1, 0⟩ : Edge).from_ ≤ exampleGraph.size) ∨
        ¬ (1 ≤ (⟨3, 1, 0⟩ : Edge).to_ ∧ (⟨3, 1, 0⟩ : Edge).to_ ≤ exampleGraph.size) ∨
        ¬ ∃ ed ∈ row exampleGraph.table (⟨3, 1, 0⟩ : Edge).from_,
            ed.to_ = (⟨3, 1, 0⟩ : Edge).to_)) ∧
    (removeEdge exampleGraph ⟨3, 1, 0⟩ = .error Fault.assertion ↔
      (removeEdgeRun exampleGraph ⟨3, 1, 0⟩).2 = some Fault.assertion) ∧
    ((removeEdgeRun exampleGraph ⟨3, 1, 0⟩).2 = some Fault.assertion →
      (removeEdgeRun exampleGraph ⟨3, 1, 0⟩).1 = exampleGraph) ∧
    ((removeEdgeRun exampleGraph ⟨3, 1, 0⟩).2 ≠ some Fault.assertion →
      removeEdge exampleGraph ⟨3, 1, 0⟩ = .ok (removeEdgeRun exampleGraph ⟨3, 1, 0⟩).1) :=
  removeEdge_fails_iff exampleGraph ⟨3, 1, 0⟩ (by decide)

/-- C10: in every graph the constructors, `insertEdge` and `removeEdge` can produce, no
adjacency list holds two edges with the same (from, to) pair, also when the edge list given
to the constructor repeats a pair. -/
theorem built_no_parallel_edges (g : Digraph) (hg : Built g) :
    ∀ l ∈ g.table, l.Pairwise (fun a b => ¬ (a.from_ = b.from_ ∧ a.to_ = b.to_)) := by
  intro l hl
  have := hg.wellFormed.2.2.2.2.2.2.2.2.2 l hl
  exact this.imp (fun h hc => h hc.2)

theorem built_no_parallel_edges_witness :
    Built { table := [[], [⟨1, 2, 5⟩], []], size := 2, n_edges := 1, dist := [0, 0, 0],
            path := [0, 0, 0], done := [false, false, false] } ∧
    ∀ l ∈ [[], [(⟨1, 2, 5⟩ : Edge)], []],
      l.Pairwise (fun a b => ¬ (a.from_ = b.from_ ∧ a.to_ = b.to_)) :=
  ⟨Built.createFrom [⟨1, 2, 1⟩, ⟨1, 2, 5⟩] 2 _ rfl,
   built_no_parallel_edges _ (Built.createFrom [⟨1, 2, 1⟩, ⟨1, 2, 5⟩] 2 _ rfl)⟩

/-! ## Claims on examples, independence, termination and arithmetic -/

/-- C11: `Digraph({(1,2,1),(2,3,1),(1,3,5)}, 3)` builds the example graph; on it, with fuel
3 or more, `pwsssp 1` leaves `dist[1..3] = 0,1,2` and `path[1..3] = 0,1,2`, and `uwsssp 1`
leaves `dist[1..3] = 0,1,1` (slot 0 of `dist` holds `INT_MAX`, slot 0 of `path` holds 0). -/
theorem example_runs (k : Nat) :
    Digraph.createFrom exampleEdges 3 = .ok exampleGraph ∧
    (∃ g1, pwsssp (3 + k) exampleGraph 1 = .ok g1 ∧
      g1.dist = [2147483647, 0, 1, 2] ∧ g1.path = [0, 0, 1, 2]) ∧
    (∃ g1, uwsssp (3 + k) exampleGraph 1 = .ok g1 ∧ g1.dist = [2147483647, 0, 1, 1]) := by
  exact ⟨rfl, ⟨_, @pwsssp_mono exampleGraph _ 1 3 k rfl, rfl, rfl⟩,
    ⟨_, @uwsssp_mono exampleGraph _ 1 3 k rfl, rfl⟩⟩

/-- C12, as amended: on a well-formed graph with n = 4 in which no edge starts or ends at
vertex 4, both runs from a source in 1..4 return and leave `path[4] = 0`; `dist[4]` is
`INT_MAX` when the source is one of 1..3, and 0 when the source is 4 itself. -/
theorem isolated_vertex (g : Digraph) (s : Int) (fuel : Nat) (hg : WellFormed g)
    (h4 : g.size = 4) (hiso : ∀ l ∈ g.table, ∀ e ∈ l, e.from_ ≠ 4 ∧ e.to_ ≠ 4)
    (hs : 1 ≤ s ∧ s ≤ 4) (hf : 4 ≤ fuel) :
    (∃ g1, uwsssp fuel g s = .ok g1 ∧ rd g1.path 4 = 0 ∧
      (s ≠ 4 → rd g1.dist 4 = INT_MAX) ∧ (s = 4 → rd g1.dist 4 = 0)) ∧
    (∃ g1, pwsssp fuel g s = .ok g1 ∧ rd g1.path 4 = 0 ∧
      (s ≠ 4 → rd g1.dist 4 = INT_MAX) ∧ (s = 4 → rd g1.dist 4 = 0)) := by
  have hs2 : 1 ≤ s ∧ s ≤ g.size := by rw [h4]; exact hs
  have hf2 : g.size ≤ (fuel : Int) := by rw [h4]; exact_mod_cast hf
  have hno : ∀ (p : List Edge) (a : Int), a ≠ 4 → ¬ IsPath g.table a p 4 := by
    intro p
    induction p with
    | nil => intro a ha hp; exact ha hp
    | cons e es ih =>
      intro a _ hp
      obtain ⟨l, hl, hel⟩ := row_mem_table hp.1
      exact ih e.to_ (hiso l hl e hel).2 hp.2
  have hun : s ≠ 4 → ¬ ∃ p, IsPath g.table s p 4 := fun hne ⟨p, hp⟩ => hno p s hne hp
  constructor
  · obtain ⟨g1, L, hrun, _, _, _, _, hF⟩ := uwsssp_final hg hs2 hf2
    refine ⟨g1, hrun, ?_, ?_, ?_⟩
    · by_cases h : s = 4
      · rw [← h]; exact hF.shape.src_path
      · exact (hF.shape.unreachable (by omega) (by omega) (hun h)).2
    · intro h; exact (hF.shape.unreachable (by omega) (by omega) (hun h)).1
    · intro h; rw [← h]; exact hF.shape.src_dist
  · obtain ⟨g1, L, hrun, _, _, _, hS, _, _⟩ := pwsssp_final hg hs2 hf2
    refine ⟨g1, hrun, ?_, ?_, ?_⟩
    · by_cases h : s = 4
      · rw [← h]; exact hS.src_path
      · exact (hS.unreachable (by omega) (by omega) (hun h)).2
    · intro h; exact (hS.unreachable (by omega) (by omega) (hun h)).1
    · intro h; rw [← h]; exact hS.src_dist

theorem isolated_vertex_witness :
    (∃ g1, uwsssp 4 isolatedGraph 3 = .ok g1 ∧ rd g1.path 4 = 0 ∧
      ((3 : Int) ≠ 4 → rd g1.dist 4 = INT_MAX) ∧ ((3 : Int) = 4 → rd g1.dist 4 = 0)) ∧
    (∃ g1, pwsssp 4 isolatedGraph 3 = .ok g1 ∧ rd g1.path 4 = 0 ∧
      ((3 : Int) ≠ 4 → rd g1.dist 4 = INT_MAX) ∧ ((3 : Int) = 4 → rd g1.dist 4 = 0)) :=
  isolated_vertex isolatedGraph 3 4 (by decide) (by decide) (by decide) (by decide)
    (by decide)

/-- C12 fails as stated for the source 4: on the well-formed graph with n = 4 and the edges
1→2 and 3→1, where no edge starts or ends at vertex 4, `uwsssp 4` and `pwsssp 4` leave
`dist[4] = 0`, not `INT_MAX`. -/
theorem isolated_vertex_as_source :
    WellFormed isolatedGraph ∧ isolatedGraph.size = 4 ∧
    (∀ l ∈ isolatedGraph.table, ∀ e ∈ l, e.from_ ≠ 4 ∧ e.to_ ≠ 4) ∧
    uwsssp 4 isolatedGraph 4 = .ok { isolatedGraph with
      dist := [2147483647, 2147483647, 2147483647, 2147483647, 0] } ∧
    pwsssp 4 isolatedGraph 4 = .ok { isolatedGraph with
      dist := [2147483647, 2147483647, 2147483647, 2147483647, 0],
      done := [false, false, false, false, true] } ∧
    rd [2147483647, 2147483647, 2147483647, 2147483647, 0] 4 ≠ INT_MAX := by
  refine ⟨by decide, rfl, by decide, rfl, rfl, by decide⟩

/-- C13: for two states of the same well-formed graph (same adjacency lists, vertex count
and edge count, run-state vectors of the same lengths but any contents) and a source in
1..n, `uwsssp s` returns on both (with fuel n or more) with the same `dist` and `path`, and
`pwsssp s` returns on both with the same `dist`, `path` and `done`; the adjacency lists,
the vertex count and the edge count after the calls are those before. -/
theorem run_ignores_old_state (g g2 : Digraph) (s : Int) (fuel : Nat) (hg : WellFormed g)
    (ht : g2.table = g.table) (hn : g2.size = g.size) (he : g2.n_edges = g.n_edges)
    (hd : g2.dist.length = g.dist.length) (hp : g2.path.length = g.path.length)
    (ho : g2.done.length = g.done.length) (hs : 1 ≤ s ∧ s ≤ g.size) (hf : g.size ≤ fuel) :
    (∃ g1 g3, uwsssp fuel g s = .ok g1 ∧ uwsssp fuel g2 s = .ok g3 ∧
      g3.dist = g1.dist ∧ g3.path = g1.path ∧
      g1.table = g.table ∧ g1.size = g.size ∧ g1.n_edges = g.n_edges ∧
      g3.table = g.table ∧ g3.size = g.size ∧ g3.n_edges = g.n_edges) ∧
    (∃ g1 g3, pwsssp fuel g s = .ok g1 ∧ pwsssp fuel g2 s = .ok g3 ∧
      g3.dist = g1.dist ∧ g3.path = g1.path ∧ g3.done = g1.done ∧
      g1.table = g.table ∧ g1.size = g.size ∧ g1.n_edges = g.n_edges ∧
      g3.table = g.table ∧ g3.size = g.size ∧ g3.n_edges = g.n_edges) := by
  obtain ⟨hu, hw⟩ := run_state_transfer g g2 s fuel ht hn he hd hp ho
  obtain ⟨g1, _, hrun1, _⟩ := uwsssp_final hg hs hf
  obtain ⟨g4, _, hrun2, _⟩ := pwsssp_final hg hs hf
  obtain ⟨a1, a2, a3, g3, b1, b2, b3, b4, b5, b6⟩ := hu g1 hrun1
  obtain ⟨c1, c2, c3, g5, d1, d2, d3, d4, d5, d6, d7⟩ := hw g4 hrun2
  exact ⟨⟨g1, g3, hrun1, b1, b2, b3, a1, a2, a3, b4.trans a1, b5.trans a2, b6.trans a3⟩,
    ⟨g4, g5, hrun2, d1, d2, d3, d4, c1, c2, c3, d5.trans c1, d6.trans c2, d7.trans c3⟩⟩

theorem run_ignores_old_state_witness :
    (∃ g1 g3, uwsssp 3 exampleGraph 1 = .ok g1 ∧ uwsssp 3 exampleGraphUsed 1 = .ok g3 ∧
      g3.dist = g1.dist ∧ g3.path = g1.path ∧
      g1.table = exampleGraph.table ∧ g1.size = exampleGraph.size ∧
      g1.n_edges = exampleGraph.n_edges ∧
      g3.table = exampleGraph.table ∧ g3.size = exampleGraph.size ∧
      g3.n_edges = exampleGraph.n_edges) ∧
    (∃ g1 g3, pwsssp 3 exampleGraph 1 = .ok g1 ∧ pwsssp 3 exampleGraphUsed 1 = .ok g3 ∧
      g3.dist = g1.dist ∧ g3.path = g1.path ∧ g3.done = g1.done ∧
      g1.table = exampleGraph.table ∧ g1.size = exampleGraph.size ∧
      g1.n_edges = exampleGraph.n_edges ∧
      g3.table = exampleGraph.table ∧ g3.size = exampleGraph.size ∧
      g3.n_edges = exampleGraph.n_edges) :=
  run_ignores_old_state exampleGraph exampleGraphUsed 1 3 (by decide) rfl rfl rfl rfl rfl rfl
    (by decide) (by decide)

/-- C14: for two well-formed graphs with the same n whose adjacency lists hold the same
(from, to) pairs in the same order, whatever the weights, `uwsssp s` for a source in 1..n
returns on both (with fuel n or more) with the same `dist` and the same `path`. -/
theorem uwsssp_ignores_weights (g g2 : Digraph) (s : Int) (fuel : Nat) (hg : WellFormed g)
    (hg2 : WellFormed g2) (hn : g2.size = g.size)
    (hpairs : g2.table.map (List.map (fun e => (e.from_, e.to_)))
      = g.table.map (List.map (fun e => (e.from_, e.to_))))
    (hs : 1 ≤ s ∧ s ≤ g.size) (hf : g.size ≤ fuel) :
    ∃ g1 g3, uwsssp fuel g s = .ok g1 ∧ uwsssp fuel g2 s = .ok g3 ∧
      g3.dist = g1.dist ∧ g3.path = g1.path := by
  obtain ⟨g1, _, hrun, _⟩ := uwsssp_final hg hs hf
  obtain ⟨_, r1, hloop, rfl⟩ := uwsssp_ok hrun
  refine ⟨_, { g2 with dist := r1.dist, path := r1.path }, hrun, ?_, rfl, rfl⟩
  have hd : g2.dist.length = g.dist.length := by
    rw [hg2.2.2.2.1, hg.2.2.2.1, hn]
  have hp : g2.path.length = g.path.length := by
    rw [hg2.2.2.2.2.1, hg.2.2.2.2.1, hn]
  have hloop2 := uwssspLoop_done g.table g2.done fuel
    { dist := wr (List.replicate g.dist.length INT_MAX) s 0,
      path := List.replicate g.path.length 0, done := g.done } [s]
  rw [hloop] at hloop2
  simp only at hloop2
  unfold uwsssp
  rw [hn, if_neg (by simpa using hs), hd, hp,
    uwssspLoop_targets (row_targets_of_pairs hpairs), hloop2]

theorem uwsssp_ignores_weights_witness :
    ∃ g1 g3, uwsssp 3 exampleGraph 1 = .ok g1 ∧ uwsssp 3 exampleGraphReweighted 1 = .ok g3 ∧
      g3.dist = g1.dist ∧ g3.path = g1.path :=
  uwsssp_ignores_weights exampleGraph exampleGraphReweighted 1 3 (by decide) (by decide) rfl
    rfl (by decide) (by decide)

/-- C15: `find_smallest_undone_distance_vertex` returns 0 if and only if no vertex of 1..n
is not done with a distance below `INT_MAX`; otherwise it returns a vertex of 1..n that is
not done, whose distance is below `INT_MAX` and least among the vertices not done, and
which is the lowest index among the vertices not done at that distance. -/
theorem find_smallest_lowest (n : Int) (r : Run) :
    (find_smallest_undone_distance_vertex n r = 0 ↔
      ¬ ∃ i, 1 ≤ i ∧ i ≤ n ∧ rdDone r.done i = false ∧ rd r.dist i < INT_MAX) ∧
    (find_smallest_undone_distance_vertex n r ≠ 0 →
      1 ≤ find_smallest_undone_distance_vertex n r ∧
      find_smallest_undone_distance_vertex n r ≤ n ∧
      rdDone r.done (find_smallest_undone_distance_vertex n r) = false ∧
      rd r.dist (find_smallest_undone_distance_vertex n r) < INT_MAX ∧
      (∀ i, 1 ≤ i → i ≤ n → rdDone r.done i = false →
        rd r.dist (find_smallest_undone_distance_vertex n r) ≤ rd r.dist i) ∧
      (∀ i, 1 ≤ i → i ≤ n → rdDone r.done i = false →
        rd r.dist i = rd r.dist (find_smallest_undone_distance_vertex n r) →
        find_smallest_undone_distance_vertex n r ≤ i)) := by
  unfold find_smallest_undone_distance_vertex
  rcases scanMin_first r (vertexIds n) INT_MAX 0 with ⟨h1, h2⟩ | ⟨l1, l2, h1, h2, h3, h4, h5⟩
  · constructor
    · refine ⟨fun _ => ?_, fun _ => h1⟩
      rintro ⟨i, hi1, hi2, hi3, hi4⟩
      rcases h2 i (mem_vertexIds.2 ⟨hi1, hi2⟩) with hd | hd
      · rw [hi3] at hd; cases hd
      · omega
    · intro hne; exact absurd h1 hne
  · generalize scanMin r (vertexIds n) INT_MAX 0 = res at h1 h2 h3 h4 h5 ⊢
    have hmem : res ∈ vertexIds n := by
      rw [h1]; simp
    have hr := mem_vertexIds.1 hmem
    have hsorted := vertexIds_sorted n
    rw [h1] at hsorted
    have hafter : ∀ y ∈ l2, res < y :=
      (List.pairwise_cons.1 (List.pairwise_append.1 hsorted).2.1).1
    have hsplit : ∀ i, 1 ≤ i → i ≤ n → i ∈ l1 ∨ i = res ∨ i ∈ l2 := by
      intro i hi1 hi2
      have := mem_vertexIds.2 ⟨hi1, hi2⟩
      rw [h1] at this
      simpa using this
    constructor
    · constructor
      · intro h0; omega
      · intro hno
        exact absurd ⟨_, hr.1, hr.2, h2, h3⟩ hno
    · intro _
      refine ⟨hr.1, hr.2, h2, h3, ?_, ?_⟩
      · intro i hi1 hi2 hi3
        rcases hsplit i hi1 hi2 with hm | hm | hm
        · rcases h4 i hm with hd | hd
          · rw [hi3] at hd; cases hd
          · omega
        · rw [hm]
        · rcases h5 i hm with hd | hd
          · rw [hi3] at hd; cases hd
          · exact hd
      · intro i hi1 hi2 hi3 hi4
        rcases hsplit i hi1 hi2 with hm | hm | hm
        · rcases h4 i hm with hd | hd
          · rw [hi3] at hd; cases hd
          · omega
        · omega
        · have := hafter i hm
          omega

/-- C16: on a well-formed graph and for a source in 1..n, cycles and self-loops included,
`uwsssp s` and `pwsssp s` return as soon as their loop bodies may run n times. The body of
the loop of `uwsssp` runs once for each vertex taken from the queue and these vertices are
pairwise different; the body of the loop of `pwsssp` runs once for the source and once for
each vertex it marks done, and these are pairwise different; so neither body runs more than
n times. -/
theorem runs_terminate (g : Digraph) (s : Int) (fuel : Nat) (hg : WellFormed g)
    (hs : 1 ≤ s ∧ s ≤ g.size) (hf : g.size ≤ fuel) :
    (∃ g1, uwsssp fuel g s = .ok g1 ∧
      uwsssp (uwssspOrder fuel g s).length g s = .ok g1) ∧
    (uwssspOrder fuel g s).Nodup ∧ ((uwssspOrder fuel g s).length : Int) ≤ g.size ∧
    (∃ g1, pwsssp fuel g s = .ok g1 ∧
      pwsssp (pwssspOrder fuel g s).length g s = .ok g1) ∧
    (pwssspOrder fuel g s).Nodup ∧ ((pwssspOrder fuel g s).length : Int) ≤ g.size := by
  obtain ⟨h1, h2, _, hd, hp, ho, _⟩ := id hg
  obtain ⟨g1, _, hrun1, _⟩ := uwsssp_final hg hs hf
  obtain ⟨g2, _, hrun2, _⟩ := pwsssp_final hg hs hf
  have hb := uwssspLoopOrder_inv hg.tableOK h2 fuel [] s [] _
    (bfs_init g.table g.done hs hd hp)
  have hj := pwssspLoopOrder_inv hg.tableOK fuel [] s _ (dij_init (t := g.table) hs hd hp ho)
  simp only [List.nil_append] at hb hj
  have e1 : uwssspOrder fuel g s = uwssspLoopOrder g.table fuel
      { dist := wr (List.replicate g.dist.length INT_MAX) s 0,
        path := List.replicate g.path.length 0, done := g.done } [s] := by
    unfold uwssspOrder
    rw [if_neg (by simpa using hs)]
  have e2 : pwssspOrder fuel g s = pwssspLoopOrder g.table g.size fuel s
      { dist := wr (List.replicate g.dist.length INT_MAX) s 0,
        path := List.replicate g.path.length 0,
        done := wr (List.replicate g.done.length false) s true } := by
    unfold pwssspOrder
    rw [if_neg (by simpa using hs)]
  refine ⟨⟨g1, hrun1, uwsssp_order_fuel hrun1⟩, ?_, ?_, ⟨g2, hrun2, pwsssp_order_fuel hrun2⟩,
    ?_, ?_⟩
  · rw [e1]; exact hb.1
  · rw [e1]; exact length_le_of_nodup_range1 h1 hb.1 hb.2
  · rw [e2]; exact hj.1
  · rw [e2]; exact length_le_of_nodup_range1 h1 hj.1 hj.2

theorem runs_terminate_witness :
    (∃ g1, uwsssp 3 cycleGraph 1 = .ok g1 ∧
      uwsssp (uwssspOrder 3 cycleGraph 1).length cycleGraph 1 = .ok g1) ∧
    (uwssspOrder 3 cycleGraph 1).Nodup ∧
    ((uwssspOrder 3 cycleGraph 1).length : Int) ≤ cycleGraph.size ∧
    (∃ g1, pwsssp 3 cycleGraph 1 = .ok g1 ∧
      pwsssp (pwssspOrder 3 cycleGraph 1).length cycleGraph 1 = .ok g1) ∧
    (pwssspOrder 3 cycleGraph 1).Nodup ∧
    ((pwssspOrder 3 cycleGraph 1).length : Int) ≤ cycleGraph.size :=
  runs_terminate cycleGraph 1 3 (by decide) (by decide) (by decide)

/-- C17: on a well-formed graph with non-negative weights whose total is at most `INT_MAX`
and for a source in 1..n, every sum `dist[v] + w` that `pwsssp` evaluates (only for targets
that are not done) lies in the range of `int`, at most `INT_MAX`, so its 32-bit value is
the exact one; and every sum `dist[v] + 1` that `uwsssp` evaluates lies in `1..n-1`. -/
theorem sums_do_not_overflow (g : Digraph) (s : Int) (fuel : Nat) (hg : WellFormed g)
    (hw : NonNeg g.table) (ht : totalWeight g.table ≤ INT_MAX) (hs : 1 ≤ s ∧ s ≤ g.size) :
    (∀ x ∈ pwssspSums fuel g s, -2147483648 ≤ x ∧ x ≤ INT_MAX ∧ wrap32 x = x) ∧
    (∀ x ∈ uwssspSums fuel g s, 1 ≤ x ∧ x ≤ g.size - 1 ∧ wrap32 x = x) := by
  obtain ⟨h1, h2, _, hd, hp, ho, _⟩ := id hg
  constructor
  · intro x hx
    unfold pwssspSums at hx
    rw [if_neg (by simpa using hs)] at hx
    exact pwssspLoopSums_bound hg.tableOK (bounded_of_total hw ht) fuel [] s _
      (dij_init (t := g.table) hs hd hp ho) x hx
  · intro x hx
    unfold uwssspSums at hx
    rw [if_neg (by simpa using hs)] at hx
    exact uwssspLoopSums_bound hg.tableOK h2 fuel [] s [] _
      (bfs_init g.table g.done hs hd hp) x hx

theorem sums_do_not_overflow_witness :
    (∀ x ∈ pwssspSums 3 exampleGraph 1, -2147483648 ≤ x ∧ x ≤ INT_MAX ∧ wrap32 x = x) ∧
    (∀ x ∈ uwssspSums 3 exampleGraph 1, 1 ≤ x ∧ x ≤ exampleGraph.size - 1 ∧ wrap32 x = x) :=
  sums_do_not_overflow exampleGraph 1 3 (by decide) (by decide) (by decide) (by decide)

/-- C18: on a well-formed graph in which every edge has weight 1 and for a source in 1..n,
`pwsssp s` and `uwsssp s` return (with fuel n or more) with the same `dist`. -/
theorem unit_weights_same_dist (g : Digraph) (s : Int) (fuel : Nat) (hg : WellFormed g)
    (hu : ∀ l ∈ g.table, ∀ e ∈ l, e.weight = 1) (hs : 1 ≤ s ∧ s ≤ g.size)
    (hf : g.size ≤ fuel) :
    ∃ g1 g2, pwsssp fuel g s = .ok g1 ∧ uwsssp fuel g s = .ok g2 ∧ g1.dist = g2.dist := by
  obtain ⟨h1, h2, _, hd, _⟩ := id hg
  have hnn : NonNeg g.table := fun l hl e he => by rw [hu l hl e he]; decide
  obtain ⟨g1, L1, hrun1, _, _, _, _, _, hfin⟩ := pwsssp_final hg hs hf
  have hF1 := hfin hnn (bounded_of_unit hg hu)
  obtain ⟨g2, L2, hrun2, _, _, _, _, hF2⟩ := uwsssp_final hg hs hf
  refine ⟨g1, g2, hrun1, hrun2, ?_⟩
  obtain ⟨_, r1, hloop1, e1⟩ := pwsssp_ok hrun1
  obtain ⟨_, r2, hloop2, e2⟩ := uwsssp_ok hrun2
  obtain ⟨k1, k2⟩ := pwssspLoop_keep hg.tableOK _ _ _ _ hloop1
  obtain ⟨k3, k4⟩ := uwssspLoop_keep hg.tableOK _ _ _ _ hloop2
  have hd1 : g1.dist = r1.dist := by rw [e1]
  have hd2 : g2.dist = r2.dist := by rw [e2]
  apply list_eq_of_rd (n := g.size)
  · rw [hd1, k1, length_wr, List.length_replicate, hd]
  · rw [hd2, k3, length_wr, List.length_replicate, hd]
  · intro v hv0 hvn
    by_cases hv : v = 0
    · rw [hv, hd1, hd2, k2, k4]
    · by_cases hr : ∃ p, IsPath g.table s p v
      · obtain ⟨_, ⟨p1, hp1, c1⟩, m1⟩ := hF1.dist_min hr
        obtain ⟨_, ⟨p2, hp2, c2⟩, m2⟩ := hF2.dist_min hr
        have a1 := m1 p2 hp2
        have a2 := m2 p1 hp1
        rw [← pathWeight_eq, pathWeight_unit hu hp2.stored] at a1
        rw [← pathWeight_eq, pathWeight_unit hu hp1.stored] at c1
        rw [pathCost_one] at a2 c2
        omega
      · rw [(hF1.shape.unreachable (by omega) hvn hr).1,
          (hF2.shape.unreachable (by omega) hvn hr).1]

theorem unit_weights_same_dist_witness :
    ∃ g1 g2, pwsssp 4 unitGraph 1 = .ok g1 ∧ uwsssp 4 unitGraph 1 = .ok g2 ∧
      g1.dist = g2.dist :=
  unit_weights_same_dist unitGraph 1 4 (by decide) (by decide) (by decide) (by decide)

/-- C19: on a well-formed graph without an edge linking (e.from, e.to), for an edge `e`
with endpoints in 1..n, `insertEdge e` succeeds and `removeEdge e` on its result succeeds
and returns the original graph: the same adjacency lists in the same order, the same edge
count, and every other member as it was. -/
theorem insert_remove_round_trip (g : Digraph) (e : Edge) (hg : WellFormed g)
    (hf : 1 ≤ e.from_ ∧ e.from_ ≤ g.size) (ht : 1 ≤ e.to_ ∧ e.to_ ≤ g.size)
    (hno : ¬ ∃ ed ∈ row g.table e.from_, ed.to_ = e.to_) :
    ∃ g1, insertEdge g e = .ok g1 ∧ removeEdge g1 e = .ok g := by
  have hk : e.from_.toNat < g.table.length := by
    have := hg.2.2.1
    omega
  have h1 := insertEdge_new hg hf ht hno
  have hg1 := insertEdge_wf hg h1
  refine ⟨_, h1, ?_⟩
  have hrow : row (wr g.table e.from_ (row g.table e.from_ ++ [e])) e.from_
      = row g.table e.from_ ++ [e] := row_wr_same hk
  have hyes : ∃ ed ∈ row (wr g.table e.from_ (row g.table e.from_ ++ [e])) e.from_,
      ed.to_ = e.to_ := ⟨e, by simp [hrow], rfl⟩
  rw [(removeEdge_old hg1 hf ht hyes).1]
  have hfil : (row g.table e.from_ ++ [e]).filter (fun ed => decide (ed.to_ ≠ e.to_))
      = row g.table e.from_ := by
    rw [List.filter_append,
      List.filter_eq_self.2 (fun a ha => by simpa using fun h => hno ⟨a, ha, h⟩)]
    simp
  have htab : wr (wr g.table e.from_ (row g.table e.from_ ++ [e])) e.from_
      (row g.table e.from_) = g.table := by
    simp only [wr, row, List.set_set]
    exact set_getD_self _ _ _ hk
  simp only [hrow, hfil, htab]
  have hne : g.n_edges + 1 - 1 = g.n_edges := by omega
  rw [hne]

theorem insert_remove_round_trip_witness :
    ∃ g1, insertEdge exampleGraph ⟨3, 2, 8⟩ = .ok g1 ∧ removeEdge g1 ⟨3, 2, 8⟩ = .ok exampleGraph :=
  insert_remove_round_trip exampleGraph ⟨3, 2, 8⟩ (by decide) (by decide) (by decide)
    (by decide)

/-- C20: in every graph the constructors, `insertEdge` and `removeEdge` can produce, n is
at least 1, all vectors have n + 1 slots, `n_edges` is the total length of the adjacency
lists of the vertices 1..n, slot 0 of `table` is empty, every edge stored in the list of `v`
has `from = v` with `v` and `to` in 1..n, and every subscript `uwsssp` and `pwsssp` apply to
`table`, `dist`, `path` and `done` lies in 1..n, hence inside the vectors. -/
theorem built_invariant (g : Digraph) (hb : Built g) (s : Int) (fuel : Nat) :
    1 ≤ g.size ∧
    g.table.length = (g.size + 1).toNat ∧ g.dist.length = (g.size + 1).toNat ∧
    g.path.length = (g.size + 1).toNat ∧ g.done.length = (g.size + 1).toNat ∧
    g.n_edges = (((vertexIds g.size).map (fun v => (row g.table v).length)).sum : Nat) ∧
    row g.table 0 = [] ∧
    (∀ v, ∀ e ∈ row g.table v,
      e.from_ = v ∧ 1 ≤ v ∧ v ≤ g.size ∧ 1 ≤ e.to_ ∧ e.to_ ≤ g.size) ∧
    (∀ i ∈ uwssspSubscripts fuel g s, 1 ≤ i ∧ i ≤ g.size ∧ i.toNat < g.dist.length) ∧
    (∀ i ∈ pwssspSubscripts fuel g s, 1 ≤ i ∧ i ≤ g.size ∧ i.toNat < g.dist.length) := by
  have hg := hb.wellFormed
  obtain ⟨h1, h2, hlen, hd, hp, ho, hn, hhead, _, _⟩ := id hg
  have hrow0 : row g.table 0 = [] := by
    cases ht : g.table with
    | nil => rfl
    | cons a t => rw [ht] at hhead; simp at hhead; simp [row, hhead]
  have hin : ∀ i : Int, 1 ≤ i ∧ i ≤ g.size → 1 ≤ i ∧ i ≤ g.size ∧ i.toNat < g.dist.length :=
    fun i hi => ⟨hi.1, hi.2, by rw [hd]; omega⟩
  have hbody : ∀ v, 1 ≤ v ∧ v ≤ g.size → ∀ i ∈ bodySubscripts g.table v,
      1 ≤ i ∧ i ≤ g.size := by
    intro v hv i hi
    unfold bodySubscripts at hi
    rcases List.mem_cons.1 hi with rfl | hi
    · exact hv
    · obtain ⟨e, he, rfl⟩ := List.mem_map.1 hi
      exact (hg.row_mem he).2.2.2
  refine ⟨h1, hlen, hd, hp, ho, ?_, hrow0, fun v e he => hg.row_mem he, ?_, ?_⟩
  · rw [hn, sum_rows g.table g.size hlen (by omega) hhead]
  · intro i hi
    unfold uwssspSubscripts at hi
    by_cases hs : 1 ≤ s ∧ s ≤ g.size
    · rw [if_neg (by simpa using hs)] at hi
      have hord := uwssspLoopOrder_inv hg.tableOK h2 fuel [] s [] _
        (bfs_init g.table g.done hs hd hp)
      simp only [List.nil_append] at hord
      apply hin
      rcases List.mem_cons.1 hi with rfl | hi
      · exact hs
      · obtain ⟨v, hv, hiv⟩ := List.mem_flatMap.1 hi
        unfold uwssspOrder at hv
        rw [if_neg (by simpa using hs)] at hv
        exact hbody v (hord.2 v hv) i hiv
    · rw [if_pos hs] at hi
      simp at hi
  · intro i hi
    unfold pwssspSubscripts at hi
    by_cases hs : 1 ≤ s ∧ s ≤ g.size
    · rw [if_neg (by simpa using hs)] at hi
      have hord := pwssspLoopOrder_inv hg.tableOK fuel [] s _
        (dij_init (t := g.table) hs hd hp ho)
      simp only [List.nil_append] at hord
      apply hin
      rcases List.mem_cons.1 hi with rfl | hi
      · exact hs
      · rcases List.mem_append.1 hi with hi | hi
        · obtain ⟨v, hv, hiv⟩ := List.mem_flatMap.1 hi
          unfold pwssspOrder at hv
          rw [if_neg (by simpa using hs)] at hv
          exact hbody v (hord.2 v hv) i hiv
        · exact mem_vertexIds.1 hi
    · rw [if_pos hs] at hi
      simp at hi

theorem built_invariant_witness :
    Built exampleGraph ∧
    1 ≤ exampleGraph.size ∧
    exampleGraph.table.length = (exampleGraph.size + 1).toNat ∧
    exampleGraph.dist.length = (exampleGraph.size + 1).toNat ∧
    exampleGraph.path.length = (exampleGraph.size + 1).toNat ∧
    exampleGraph.done.length = (exampleGraph.size + 1).toNat ∧
    exampleGraph.n_edges
      = (((vertexIds exampleGraph.size).map (fun v => (row exampleGraph.table v).length)).sum
          : Nat) ∧
    row exampleGraph.table 0 = [] ∧
    (∀ v, ∀ e ∈ row exampleGraph.table v,
      e.from_ = v ∧ 1 ≤ v ∧ v ≤ exampleGraph.size ∧ 1 ≤ e.to_ ∧ e.to_ ≤ exampleGraph.size) ∧
    (∀ i ∈ uwssspSubscripts 3 exampleGraph 1,
      1 ≤ i ∧ i ≤ exampleGraph.size ∧ i.toNat < exampleGraph.dist.length) ∧
    (∀ i ∈ pwssspSubscripts 3 exampleGraph 1,
      1 ≤ i ∧ i ≤ exampleGraph.size ∧ i.toNat < exampleGraph.dist.length) :=
  ⟨Built.createFrom exampleEdges 3 _ rfl,
   built_invariant exampleGraph (Built.createFrom exampleEdges 3 _ rfl) 1 3⟩


end TND004
